import Mathlib

/-!
Verification of the server-readme-reviewer pipeline
(`0_identify_server_addition_prs.py`, `2_merge_servers.py`,
`3_close_original_prs.py`).

Modelling conventions:
* A text line is a `List Char`.  A document (the README) is a `List (List Char)`
  of newline-stripped lines: `f.readlines()` followed by `f.writelines(...)`
  round-trips through this representation, `line.rstrip(chr 10)` is the identity
  on it and writing `line + chr 10` reconstructs the file.
* Python `str.strip()` / regex `\s` are modelled on the ASCII whitespace set
  (space, tab, LF, VT, FF, CR); `str.lower()` is modelled on ASCII letters.
* The regular expressions of the source are compiled by hand into deterministic
  parsers; each parser is annotated with the regex it implements, and the
  backtracking behaviour of `re` on these particular patterns is deterministic
  because every repeated character class excludes the delimiter that follows it.
* Network calls are modelled by oracle parameters (a list of transport
  outcomes, an optional diff text, an optional PR status).
-/

namespace McpMisc

/-- ASCII whitespace, the characters matched by Python `str.strip()` and `\s`
on ASCII input: space, tab, LF, VT, FF, CR. -/
def pyWs (c : Char) : Bool :=
  c = ' ' || c = '\t' || c = '\n' || c = '\x0b' || c = '\x0c' || c = '\r'

/-- `str.lstrip()` on a char list. -/
def lstrip (l : List Char) : List Char := l.dropWhile pyWs

/-- `str.rstrip()` on a char list. -/
def rstrip (l : List Char) : List Char := ((l.reverse).dropWhile pyWs).reverse

/-- Python `str.strip()`. -/
def pyStrip (l : List Char) : List Char := rstrip (lstrip l)

/-- ASCII `str.lower()` on one character. -/
def pyLowerChar : Char → Char
  | 'A' => 'a' | 'B' => 'b' | 'C' => 'c' | 'D' => 'd' | 'E' => 'e' | 'F' => 'f'
  | 'G' => 'g' | 'H' => 'h' | 'I' => 'i' | 'J' => 'j' | 'K' => 'k' | 'L' => 'l'
  | 'M' => 'm' | 'N' => 'n' | 'O' => 'o' | 'P' => 'p' | 'Q' => 'q' | 'R' => 'r'
  | 'S' => 's' | 'T' => 't' | 'U' => 'u' | 'V' => 'v' | 'W' => 'w' | 'X' => 'x'
  | 'Y' => 'y' | 'Z' => 'z' | c => c

/-- ASCII `str.lower()`. -/
def pyLower (l : List Char) : List Char := l.map pyLowerChar

/-- `l.startswith(p)` on char lists. -/
def startsWithL : List Char → List Char → Bool
  | _, [] => true
  | [], _ :: _ => false
  | a :: as, b :: bs => a = b && startsWithL as bs

/-- Python substring containment `pat in l`. -/
def containsSub (pat : List Char) : List Char → Bool
  | [] => startsWithL [] pat
  | c :: rest => startsWithL (c :: rest) pat || containsSub pat rest

/-- `text.split(chr 10)`: split a char list at newline characters. -/
def splitOnNl : List Char → List (List Char)
  | [] => [[]]
  | c :: rest =>
    if c = '\n' then [] :: splitOnNl rest
    else
      match splitOnNl rest with
      | [] => [[c]]
      | x :: xs => (c :: x) :: xs

/-- Case-insensitive (Python `key(x) <= key(y)`) comparison: lexicographic
order on code points, as Python compares strings. -/
def lexLe : List Char → List Char → Bool
  | [], _ => true
  | _ :: _, [] => false
  | a :: as, b :: bs =>
    if a.toNat < b.toNat then true
    else if b.toNat < a.toNat then false
    else lexLe as bs

/-- Decimal digit character of `n % 10`. -/
def digitChar (n : Nat) : Char :=
  match n % 10 with
  | 0 => '0' | 1 => '1' | 2 => '2' | 3 => '3' | 4 => '4'
  | 5 => '5' | 6 => '6' | 7 => '7' | 8 => '8' | _ => '9'

/-- Python `str(n)` for a natural number, fuel-indexed so that it reduces in
the kernel; `natToDigits` supplies fuel `n`, enough since the argument at
least halves every step. -/
def natToDigitsF : Nat → Nat → List Char
  | 0, n => [digitChar n]
  | f + 1, n =>
    if n < 10 then [digitChar n] else natToDigitsF f (n / 10) ++ [digitChar n]

/-- Python `str(n)`. -/
def natToDigits (n : Nat) : List Char := natToDigitsF n n

/-- Numeric value of a decimal digit character. -/
def digitVal (c : Char) : Nat :=
  match c with
  | '0' => 0 | '1' => 1 | '2' => 2 | '3' => 3 | '4' => 4
  | '5' => 5 | '6' => 6 | '7' => 7 | '8' => 8 | '9' => 9
  | _ => 0

/-- Decimal value of a digit string. -/
def digitsToNat (l : List Char) : Nat :=
  l.foldl (fun a c => a * 10 + digitVal c) 0

/-- Python `int(s)` restricted to plain digit strings (the only shapes this
pipeline ever feeds it); other shapes are mapped to `none` (Python raises). -/
def pyIntNat (l : List Char) : Option Nat :=
  if l ≠ [] ∧ l.all Char.isDigit then some (digitsToNat l) else none

/-! ## Merge engine: `2_merge_servers.py` -/

/-- The first char of the pattern tail `\*\*\[([^\]]+)\]` and friends.
`takeUntil1 stop l` models `([^X]+)X`: a nonempty run of characters other than
`stop`, then `stop`; returns the run and the remainder after `stop`. -/
def takeUntil1 (stop : Char) (l : List Char) : Option (List Char × List Char) :=
  let pre := l.takeWhile (fun c => c ≠ stop)
  match l.drop pre.length with
  | [] => none
  | _ :: rest => if pre = [] then none else some (pre, rest)

/-- `[^X]*X`: possibly empty run, then `stop`. -/
def takeUntil0 (stop : Char) (l : List Char) : Option (List Char × List Char) :=
  let pre := l.takeWhile (fun c => c ≠ stop)
  match l.drop pre.length with
  | [] => none
  | _ :: rest => some (pre, rest)

/-- Consume a literal string. -/
def parseLit : List Char → List Char → Option (List Char)
  | [], l => some l
  | _ :: _, [] => none
  | c :: cs, x :: xs => if x = c then parseLit cs xs else none

/-- Models the shared prefix `^\s*-\s+(?:<img[^>]*>\s+)?\*\*\[` of the two
`re.match` patterns in `extract_server_name_from_line` /
`extract_url_from_line` (2_merge_servers.py lines 108, 118).  Returns the rest
of the line after the opening `[`.  Deterministic because `\s+` is followed by
a non-whitespace literal and `[^>]*` excludes its delimiter. -/
def parseEntryHead (t : List Char) : Option (List Char) :=
  match lstrip t with
  | '-' :: t2 =>
    match t2 with
    | c :: _ =>
      if pyWs c then
        let t3 := lstrip t2
        match t3 with
        | '<' :: _ =>
          match parseLit ("<img".toList) t3 with
          | some r =>
            match takeUntil0 '>' r with
            | some (_, r2) =>
              match r2 with
              | c2 :: _ => if pyWs c2 then parseLit ("**[".toList) (lstrip r2) else none
              | [] => none
            | none => none
          | none => none
        | _ => parseLit ("**[".toList) t3
      else none
    | [] => none
  | _ => none

/-- `extract_server_name_from_line` (2_merge_servers.py lines 104-112):
match `^\s*-\s+(?:<img[^>]*>\s+)?\*\*\[([^\]]+)\]` against `line.strip()`,
returning the bracketed name; fall back to the stripped line. -/
def extractServerNameFromLine (line : List Char) : List Char :=
  let t := pyStrip line
  match parseEntryHead t with
  | some r =>
    match takeUntil1 ']' r with
    | some (nm, _) => nm
    | none => t
  | none => t

/-- `extract_url_from_line` (2_merge_servers.py lines 114-122):
match `^\s*-\s+(?:<img[^>]*>\s+)?\*\*\[[^\]]+\]\(([^)]+)\)` against
`line.strip()`, returning the URL; fall back to the stripped line. -/
def extractUrlFromLine (line : List Char) : List Char :=
  let t := pyStrip line
  match parseEntryHead t with
  | some r =>
    match takeUntil1 ']' r with
    | some (_, r2) =>
      match r2 with
      | '(' :: r3 =>
        match takeUntil1 ')' r3 with
        | some (u, _) => u
        | none => t
      | _ => t
    | none => t
  | none => t

/-- Deduplication key: `extract_url_from_line(line).lower()`. -/
def urlKey (line : List Char) : List Char := pyLower (extractUrlFromLine line)

/-- Sorting key: `extract_server_name_from_line(line).lower()`. -/
def nameKey (line : List Char) : List Char := pyLower (extractServerNameFromLine line)

/-- The comparison used by the stable sort
`unique_servers.sort(key=lambda x: extract_server_name_from_line(x).lower())`. -/
def nameLe (a b : List Char) : Bool := lexLe (nameKey a) (nameKey b)

/-- A line that terminates the section scan:
`line.strip().startswith(dd3) or line.strip().startswith(dd2)` for the two
heading ranks (2_merge_servers.py line 138). -/
def isBoundaryLine (l : List Char) : Bool :=
  startsWithL (pyStrip l) ("### ".toList) || startsWithL (pyStrip l) ("## ".toList)

/-- A bullet line: `line.strip().startswith(dash-space)`. -/
def isBulletLine (l : List Char) : Bool := startsWithL (pyStrip l) ("- ".toList)

/-- The filter of the existing-servers extraction (2_merge_servers.py lines
175-184): a line is kept unless it starts (after strip) with a heading mark,
a quote mark, is blank, or does not start with a bullet. -/
def keepLine (l : List Char) : Bool :=
  let t := pyStrip l
  !(startsWithL t ("### ".toList) || startsWithL t ("> ".toList) ||
    t.isEmpty || !startsWithL t ("- ".toList))

/-- The scanning loop of `find_servers_section` (2_merge_servers.py lines
124-141), carrying the running index and the latest header hit; note that a
line containing the header always updates `start` and skips the boundary
check (`continue`). -/
def findSectionLoop (hdr : List Char) :
    List (List Char) → Nat → Option Nat → Option Nat × Option Nat
  | [], _, st => (st, none)
  | l :: ls, i, st =>
    if containsSub hdr l then findSectionLoop hdr ls (i + 1) (some i)
    else
      match st with
      | some s =>
        if isBoundaryLine l then (some s, some i)
        else findSectionLoop hdr ls (i + 1) (some s)
      | none => findSectionLoop hdr ls (i + 1) none

/-- `find_servers_section`: returns `(start?, end)` where a missing end is the
document length (lines 143-146).  When the header is not found the Python
function returns `(None, None)`; callers only test `start`, so the end value
is a dummy. -/
def findSection (doc : List (List Char)) (hdr : List Char) : Option Nat × Nat :=
  match findSectionLoop hdr doc 0 none with
  | (some s, some e) => (some s, e)
  | (some s, none) => (some s, doc.length)
  | (none, _) => (none, 0)

/-- The insertion-point scan (2_merge_servers.py lines 217-222): from
`start+1`, advance while below `end` and the current line is not a bullet.
Fuel-indexed for kernel reduction; the wrapper supplies `e - idx`, the exact
number of remaining iterations. -/
def findInsertLoop (doc : List (List Char)) : Nat → Nat → Nat → Nat
  | 0, idx, _ => idx
  | f + 1, idx, e =>
    if idx < e then
      if isBulletLine (doc.getD idx []) then idx
      else findInsertLoop doc f (idx + 1) e
    else idx

/-- The insertion index: first bullet at or after `idx`, else `e`. -/
def findInsertIdx (doc : List (List Char)) (idx e : Nat) : Nat :=
  findInsertLoop doc (e - idx) idx e

/-- First-occurrence deduplication by lowered URL (2_merge_servers.py lines
199-209), with the `seen_urls` set carried as a list of keys. -/
def dedupAux (seen : List (List Char)) : List (List Char) → List (List Char)
  | [] => []
  | x :: xs =>
    if urlKey x ∈ seen then dedupAux seen xs
    else x :: dedupAux (urlKey x :: seen) xs

/-- `dedupByUrl` = the whole duplicate-removal pass. -/
def dedupByUrl (l : List (List Char)) : List (List Char) := dedupAux [] l

/-- The existing entries of the located section (2_merge_servers.py lines
171-184); `[]` when the section is absent (the caller bails out first). -/
def existingServerLines (doc : List (List Char)) (hdr : List Char) :
    List (List Char) :=
  match findSection doc hdr with
  | (some s, e) => ((doc.drop s).take (e - s)).filter keepLine
  | (none, _) => []

/-- Stable insertion into a sorted list: the new element goes before the first
element it compares `le` to, hence before no earlier equal element. -/
def insertLe {α : Type} (le : α → α → Bool) (a : α) : List α → List α
  | [] => [a]
  | b :: l => if le a b then a :: b :: l else b :: insertLe le a l

/-- Stable sort by `le`.  Python's `list.sort` is stable, and any two stable
sorts with respect to a total transitive boolean preorder produce the same
output list, so insertion sort is a faithful model of it. -/
def sortLe {α : Type} (le : α → α → Bool) : List α → List α
  | [] => []
  | a :: l => insertLe le a (sortLe le l)

/-- The final sorted, deduplicated entry block spliced into the document
(2_merge_servers.py lines 196-212): existing entries, then the incoming
validated record lines, deduplicated by lowered URL (first wins) and stably
sorted by lowered name. -/
def mergedServerLines (doc : List (List Char)) (recLines : List (List Char))
    (hdr : List Char) : List (List Char) :=
  sortLe nameLe (dedupByUrl (existingServerLines doc hdr ++ recLines))

/-- `merge_servers_into_readme` (2_merge_servers.py lines 148-257) restricted
to its document transformation: locate the section (hard failure -> `none`),
extract existing entries, append the records' `complete_line`s, deduplicate,
sort, and splice back at the first bullet position, keeping everything before
it and everything from the section end onward. -/
def mergeServers (doc : List (List Char)) (recLines : List (List Char))
    (hdr : List Char) : Option (List (List Char)) :=
  match findSection doc hdr with
  | (none, _) => none
  | (some s, e) =>
    let ins := findInsertIdx doc (s + 1) e
    some (doc.take ins ++ mergedServerLines doc recLines hdr ++ doc.drop e)

/-- Section header used for community servers (`SERVER_CONFIGS`). -/
def communityHeader : List Char := "### 🌎 Community Servers".toList

/-- Section header used for official integrations (`SERVER_CONFIGS`). -/
def officialHeader : List Char := "### 🎖️ Official Integrations".toList

/-- `get_original_pr_number` (2_merge_servers.py lines 337-342): split a
display identifier at the first dash and parse the leading run as a number. -/
def getOriginalPrNumber (s : List Char) : Option Nat :=
  if containsSub ("-".toList) s then pyIntNat (s.takeWhile (fun c => c ≠ '-'))
  else pyIntNat s

/-! ## Entry extractor: `0_identify_server_addition_prs.py` -/

/-- The single-quote character (kept out of literals for readability). -/
def squoteChar : Char := Char.ofNat 39

/-- ASCII `\w`: letter, digit or underscore. -/
def isWordChar (c : Char) : Bool :=
  ('a' ≤ c && c ≤ 'z') || ('A' ≤ c && c ≤ 'Z') || ('0' ≤ c && c ≤ '9') || c = '_'

/-- A quote character of the attribute pattern `(["\'])`. -/
def isQuoteChar (c : Char) : Bool := c = '"' || c = squoteChar

/-- One attempt of the attribute regex `(\w+)=(["\'])([^"\']*)\2` anchored at
the head of `l` (parse_img_tag line 78).  Deterministic: `\w+` is delimited by
`=`, and `[^"\']*` excludes both quotes, so the closing quote must be the next
character and must equal the opening one. -/
def tryAttrAt (l : List Char) : Option ((List Char × List Char) × List Char) :=
  let w := l.takeWhile isWordChar
  if w = [] then none
  else
    match l.drop w.length with
    | '=' :: q :: rest =>
      if isQuoteChar q then
        let v := rest.takeWhile (fun c => !isQuoteChar c)
        match rest.drop v.length with
        | q2 :: rest2 => if q2 = q then some ((w, v), rest2) else none
        | [] => none
      else none
    | _ => none

/-- `re.findall` of the attribute pattern: scan left to right, taking
non-overlapping leftmost matches, advancing one character on failure.
Fuel-indexed; the wrapper `findAttrs` supplies `l.length`, which suffices since
every match consumes at least one character. -/
def findAttrsF : Nat → List Char → List (List Char × List Char)
  | 0, _ => []
  | _ + 1, [] => []
  | n + 1, c :: rest =>
    match tryAttrAt (c :: rest) with
    | some (kv, rest2) => kv :: findAttrsF n rest2
    | none => findAttrsF n rest

/-- All attribute matches of a tag body. -/
def findAttrs (l : List Char) : List (List Char × List Char) :=
  findAttrsF l.length l

/-- Python-dict assignment on an association list: replace in place if the key
exists, else append. -/
def dictInsert (k v : List Char) :
    List (List Char × List Char) → List (List Char × List Char)
  | [] => [(k, v)]
  | (k0, v0) :: rest =>
    if k0 = k then (k0, v) :: rest else (k0, v0) :: dictInsert k v rest

/-- `dict.get`: first value bound to `k`. -/
def lookupA (k : List Char) : List (List Char × List Char) → Option (List Char)
  | [] => none
  | (k0, v0) :: rest => if k0 = k then some v0 else lookupA k rest

/-- `parse_img_tag` (lines 66-84): strip, drop a leading `<img` and a trailing
`>`, then fold the attribute matches into a dict with lowercased keys. -/
def parseImgTag (tag : List Char) : List (List Char × List Char) :=
  let c1 := pyStrip tag
  let c2 := if startsWithL c1 ("<img".toList) then c1.drop 4 else c1
  let c3 := if c2.getLast? = some '>' then c2.dropLast else c2
  (findAttrs c3).foldl (fun d kv => dictInsert (pyLower kv.1) kv.2 d) []

/-- The fixed preferred attribute order of `reconstruct_img_tag` (line 91). -/
def orderedAttrNames : List (List Char) :=
  [("src".toList), ("alt".toList), ("width".toList), ("height".toList),
   ("class".toList), ("style".toList)]

/-- The attribute sequence actually written by `reconstruct_img_tag`:
the present preferred attributes in the fixed order, then the remaining
attributes in dict order. -/
def orderAttrs (attrs : List (List Char × List Char)) :
    List (List Char × List Char) :=
  (orderedAttrNames.filterMap fun a => (lookupA a attrs).map fun v => (a, v)) ++
    attrs.filter fun kv => !(kv.1 ∈ orderedAttrNames)

/-- One rendered attribute `k="v"`. -/
def renderAttr (kv : List Char × List Char) : List Char :=
  kv.1 ++ ("=".toList) ++ ['"'] ++ kv.2 ++ ['"']

/-- `reconstruct_img_tag` (lines 86-103). -/
def reconstructImgTag (attrs : List (List Char × List Char)) : List Char :=
  ("<img ".toList) ++ (List.intercalate [' '] ((orderAttrs attrs).map renderAttr))
    ++ ['>']

/-- `" ".join` on pre-rendered parts, in a recursion shape convenient for
reasoning; provably equal to `List.intercalate [' ']`. -/
def joinSpace : List (List Char) → List Char
  | [] => []
  | [x] => x
  | x :: y :: rest => x ++ ' ' :: joinSpace (y :: rest)

/-- The attribute-order property promised for rewritten img tags: the key
sequence is exactly the present preferred names in the fixed order
`src, alt, width, height, class, style`, followed by the remaining keys. -/
def PreferredOrder (ks : List (List Char)) : Prop :=
  ks = (orderedAttrNames.filter fun a => decide (a ∈ ks)) ++
    (ks.filter fun a => !decide (a ∈ orderedAttrNames))

/-- A well-formed attribute key: nonempty, word characters only, already
lowercase. -/
def goodKey (k : List Char) : Prop :=
  k ≠ [] ∧ (∀ c ∈ k, isWordChar c = true) ∧ pyLower k = k

/-- A well-formed attribute value: free of quote characters (so it renders
back into a single attribute) and of `>` (so the tag body stays
delimiter-free). -/
def goodVal (v : List Char) : Prop :=
  ∀ c ∈ v, isQuoteChar c = false ∧ c ≠ '>'

/-- A well-formed attribute dict: distinct keys and well-formed pairs. -/
def GoodDict (d : List (List Char × List Char)) : Prop :=
  (d.map Prod.fst).Nodup ∧ ∀ kv ∈ d, goodKey kv.1 ∧ goodVal kv.2

/-- Leftmost match of `<img[^>]*>` in a line: returns the text before the
match, the matched tag, and the text after it. -/
def findImgTag : List Char → Option (List Char × List Char × List Char)
  | [] => none
  | c :: rest =>
    if startsWithL (c :: rest) ("<img".toList) then
      let after := (c :: rest).drop 4
      let inner := after.takeWhile (fun x => x ≠ '>')
      match after.drop inner.length with
      | '>' :: post => some ([], ("<img".toList) ++ inner ++ ['>'], post)
      | _ =>
        match findImgTag rest with
        | some (p, t, q) => some (c :: p, t, q)
        | none => none
    else
      match findImgTag rest with
      | some (p, t, q) => some (c :: p, t, q)
      | none => none

/-- Repair of a single img tag (`fix_img_alt_text` body, lines 119-136):
if the parsed `alt` is missing or blank after stripping, set it to the server
name and reconstruct the tag; otherwise leave the original text untouched. -/
def fixOneImg (tag nm : List Char) : List Char :=
  let attrs := parseImgTag tag
  let alt := (lookupA ("alt".toList) attrs).getD []
  if pyStrip alt = [] then reconstructImgTag (dictInsert ("alt".toList) nm attrs)
  else tag

/-- `fix_img_alt_text` (lines 105-138): replace every `<img[^>]*>` match of
the original line by its repaired form.  The Python offset bookkeeping over
`re.finditer` performs exactly this left-to-right sequential replacement.
Fuel-indexed; the wrapper supplies the line length, enough because every tag
match consumes at least five characters. -/
def fixImgAuxF (nm : List Char) : Nat → List Char → List Char
  | 0, l => l
  | n + 1, l =>
    match findImgTag l with
    | none => l
    | some (pre, tag, post) => pre ++ fixOneImg tag nm ++ fixImgAuxF nm n post

/-- `fix_img_alt_text(line, server_name)`. -/
def fixImgAltText (l nm : List Char) : List Char := fixImgAuxF nm l.length l

/-- Extracted entry data (`extract_server_info_from_line` result dict). -/
structure ServerInfo where
  server_name : List Char
  server_url : List Char
  description : List Char
  complete_line : List Char
deriving DecidableEq

/-- Models the tail `\s*(.*?)\s*-\s*(.+)$` shared by both entry patterns.
Backtracking resolves to: the separator is the first dash that has at least one
character after it (and that dash is always the first dash of the text, since a
dash-free prefix cannot hide one); the attribution group is the text before it
with surrounding whitespace stripped; the description is the text after it with
leading whitespace stripped, except that when everything after the dash is
whitespace the final `(.+)` keeps exactly the last character. -/
def splitDashParts (r : List Char) : Option (List Char × List Char) :=
  let pre := r.takeWhile (fun c => c ≠ '-')
  match r.drop pre.length with
  | [] => none
  | _ :: post =>
    match post with
    | [] => none
    | p :: ps =>
      let d := (p :: ps).dropWhile pyWs
      let desc := if d.isEmpty then [(p :: ps).getLast (List.cons_ne_nil p ps)] else d
      some (pyStrip pre, desc)

/-- The tail `([^\]]+)\]\(([^)]+)\)\*\*\s*(.*?)\s*-\s*(.+)$` shared by the two
entry patterns, applied to the text after the opening `**[`: link name, link
url, the closing `)**`, then the attribution/description split. -/
def parseLinkTail (r3 : List Char) :
    Option (List Char × List Char × List Char × List Char) :=
  match takeUntil1 ']' r3 with
  | some (nm, r4) =>
    match r4 with
    | '(' :: r5 =>
      match takeUntil1 ')' r5 with
      | some (url, r6) =>
        match parseLit ("**".toList) r6 with
        | some r7 =>
          match splitDashParts r7 with
          | some (attr, desc) => some (nm, url, attr, desc)
          | none => none
        | none => none
      | none => none
    | _ => none
  | none => none

/-- The icon pattern of `extract_server_info_from_line` (line 143):
`^\s*-\s+(<img[^>]*>)\s+\*\*\[([^\]]+)\]\(([^)]+)\)\*\*\s*(.*?)\s*-\s*(.+)$`,
returning `(img, name, url, attribution, description)`. -/
def parseIconEntry (t : List Char) :
    Option (List Char × List Char × List Char × List Char × List Char) :=
  match lstrip t with
  | '-' :: t2 =>
    match t2 with
    | c :: _ =>
      if pyWs c then
        match parseLit ("<img".toList) (lstrip t2) with
        | some r =>
          match takeUntil0 '>' r with
          | some (inner, r2) =>
            match r2 with
            | c2 :: _ =>
              if pyWs c2 then
                match parseLit ("**[".toList) (lstrip r2) with
                | some r3 =>
                  (parseLinkTail r3).map
                    (fun q => (("<img".toList) ++ inner ++ ['>'], q))
                | none => none
              else none
            | [] => none
          | none => none
        | none => none
      else none
    | [] => none
  | _ => none

/-- The no-icon pattern (line 146):
`^\s*-\s+\*\*\[([^\]]+)\]\(([^)]+)\)\*\*\s*(.*?)\s*-\s*(.+)$`. -/
def parseNoIconEntry (t : List Char) :
    Option (List Char × List Char × List Char × List Char) :=
  match lstrip t with
  | '-' :: t2 =>
    match t2 with
    | c :: _ =>
      if pyWs c then
        match parseLit ("**[".toList) (lstrip t2) with
        | some r3 => parseLinkTail r3
        | none => none
      else none
    | [] => none
  | _ => none

/-- The reconstruction template of the icon branch (lines 161-164):
`f"- {img} **[{nm}]({url})** {attr} - {desc}"` when the attribution clause is
non-empty, else without it. -/
def buildIconLine (img nm url attr desc : List Char) : List Char :=
  if attr ≠ [] then
    ("- ".toList) ++ img ++ (" **[".toList) ++ nm ++ ("](".toList) ++
      url ++ (")** ".toList) ++ attr ++ (" - ".toList) ++ desc
  else
    ("- ".toList) ++ img ++ (" **[".toList) ++ nm ++ ("](".toList) ++
      url ++ (")** - ".toList) ++ desc

/-- The reconstruction template of the no-icon branch (lines 182-185). -/
def buildNoIconLine (nm url attr desc : List Char) : List Char :=
  if attr ≠ [] then
    ("- **[".toList) ++ nm ++ ("](".toList) ++ url ++ (")** ".toList) ++
      attr ++ (" - ".toList) ++ desc
  else
    ("- **[".toList) ++ nm ++ ("](".toList) ++ url ++ (")** - ".toList)
      ++ desc

/-- `extract_server_info_from_line` (lines 140-194): try the icon pattern on
the stripped line (repairing the captured img tag's alt text with the server
name and rebuilding the complete line from a fixed template), then the no-icon
pattern, else `none`. -/
def extractServerInfoFromLine (line : List Char) : Option ServerInfo :=
  let t := pyStrip line
  match parseIconEntry t with
  | some (img, nm, url, attr, desc) =>
    some ⟨nm, url, desc, buildIconLine (fixImgAltText img nm) nm url attr desc⟩
  | none =>
    match parseNoIconEntry t with
    | some (nm, url, attr, desc) =>
      some ⟨nm, url, desc, buildNoIconLine nm url attr desc⟩
    | none => none

/-- `categorize_server` (lines 196-200). -/
def categorizeServer (completeLine : List Char) : List Char :=
  if containsSub ("<img".toList) completeLine ||
      containsSub ("official".toList) (pyLower completeLine) then
    "official".toList
  else "community".toList

/-- `categorize_server_by_labels` (lines 202-220): explicit labels first,
else the fallback. -/
def categorizeServerByLabels (prLabels : List (List Char))
    (completeLine : List Char) : List Char :=
  if ("add-official-server".toList) ∈ prLabels then "official".toList
  else if ("add-community-server".toList) ∈ prLabels then "community".toList
  else categorizeServer completeLine

/-! ## PR classifier: `analyze_pr_for_server_addition` -/

/-- The PR metadata consumed by the classifier. -/
structure PRMeta where
  number : Nat
  title : List Char
  user : List Char
  labels : List (List Char)
deriving DecidableEq

/-- Approval snapshot returned by `check_pr_approval_status`; supplied as an
oracle parameter since it is fetched from the remote API. -/
structure ApprovalInfo where
  is_approved : Bool
  approval_count : Nat
  approver : List Char
  approval_date : List Char
deriving DecidableEq

/-- The structured rejection reasons logged by the classifier. -/
inductive RejectReason where
  | resourceAddition
  | diffFetchFailed
  | noReadmeChanges
  | noServerEntries
  | exceedsServerLimit
  | multipleServerLines
  | tooManyChanges
deriving DecidableEq

/-- One produced server entry (the per-server dict of lines 622-642). -/
structure ServerEntry where
  pr_number : List Char
  original_pr_number : Nat
  server_index : Nat
  total_servers_in_pr : Nat
  pr_title : List Char
  complete_line : List Char
  server_url : List Char
  server_name : List Char
  pr_author : List Char
  category : List Char
  is_approved : Bool
  approval_count : Nat
  approver : List Char
  approval_date : List Char
  validation_status : List Char
  confidence_level : List Char
  validation_notes : List Char
deriving DecidableEq

/-- The added-line collection pass (lines 523-531): for every diff line that
starts with a plus but not three pluses, try the extractor on the line without
its prefix and keep the successes in order. -/
def addedParsedLines (diffLines : List (List Char)) :
    List (List Char × ServerInfo) :=
  diffLines.filterMap fun line =>
    if startsWithL line ("+".toList) && !startsWithL line ("+++".toList) then
      match extractServerInfoFromLine (line.drop 1) with
      | some info => some (line.drop 1, info)
      | none => none
    else none

/-- The noise count (lines 555-561): added lines that are non-blank after
stripping and do not parse as a server entry. -/
def noiseCount (diffLines : List (List Char)) : Nat :=
  (diffLines.filter fun line =>
    startsWithL line ("+".toList) && !startsWithL line ("+++".toList) &&
      !(pyStrip (line.drop 1)).isEmpty &&
      (extractServerInfoFromLine (line.drop 1)).isNone).length

/-- The entry-construction loop (lines 589-648), carrying the 0-based index.
The display identifier gets a dash suffix exactly when the PR holds more than
one entry; blank identifiers are skipped (`continue`), a dead branch since
decimal digit strings are never blank. -/
def buildServerEntries (pr : PRMeta) (approval : ApprovalInfo) (total : Nat) :
    Nat → List (List Char × ServerInfo) → List ServerEntry
  | _, [] => []
  | i, (_, info) :: rest =>
    let display :=
      natToDigits pr.number ++
        (if total > 1 then '-' :: natToDigits (i + 1) else [])
    let entry : ServerEntry :=
      { pr_number := display
        original_pr_number := pr.number
        server_index := i + 1
        total_servers_in_pr := total
        pr_title := pr.title
        complete_line := info.complete_line
        server_url := info.server_url
        server_name := info.server_name
        pr_author := pr.user
        category := categorizeServerByLabels pr.labels info.complete_line
        is_approved := approval.is_approved
        approval_count := approval.approval_count
        approver := approval.approver
        approval_date := approval.approval_date
        validation_status :=
          if approval.is_approved then "Valid".toList else []
        confidence_level :=
          if approval.is_approved then "100%".toList else []
        validation_notes :=
          if approval.is_approved then
            (String.toList
              "Pre-approved PR - skipping manual validation (approved by ")
              ++ approval.approver ++ [')']
          else [] }
    if display.isEmpty || (pyStrip display).isEmpty then
      buildServerEntries pr approval total (i + 1) rest
    else entry :: buildServerEntries pr approval total (i + 1) rest

/-- The diff-dependent part of `analyze_pr_for_server_addition` (lines
504-664): README gate, entry collection, limit and splitting gates, noise
tolerance, then entry construction.  An empty diff is a fetch failure (Python
tests `if not diff`). -/
def analyzePRBody (pr : PRMeta) (d : List Char) (splitMultiple : Bool)
    (maxServersPerPR : Nat) (approval : ApprovalInfo) :
    Except RejectReason (List ServerEntry) :=
  if d.isEmpty then .error .diffFetchFailed
  else if !containsSub ("README.md".toList) d then .error .noReadmeChanges
  else if (addedParsedLines (splitOnNl d)).length = 0 then
    .error .noServerEntries
  else if (addedParsedLines (splitOnNl d)).length > maxServersPerPR then
    .error .exceedsServerLimit
  else if (addedParsedLines (splitOnNl d)).length > 1 && !splitMultiple then
    .error .multipleServerLines
  else if noiseCount (splitOnNl d) >
      2 + (addedParsedLines (splitOnNl d)).length then
    .error .tooManyChanges
  else
    .ok (buildServerEntries pr approval
      (addedParsedLines (splitOnNl d)).length 0
      (addedParsedLines (splitOnNl d)))

/-- `analyze_pr_for_server_addition` (lines 485-664), with the fetched diff
and the approval snapshot as oracle parameters. -/
def analyzePR (pr : PRMeta) (diff : Option (List Char)) (splitMultiple : Bool)
    (maxServersPerPR : Nat) (approval : ApprovalInfo) :
    Except RejectReason (List ServerEntry) :=
  if ("add-community-resource".toList) ∈ pr.labels then
    .error .resourceAddition
  else
    match diff with
    | none => .error .diffFetchFailed
    | some d => analyzePRBody pr d splitMultiple maxServersPerPR approval

/-! ## Transport model: `fetch_prs_page` / `fetch_pr_diff` -/

/-- Oracle outcome of one `gh api` page request. -/
inductive PageOutcome where
  | ok (prs : List PRMeta)
  | rateLimited
  | err
deriving DecidableEq

/-- Observable result of `fetch_prs_page`: a page, a whole-run abort
(`sys.exit(1)`), or an exhausted oracle (the call is still retrying). -/
inductive PageResult where
  | got (prs : List PRMeta)
  | aborted
  | stillRetrying
deriving DecidableEq

/-- `fetch_prs_page` (lines 314-349) against an oracle of outcomes: a
rate-limited response sleeps 60 seconds (elided) and re-issues the same
request; any other `CalledProcessError` runs `sys.exit(1)`, aborting the whole
run.  Retries continue as long as the oracle feeds rate-limit outcomes. -/
def fetchPrsPage : List PageOutcome → PageResult
  | [] => .stillRetrying
  | .ok prs :: _ => .got prs
  | .rateLimited :: rest => fetchPrsPage rest
  | .err :: _ => .aborted

/-! ## Closure: `3_close_original_prs.py` -/

/-- Live PR status as returned by `check_pr_status`. -/
structure PrStatus where
  state : List Char
  merged : Bool
deriving DecidableEq

/-- An API side effect actually issued by `process_pr`. -/
inductive PrAction where
  | comment
  | close
deriving DecidableEq

/-- The per-PR result dict of `process_pr`. -/
structure PrResult where
  pr_number : Nat
  success : Bool
  error : Option (List Char)
  skipped : Bool
  reason : Option (List Char)
deriving DecidableEq

/-- `process_pr` (lines 160-226) with the status fetch and the two API calls
as oracle parameters (`commentOk`, `closeOk` tell whether the respective call
would succeed).  Returns the result dict together with the list of API calls
actually issued; dry runs issue none. -/
def processPr (prNumber : Nat) (status : Option PrStatus)
    (commentOk closeOk dryRun : Bool) : PrResult × List PrAction :=
  match status with
  | none =>
    ({ pr_number := prNumber, success := false,
       error := some ("Could not fetch PR status".toList),
       skipped := false, reason := none }, [])
  | some st =>
    if st.state = ("closed".toList) then
      ({ pr_number := prNumber, success := true, error := none,
         skipped := true, reason := some ("Already closed".toList) }, [])
    else if st.merged then
      ({ pr_number := prNumber, success := true, error := none,
         skipped := true, reason := some ("Already merged".toList) }, [])
    else
      let commentActions : List PrAction := if dryRun then [] else [.comment]
      let commentSuccess := if dryRun then true else commentOk
      if !commentSuccess && !dryRun then
        ({ pr_number := prNumber, success := false,
           error := some ("Failed to add comment".toList),
           skipped := false, reason := none }, commentActions)
      else
        let closeActions : List PrAction := if dryRun then [] else [.close]
        let closeSuccess := if dryRun then true else closeOk
        if !closeSuccess && !dryRun then
          ({ pr_number := prNumber, success := false,
             error := some
               ("Failed to close PR (comment may have been added)".toList),
             skipped := false, reason := none },
           commentActions ++ closeActions)
        else
          ({ pr_number := prNumber, success := true, error := none,
             skipped := false, reason := none }, commentActions ++ closeActions)

instance exceptDecEq {ε α : Type} [DecidableEq ε] [DecidableEq α] :
    DecidableEq (Except ε α) := fun x y =>
  match x, y with
  | .ok a, .ok b =>
    if h : a = b then isTrue (by rw [h]) else isFalse (by simp [h])
  | .error a, .error b =>
    if h : a = b then isTrue (by rw [h]) else isFalse (by simp [h])
  | .ok _, .error _ => isFalse (by simp)
  | .error _, .ok _ => isFalse (by simp)

/-- The preconditions under which `analyze_pr_for_server_addition` reaches the
noise-tolerance check: not label-excluded, diff present and mentioning the
README, at least one entry, within the entry limit, and not blocked by
disabled splitting. -/
def reachesToleranceCheck (pr : PRMeta) (d : List Char) (split : Bool)
    (maxS : Nat) : Prop :=
  ("add-community-resource".toList) ∉ pr.labels ∧ d.isEmpty = false ∧
  containsSub ("README.md".toList) d = true ∧
  (addedParsedLines (splitOnNl d)).length ≠ 0 ∧
  (addedParsedLines (splitOnNl d)).length ≤ maxS ∧
  (1 < (addedParsedLines (splitOnNl d)).length → split = true)

/-- Concrete diff used by the C5 witness: one entry, three noise lines. -/
def claim_C5_diff : List Char :=
  String.toList
    "+++ b/README.md\n+- **[A](https://a)** - x\n+n1\n+n2\n+n3"

/-- Concrete diff used by the C6 witness: three entries. -/
def claim_C6_diff : List Char :=
  String.toList
    "+++ b/README.md\n+- **[A](https://a)** - x\n+- **[B](https://b)** - y\n+- **[C](https://c)** - z"

/-- The entry list the classifier produces on `claim_C6_diff` for PR 44. -/
def claim_C6_entries : List ServerEntry :=
  buildServerEntries ⟨44, [], [], []⟩ ⟨false, 0, [], []⟩
    (addedParsedLines (splitOnNl claim_C6_diff)).length 0
    (addedParsedLines (splitOnNl claim_C6_diff))

/-- A document `A ++ (h :: B) ++ C` containing the target section in
well-formed position: the header text occurs in line `h` and in no line of
`A`, `B` or the boundary line; the header line is not itself a bullet; no
line of the section body reaches the next heading rank; and the tail `C`
either is empty or starts with a line of equal-or-higher heading rank.  This
is the precondition under which `find_servers_section` locates the section at
`(|A|, |A|+1+|B|)`. -/
def SectionSplit (hdr : List Char) (A : List (List Char)) (h : List Char)
    (B C : List (List Char)) : Prop :=
  (∀ l ∈ A, containsSub hdr l = false) ∧
  containsSub hdr h = true ∧
  isBulletLine h = false ∧
  (∀ l ∈ B, containsSub hdr l = false ∧ isBoundaryLine l = false) ∧
  (C = [] ∨ (containsSub hdr (C.headD []) = false ∧
    isBoundaryLine (C.headD []) = true))

instance sectionSplitDecidable (hdr : List Char) (A : List (List Char))
    (h : List Char) (B C : List (List Char)) :
    Decidable (SectionSplit hdr A h B C) := by
  unfold SectionSplit
  infer_instance

/-- Witness data: document prefix before the section header. -/
def wDocA : List (List Char) := [(String.toList "intro")]

/-- Witness data: the section header line. -/
def wDocH : List Char := communityHeader

/-- Witness data: the section body (preamble, note, one entry). -/
def wDocB : List (List Char) :=
  [[], (String.toList "> note"), (String.toList "- **[B](https://b)** - y")]

/-- Witness data: the tail starting at the next section header. -/
def wDocC : List (List Char) :=
  [(String.toList "## Other"), (String.toList "tail")]

/-- Witness data: the whole document. -/
def wDoc : List (List Char) := wDocA ++ (wDocH :: wDocB) ++ wDocC

/-- Witness data: one well-formed validated record line. -/
def wRecs : List (List Char) := [(String.toList "- **[a](https://a)** - z")]

/-- Witness data: a record line whose URL duplicates an existing entry
case-insensitively. -/
def wRecDup : List Char := String.toList "- **[bee](HTTPS://B)** - dup"

/-- Witness data: the record set containing the duplicate. -/
def wRecsDup : List (List Char) := [wRecDup]

/-- Witness data: the merged output document. -/
def wMergeOut : List (List Char) :=
  (mergeServers wDoc wRecs communityHeader).getD []

/-- Witness data: a raw entry line whose img tag lacks an alt attribute. -/
def wC3Line : List Char :=
  String.toList "- <img src=\"i\"> **[Acme](https://acme)** - does things"

/-- Witness data: the extraction result of `wC3Line` (alt text filled in). -/
def wC3Info : ServerInfo :=
  ⟨String.toList "Acme", String.toList "https://acme",
   String.toList "does things",
   String.toList
     "- <img src=\"i\" alt=\"Acme\"> **[Acme](https://acme)** - does things"⟩

/-- Witness data: the PR metadata of the C8 scenario. -/
def wC8PR : PRMeta :=
  ⟨42, String.toList "Add Acme", String.toList "alice", []⟩

/-- Witness data: the approval snapshot of the C8 scenario. -/
def wC8Ap : ApprovalInfo :=
  ⟨true, 1, String.toList "bob", String.toList "2024-01-01"⟩

/-- Witness data: the img tag body of the C8 scenario (alt missing). -/
def wC8Inner : List Char := String.toList " src=\"i\""

end McpMisc

namespace McpMisc

/-! ## Basic lemmas -/

theorem digitChar_mem (n : Nat) : digitChar n ∈ ("0123456789".toList) := by
  unfold digitChar
  have h : n % 10 < 10 := Nat.mod_lt n (by omega)
  set m := n % 10 with hm
  interval_cases m <;> decide

theorem digit_props {c : Char} (h : c ∈ ("0123456789".toList)) :
    pyWs c = false ∧ c ≠ '-' ∧ c.isDigit = true := by
  fin_cases h <;> refine ⟨rfl, by decide, rfl⟩

theorem natToDigitsF_irrel :
    ∀ f g n : Nat, n ≤ f → n ≤ g → natToDigitsF f n = natToDigitsF g n := by
  intro f
  induction f with
  | zero =>
    intro g n hf _
    interval_cases n
    cases g <;> simp [natToDigitsF]
  | succ f ih =>
    intro g n hf hg
    cases g with
    | zero =>
      interval_cases n
      simp [natToDigitsF]
    | succ g2 =>
      by_cases h10 : n < 10
      · simp [natToDigitsF, h10]
      · have hd : n / 10 < n := Nat.div_lt_self (by omega) (by omega)
        have h1 : n / 10 ≤ f := by omega
        have h2 : n / 10 ≤ g2 := by omega
        simp [natToDigitsF, h10, ih g2 (n / 10) h1 h2]

theorem natToDigits_eq (n : Nat) :
    natToDigits n =
      if n < 10 then [digitChar n]
      else natToDigits (n / 10) ++ [digitChar n] := by
  unfold natToDigits
  by_cases h10 : n < 10
  · cases n <;> simp [natToDigitsF, h10]
  · cases n with
    | zero => omega
    | succ m =>
      have hd : (m + 1) / 10 < m + 1 := Nat.div_lt_self (by omega) (by omega)
      have h1 : (m + 1) / 10 ≤ m := by omega
      simp only [natToDigitsF, h10, if_false, if_neg h10]
      rw [natToDigitsF_irrel m ((m + 1) / 10) ((m + 1) / 10) h1 le_rfl]

theorem natToDigits_mem {c : Char} :
    ∀ n, c ∈ natToDigits n → c ∈ ("0123456789".toList) := by
  intro n
  induction n using Nat.strong_induction_on with
  | _ n ih =>
    rw [natToDigits_eq]
    split
    · intro hc
      simp only [List.mem_singleton] at hc
      subst hc; exact digitChar_mem n
    · intro hc
      rcases List.mem_append.mp hc with h1 | h2
      · exact ih (n / 10) (Nat.div_lt_self (by omega) (by omega)) h1
      · simp only [List.mem_singleton] at h2
        subst h2; exact digitChar_mem n

theorem natToDigits_ne_nil (n : Nat) : natToDigits n ≠ [] := by
  rw [natToDigits_eq]; split <;> simp

theorem digitVal_digitChar (n : Nat) : digitVal (digitChar n) = n % 10 := by
  unfold digitChar
  have h : n % 10 < 10 := Nat.mod_lt n (by omega)
  set m := n % 10 with hm
  interval_cases m <;> decide

theorem digitsToNat_append_one (xs : List Char) (c : Char) :
    digitsToNat (xs ++ [c]) = digitsToNat xs * 10 + digitVal c := by
  unfold digitsToNat
  rw [List.foldl_append]
  rfl

theorem digitsToNat_natToDigits (n : Nat) : digitsToNat (natToDigits n) = n := by
  induction n using Nat.strong_induction_on with
  | _ n ih =>
    rw [natToDigits_eq]
    split
    · next h =>
      show digitsToNat [digitChar n] = n
      unfold digitsToNat
      simp only [List.foldl_cons, List.foldl_nil, Nat.zero_mul, Nat.zero_add]
      rw [digitVal_digitChar, Nat.mod_eq_of_lt h]
    · next h =>
      rw [digitsToNat_append_one,
        ih (n / 10) (Nat.div_lt_self (by omega) (by omega)),
        digitVal_digitChar]
      omega

theorem pyIntNat_natToDigits (n : Nat) : pyIntNat (natToDigits n) = some n := by
  unfold pyIntNat
  rw [if_pos, digitsToNat_natToDigits]
  refine ⟨natToDigits_ne_nil n, ?_⟩
  rw [List.all_eq_true]
  intro c hc
  exact (digit_props (natToDigits_mem n hc)).2.2

theorem containsSub_single_of_not_mem {c : Char} {l : List Char}
    (h : ∀ x ∈ l, x ≠ c) : containsSub [c] l = false := by
  induction l with
  | nil => rfl
  | cons x xs ih =>
    unfold containsSub
    have hx : x ≠ c := h x (List.mem_cons_self x xs)
    simp only [startsWithL, Bool.or_eq_false_iff]
    exact ⟨by simp [hx], ih fun y hy => h y (List.mem_cons_of_mem x hy)⟩

theorem containsSub_single_of_mem {c : Char} {l : List Char}
    (h : c ∈ l) : containsSub [c] l = true := by
  induction l with
  | nil => cases h
  | cons x xs ih =>
    unfold containsSub
    rcases List.mem_cons.mp h with h1 | h2
    · subst h1; simp [startsWithL]
    · simp [ih h2]

theorem takeWhile_append_of_all {α : Type} {p : α → Bool} {xs ys : List α}
    (h : ∀ x ∈ xs, p x = true) :
    (xs ++ ys).takeWhile p = xs ++ ys.takeWhile p := by
  induction xs with
  | nil => rfl
  | cons a as ih =>
    have ha : p a = true := h a (List.mem_cons_self a as)
    simp [List.takeWhile_cons, ha,
      ih fun x hx => h x (List.mem_cons_of_mem a hx)]

/-! ## Stable sort lemmas -/

theorem lexLe_total : ∀ a b : List Char, (lexLe a b || lexLe b a) = true := by
  intro a
  induction a with
  | nil => intro b; simp [lexLe]
  | cons x xs ih =>
    intro b
    cases b with
    | nil => simp [lexLe]
    | cons y ys =>
      unfold lexLe
      rcases Nat.lt_trichotomy x.toNat y.toNat with h | h | h
      · simp [h, Nat.lt_asymm h]
      · simp [h, Nat.lt_irrefl, ih ys]
      · simp [h, Nat.lt_asymm h]

theorem lexLe_trans :
    ∀ a b c : List Char, lexLe a b = true → lexLe b c = true →
      lexLe a c = true := by
  intro a
  induction a with
  | nil => intro b c _ _; simp [lexLe]
  | cons x xs ih =>
    intro b c hab hbc
    cases b with
    | nil => simp [lexLe] at hab
    | cons y ys =>
      cases c with
      | nil => simp [lexLe] at hbc
      | cons z zs =>
        unfold lexLe at hab hbc ⊢
        rcases Nat.lt_trichotomy x.toNat y.toNat with h1 | h1 | h1
        · rcases Nat.lt_trichotomy y.toNat z.toNat with h2 | h2 | h2
          · rw [if_pos (by omega)]
          · rw [if_pos (by omega)]
          · rw [if_neg (by omega), if_pos h2] at hbc
            cases hbc
        · rcases Nat.lt_trichotomy y.toNat z.toNat with h2 | h2 | h2
          · rw [if_pos (by omega)]
          · rw [if_neg (by omega), if_neg (by omega)]
            rw [if_neg (by omega), if_neg (by omega)] at hab
            rw [if_neg (by omega), if_neg (by omega)] at hbc
            exact ih ys zs hab hbc
          · rw [if_neg (by omega), if_pos h2] at hbc
            cases hbc
        · rw [if_neg (by omega), if_pos h1] at hab
          cases hab

theorem nameLe_total : ∀ a b : List Char, (nameLe a b || nameLe b a) = true :=
  fun a b => lexLe_total (nameKey a) (nameKey b)

theorem nameLe_trans :
    ∀ a b c : List Char, nameLe a b = true → nameLe b c = true →
      nameLe a c = true :=
  fun _ _ _ => lexLe_trans _ _ _

theorem insertLe_perm {α : Type} (le : α → α → Bool) (a : α) :
    ∀ l : List α, (insertLe le a l).Perm (a :: l) := by
  intro l
  induction l with
  | nil => simp [insertLe]
  | cons b l2 ih =>
    unfold insertLe
    split
    · exact List.Perm.refl _
    · exact ((ih.cons b).trans (List.Perm.swap a b l2))

theorem sortLe_perm {α : Type} (le : α → α → Bool) :
    ∀ l : List α, (sortLe le l).Perm l := by
  intro l
  induction l with
  | nil => simp [sortLe]
  | cons a l2 ih =>
    unfold sortLe
    exact (insertLe_perm le a (sortLe le l2)).trans (ih.cons a)

theorem insertLe_pairwise {α : Type} {le : α → α → Bool}
    (htotal : ∀ a b, (le a b || le b a) = true)
    (htrans : ∀ a b c, le a b = true → le b c = true → le a c = true)
    (a : α) :
    ∀ l : List α, l.Pairwise (fun x y => le x y = true) →
      (insertLe le a l).Pairwise (fun x y => le x y = true) := by
  intro l
  induction l with
  | nil => intro _; simp [insertLe]
  | cons b l2 ih =>
    intro hp
    rw [List.pairwise_cons] at hp
    obtain ⟨hb, hp2⟩ := hp
    unfold insertLe
    split
    · next hab =>
      rw [List.pairwise_cons]
      refine ⟨?_, List.pairwise_cons.mpr ⟨hb, hp2⟩⟩
      intro y hy
      rcases List.mem_cons.mp hy with h | h
      · subst h; exact hab
      · exact htrans a b y hab (hb y h)
    · next hab =>
      rw [List.pairwise_cons]
      constructor
      · intro y hy
        have hmem := (insertLe_perm le a l2).mem_iff.mp hy
        rcases List.mem_cons.mp hmem with h | h
        · have htot := htotal a b
          rw [Bool.or_eq_true] at htot
          rcases htot with h2 | h2
          · exact absurd h2 hab
          · rw [h]; exact h2
        · exact hb y h
      · exact ih hp2

theorem sortLe_pairwise {α : Type} {le : α → α → Bool}
    (htotal : ∀ a b, (le a b || le b a) = true)
    (htrans : ∀ a b c, le a b = true → le b c = true → le a c = true) :
    ∀ l : List α, (sortLe le l).Pairwise (fun x y => le x y = true) := by
  intro l
  induction l with
  | nil => simp [sortLe]
  | cons a l2 ih =>
    unfold sortLe
    exact insertLe_pairwise htotal htrans a _ ih

theorem sortLe_of_sorted {α : Type} {le : α → α → Bool} :
    ∀ l : List α, l.Pairwise (fun x y => le x y = true) → sortLe le l = l := by
  intro l
  induction l with
  | nil => intro _; rfl
  | cons a l2 ih =>
    intro hp
    rw [List.pairwise_cons] at hp
    obtain ⟨ha, hp2⟩ := hp
    unfold sortLe
    rw [ih hp2]
    cases l2 with
    | nil => rfl
    | cons b l3 =>
      unfold insertLe
      rw [if_pos (ha b (List.mem_cons_self b l3))]

/-! ## Deduplication lemmas -/

theorem dedupAux_mem_iff {x : List Char} :
    ∀ (l : List (List Char)) (seen : List (List Char)),
      x ∈ dedupAux seen l ↔
        ∃ l1 l2, l = l1 ++ x :: l2 ∧ urlKey x ∉ seen ∧
          urlKey x ∉ l1.map urlKey := by
  intro l
  induction l with
  | nil =>
    intro seen
    simp only [dedupAux, List.not_mem_nil, false_iff]
    rintro ⟨l1, l2, hsplit, -, -⟩
    exact absurd hsplit (by simp)
  | cons y ys ih =>
    intro seen
    unfold dedupAux
    split
    · next hy =>
      rw [ih]
      constructor
      · rintro ⟨l1, l2, hsplit, hs, hl1⟩
        exact ⟨y :: l1, l2, by simp [hsplit], hs, by
          simp only [List.map_cons, List.mem_cons, not_or]
          refine ⟨?_, hl1⟩
          intro hk
          rw [hk] at hs
          exact hs hy⟩
      · rintro ⟨l1, l2, hsplit, hs, hl1⟩
        cases l1 with
        | nil =>
          simp only [List.nil_append, List.cons.injEq] at hsplit
          exact absurd (hsplit.1 ▸ hy) hs
        | cons z l1' =>
          simp only [List.cons_append, List.cons.injEq] at hsplit
          obtain ⟨hz, hys⟩ := hsplit
          refine ⟨l1', l2, hys, hs, ?_⟩
          intro hk
          exact hl1 (by simp [hk])
    · next hy =>
      rw [List.mem_cons, ih]
      constructor
      · rintro (hxy | ⟨l1, l2, hsplit, hs, hl1⟩)
        · exact ⟨[], ys, by simp [hxy], by rw [hxy]; exact hy, by simp⟩
        · simp only [List.mem_cons, not_or] at hs
          refine ⟨y :: l1, l2, by simp [hsplit], hs.2, ?_⟩
          simp only [List.map_cons, List.mem_cons, not_or]
          exact ⟨fun hk => hs.1 hk, hl1⟩
      · rintro ⟨l1, l2, hsplit, hs, hl1⟩
        cases l1 with
        | nil =>
          simp only [List.nil_append, List.cons.injEq] at hsplit
          exact Or.inl hsplit.1.symm
        | cons z l1' =>
          simp only [List.cons_append, List.cons.injEq] at hsplit
          obtain ⟨hz, hys⟩ := hsplit
          simp only [List.map_cons, List.mem_cons, not_or] at hl1
          refine Or.inr ⟨l1', l2, hys, ?_, hl1.2⟩
          simp only [List.mem_cons, not_or]
          refine ⟨?_, hs⟩
          rw [hz]
          exact hl1.1

theorem dedupAux_subset {x : List Char} :
    ∀ (l seen : List (List Char)), x ∈ dedupAux seen l → x ∈ l := by
  intro l
  induction l with
  | nil => intro seen h; simp [dedupAux] at h
  | cons y ys ih =>
    intro seen h
    unfold dedupAux at h
    split at h
    · exact List.mem_cons_of_mem y (ih _ h)
    · rcases List.mem_cons.mp h with h | h
      · exact h ▸ List.mem_cons_self y ys
      · exact List.mem_cons_of_mem y (ih _ h)

theorem dedupAux_key_notin_seen {x : List Char} :
    ∀ (l seen : List (List Char)), x ∈ dedupAux seen l →
      urlKey x ∉ seen := by
  intro l
  induction l with
  | nil => intro seen h; simp [dedupAux] at h
  | cons y ys ih =>
    intro seen h
    unfold dedupAux at h
    split at h
    · exact ih _ h
    · next hy =>
      rcases List.mem_cons.mp h with h | h
      · subst h; exact hy
      · intro hs
        exact (ih _ h) (List.mem_cons_of_mem _ hs)

theorem dedupAux_pairwise :
    ∀ (l seen : List (List Char)),
      (dedupAux seen l).Pairwise (fun a b => urlKey a ≠ urlKey b) := by
  intro l
  induction l with
  | nil => intro seen; simp [dedupAux]
  | cons y ys ih =>
    intro seen
    unfold dedupAux
    split
    · exact ih _
    · rw [List.pairwise_cons]
      refine ⟨?_, ih _⟩
      intro z hz heq
      exact (dedupAux_key_notin_seen ys _ hz) (by rw [← heq]; simp)

theorem dedupAux_keys {k : List Char} :
    ∀ (l seen : List (List Char)),
      (k ∈ (dedupAux seen l).map urlKey ↔ k ∉ seen ∧ k ∈ l.map urlKey) := by
  intro l
  induction l with
  | nil => intro seen; simp [dedupAux]
  | cons y ys ih =>
    intro seen
    unfold dedupAux
    split
    · next hy =>
      rw [ih]
      simp only [List.map_cons, List.mem_cons]
      constructor
      · rintro ⟨hs, hm⟩
        exact ⟨hs, Or.inr hm⟩
      · rintro ⟨hs, hm | hm⟩
        · rw [hm] at hs
          exact absurd hy hs
        · exact ⟨hs, hm⟩
    · next hy =>
      simp only [List.map_cons, List.mem_cons, ih]
      constructor
      · rintro (hk | ⟨hs, hm⟩)
        · exact ⟨by rw [hk]; exact hy, Or.inl hk⟩
        · refine ⟨fun hks => hs (Or.inr hks), Or.inr hm⟩
      · rintro ⟨hs, hk | hm⟩
        · exact Or.inl hk
        · by_cases hky : k = urlKey y
          · exact Or.inl hky
          · refine Or.inr ⟨?_, hm⟩
            simp only [List.mem_cons, not_or]
            exact ⟨hky, hs⟩

theorem dedupAux_drop_all :
    ∀ (l seen : List (List Char)),
      (∀ x ∈ l, urlKey x ∈ seen) → dedupAux seen l = [] := by
  intro l
  induction l with
  | nil => intro seen _; rfl
  | cons y ys ih =>
    intro seen h
    unfold dedupAux
    rw [if_pos (h y (List.mem_cons_self y ys))]
    exact ih _ fun x hx => h x (List.mem_cons_of_mem y hx)

theorem dedupAux_keep_all :
    ∀ (a : List (List Char)) (seen b : List (List Char)),
      a.Pairwise (fun x y => urlKey x ≠ urlKey y) →
      (∀ x ∈ a, urlKey x ∉ seen) →
      (∀ y ∈ b, urlKey y ∈ seen ∨ urlKey y ∈ a.map urlKey) →
      dedupAux seen (a ++ b) = a := by
  intro a
  induction a with
  | nil =>
    intro seen b _ _ hb
    rw [List.nil_append]
    apply dedupAux_drop_all
    intro x hx
    rcases hb x hx with h | h
    · exact h
    · simp at h
  | cons x a2 ih =>
    intro seen b hpw ha hb
    rw [List.pairwise_cons] at hpw
    obtain ⟨hx2, hpw2⟩ := hpw
    rw [List.cons_append]
    unfold dedupAux
    rw [if_neg (ha x (List.mem_cons_self x a2))]
    congr 1
    apply ih
    · exact hpw2
    · intro z hz
      simp only [List.mem_cons, not_or]
      exact ⟨fun heq => (hx2 z hz) heq.symm,
        ha z (List.mem_cons_of_mem x hz)⟩
    · intro y hy
      rcases hb y hy with h | h
      · exact Or.inl (List.mem_cons_of_mem _ h)
      · simp only [List.map_cons, List.mem_cons] at h
        rcases h with h | h
        · exact Or.inl (by rw [h]; exact List.mem_cons_self _ _)
        · exact Or.inr h

theorem lstrip_ne_nil_of_mem {c : Char} {l : List Char} (hm : c ∈ l)
    (hc : pyWs c = false) : lstrip l ≠ [] := by
  unfold lstrip
  rw [Ne, List.dropWhile_eq_nil_iff]
  intro h
  rw [h c hm] at hc
  cases hc

theorem pyStrip_ne_nil_of_mem {c : Char} {l : List Char} (hm : c ∈ l)
    (hc : pyWs c = false) : pyStrip l ≠ [] := by
  unfold pyStrip rstrip
  rw [Ne, List.reverse_eq_nil_iff, List.dropWhile_eq_nil_iff]
  intro h
  have hmem : c ∈ (lstrip l).reverse := by
    rw [List.mem_reverse]
    unfold lstrip
    have hsplit := List.takeWhile_append_dropWhile (p := pyWs) (l := l)
    rcases List.mem_append.mp (by rw [hsplit]; exact hm) with h1 | h1
    · have := List.mem_takeWhile_imp h1
      rw [this] at hc; cases hc
    · exact h1
  rw [h c hmem] at hc
  cases hc

/-- The skip guard of the entry-construction loop never fires: a decimal
display identifier is never blank. -/
theorem display_not_blank (n : Nat) (tail : List Char) :
    ((natToDigits n ++ tail).isEmpty ||
      (pyStrip (natToDigits n ++ tail)).isEmpty) = false := by
  obtain ⟨c, hc⟩ := List.exists_mem_of_ne_nil _ (natToDigits_ne_nil n)
  have hdig := digit_props (natToDigits_mem n hc)
  have hmem : c ∈ natToDigits n ++ tail := List.mem_append_left _ hc
  rw [Bool.or_eq_false_iff]
  constructor
  · rw [List.isEmpty_eq_false_iff_exists_mem]
    exact ⟨c, hmem⟩
  · rw [List.isEmpty_eq_false_iff_exists_mem]
    obtain ⟨x, hx⟩ :=
      List.exists_mem_of_ne_nil _ (pyStrip_ne_nil_of_mem hmem hdig.1)
    exact ⟨x, hx⟩

theorem getOriginal_single (n : Nat) :
    getOriginalPrNumber (natToDigits n) = some n := by
  unfold getOriginalPrNumber
  rw [if_neg, pyIntNat_natToDigits]
  rw [show ("-".toList) = ['-'] from rfl]
  rw [containsSub_single_of_not_mem
    (fun x hx => (digit_props (natToDigits_mem n hx)).2.1)]
  simp

theorem getOriginal_multi (n : Nat) (s : List Char) :
    getOriginalPrNumber (natToDigits n ++ '-' :: s) = some n := by
  unfold getOriginalPrNumber
  rw [if_pos, takeWhile_append_of_all
    (fun x hx => by
      simpa using (digit_props (natToDigits_mem n hx)).2.1)]
  · simp only [List.takeWhile_cons]
    rw [if_neg (by simp), List.append_nil, pyIntNat_natToDigits]
  · rw [show ("-".toList) = ['-'] from rfl]
    rw [containsSub_single_of_mem
      (List.mem_append_right _ (List.mem_cons_self _ _))]

/-! ## Section location and merge characterization -/

theorem keepLine_eq (l : List Char) : keepLine l = isBulletLine l := by
  unfold keepLine isBulletLine
  generalize pyStrip l = t
  cases t with
  | nil => simp [startsWithL]
  | cons c t2 =>
    by_cases hc : c = '-'
    · subst hc
      cases t2 with
      | nil => simp [startsWithL]
      | cons c2 t3 =>
        by_cases h2 : c2 = ' '
        · subst h2; simp [startsWithL]
        · simp [startsWithL, h2]
    · simp [startsWithL, hc]

theorem bullet_not_boundary {l : List Char} (h : isBulletLine l = true) :
    isBoundaryLine l = false := by
  unfold isBulletLine at h
  unfold isBoundaryLine
  generalize hg : pyStrip l = t at h ⊢
  cases t with
  | nil => simp [startsWithL] at h
  | cons c t2 =>
    simp only [startsWithL] at h
    rw [Bool.and_eq_true] at h
    obtain ⟨hc, -⟩ := h
    rw [decide_eq_true_iff] at hc
    subst hc
    simp [startsWithL]

theorem getD_of_drop {α : Type} {doc : List α} {i : Nat} {x : α} {xs : List α}
    (d : α) (h : doc.drop i = x :: xs) : doc.getD i d = x := by
  rw [List.getD_eq_getElem?_getD]
  have h0 : (doc.drop i)[0]? = some x := by rw [h]; simp
  rw [List.getElem?_drop] at h0
  simp only [Nat.add_zero] at h0
  rw [h0]
  rfl

theorem drop_succ_of_drop {α : Type} {doc : List α} {i : Nat} {x : α}
    {xs : List α} (h : doc.drop i = x :: xs) : doc.drop (i + 1) = xs := by
  have := congrArg (List.drop 1) h
  rw [List.drop_drop] at this
  simpa using this

theorem findSectionLoop_nil (hdr : List Char) (i : Nat) (st : Option Nat) :
    findSectionLoop hdr [] i st = (st, none) := rfl

theorem findSectionLoop_cons (hdr l : List Char) (ls : List (List Char))
    (i : Nat) (st : Option Nat) :
    findSectionLoop hdr (l :: ls) i st =
      (if containsSub hdr l = true then
        findSectionLoop hdr ls (i + 1) (some i)
      else
        match st with
        | some s =>
          if isBoundaryLine l = true then (some s, some i)
          else findSectionLoop hdr ls (i + 1) (some s)
        | none => findSectionLoop hdr ls (i + 1) none) := rfl

theorem findSectionLoop_prefix (hdr : List Char) :
    ∀ (A : List (List Char)) (rest : List (List Char)) (i : Nat),
      (∀ l ∈ A, containsSub hdr l = false) →
      findSectionLoop hdr (A ++ rest) i none =
        findSectionLoop hdr rest (i + A.length) none := by
  intro A
  induction A with
  | nil => intro rest i _; simp
  | cons a A2 ih =>
    intro rest i hA
    have h1 : containsSub hdr a = false := hA a (List.mem_cons_self a A2)
    rw [List.cons_append, findSectionLoop_cons, h1]
    simp only [Bool.false_eq_true, if_false]
    rw [ih rest (i + 1) (fun l hl => hA l (List.mem_cons_of_mem a hl))]
    have hl : i + (a :: A2).length = i + 1 + A2.length := by
      simp only [List.length_cons]; omega
    rw [hl]

theorem findSectionLoop_mid (hdr : List Char) :
    ∀ (B : List (List Char)) (rest : List (List Char)) (i s : Nat),
      (∀ l ∈ B, containsSub hdr l = false ∧ isBoundaryLine l = false) →
      findSectionLoop hdr (B ++ rest) i (some s) =
        findSectionLoop hdr rest (i + B.length) (some s) := by
  intro B
  induction B with
  | nil => intro rest i s _; simp
  | cons b B2 ih =>
    intro rest i s hB
    have h1 := hB b (List.mem_cons_self b B2)
    rw [List.cons_append, findSectionLoop_cons, h1.1]
    simp only [Bool.false_eq_true, if_false, h1.2]
    rw [ih rest (i + 1) s (fun l hl => hB l (List.mem_cons_of_mem b hl))]
    have hl : i + (b :: B2).length = i + 1 + B2.length := by
      simp only [List.length_cons]; omega
    rw [hl]

theorem findSection_split (hdr : List Char) (A : List (List Char))
    (h : List Char) (B C : List (List Char)) (hs : SectionSplit hdr A h B C) :
    findSection (A ++ (h :: B) ++ C) hdr =
      (some A.length, A.length + 1 + B.length) := by
  obtain ⟨hA, hh, _, hB, hC⟩ := hs
  unfold findSection
  have e1 : A ++ (h :: B) ++ C = A ++ (h :: (B ++ C)) := by simp
  rw [e1, findSectionLoop_prefix hdr A _ 0 hA]
  show (match findSectionLoop hdr (h :: (B ++ C)) (0 + A.length) none with
    | (some s, some e) => (some s, e)
    | (some s, none) => (some s, (A ++ (h :: (B ++ C))).length)
    | (none, _) => (none, 0)) = _
  unfold findSectionLoop
  rw [hh]
  simp only [if_true]
  rw [findSectionLoop_mid hdr B C _ _ hB]
  cases C with
  | nil =>
    show (match findSectionLoop hdr [] (0 + A.length + 1 + B.length)
        (some (0 + A.length)) with
      | (some s, some e) => (some s, e)
      | (some s, none) => (some s, (A ++ (h :: (B ++ []))).length)
      | (none, _) => (none, 0)) = _
    unfold findSectionLoop
    simp only [List.append_nil, List.length_append, List.length_cons,
      Prod.mk.injEq, Nat.zero_add]
    refine ⟨trivial, by omega⟩
  | cons c C2 =>
    rcases hC with hC | hC
    · cases hC
    · simp only [List.headD_cons] at hC
      show (match findSectionLoop hdr (c :: C2) (0 + A.length + 1 + B.length)
          (some (0 + A.length)) with
        | (some s, some e) => (some s, e)
        | (some s, none) => (some s, (A ++ (h :: (B ++ c :: C2))).length)
        | (none, _) => (none, 0)) = _
      unfold findSectionLoop
      rw [hC.1]
      simp only [Bool.false_eq_true, if_false, hC.2, if_true,
        Prod.mk.injEq, Nat.zero_add]

theorem dropWhile_head_bullet (p : List Char → Bool) :
    ∀ l : List (List Char),
      l.dropWhile p = [] ∨ p ((l.dropWhile p).headD []) = false := by
  intro l
  induction l with
  | nil => exact Or.inl rfl
  | cons x xs ih =>
    by_cases hx : p x = true
    · simpa [List.dropWhile_cons, hx] using ih
    · rw [Bool.not_eq_true] at hx
      right
      simp [List.dropWhile_cons, hx]

theorem findInsertLoop_split (doc : List (List Char)) :
    ∀ (P : List (List Char)) (i : Nat) (Q C2 : List (List Char)),
      doc.drop i = P ++ Q ++ C2 →
      (∀ l ∈ P, isBulletLine l = false) →
      (Q = [] ∨ isBulletLine (Q.headD []) = true) →
      findInsertLoop doc (P.length + Q.length) i (i + P.length + Q.length) =
        i + P.length := by
  intro P
  induction P with
  | nil =>
    intro i Q C2 hdrop _ hQ
    cases Q with
    | nil => rfl
    | cons c Q2 =>
      rcases hQ with hQ | hQ
      · cases hQ
      · simp only [List.headD_cons] at hQ
        simp only [List.nil_append, List.cons_append] at hdrop
        show findInsertLoop doc (0 + (Q2.length + 1)) i
          (i + 0 + (Q2.length + 1)) = i + 0
        have hf : 0 + (Q2.length + 1) = Q2.length + 1 := by omega
        rw [hf]
        unfold findInsertLoop
        rw [if_pos (by omega), getD_of_drop [] hdrop, hQ]
        simp
  | cons p P2 ih =>
    intro i Q C2 hdrop hP hQ
    simp only [List.cons_append] at hdrop
    have hp : isBulletLine p = false := hP p (List.mem_cons_self p P2)
    have hf : (p :: P2).length + Q.length = (P2.length + Q.length) + 1 := by
      simp only [List.length_cons]; omega
    rw [hf]
    unfold findInsertLoop
    rw [if_pos (by simp only [List.length_cons]; omega),
      getD_of_drop [] hdrop, hp]
    simp only [Bool.false_eq_true, if_false]
    have hrec := ih (i + 1) Q C2 (drop_succ_of_drop hdrop)
      (fun l hl => hP l (List.mem_cons_of_mem p hl)) hQ
    have he : i + (p :: P2).length + Q.length =
        (i + 1) + P2.length + Q.length := by
      simp only [List.length_cons]; omega
    rw [he, hrec]
    simp only [List.length_cons]
    omega

/-- Characterization of one merge run on a well-formed document: the existing
entries are the kept lines of the section, the merged block is the sorted
deduplication of existing entries followed by the records, and the output
keeps everything up to the first bullet, splices the merged block, and keeps
the tail from the boundary on. -/
theorem merge_eq (hdr : List Char) (A : List (List Char)) (h : List Char)
    (B C recl : List (List Char)) (hs : SectionSplit hdr A h B C) :
    existingServerLines (A ++ (h :: B) ++ C) hdr = (h :: B).filter keepLine ∧
    mergedServerLines (A ++ (h :: B) ++ C) recl hdr =
      sortLe nameLe (dedupByUrl ((h :: B).filter keepLine ++ recl)) ∧
    mergeServers (A ++ (h :: B) ++ C) recl hdr =
      some ((A ++ h :: (B.takeWhile fun l => !isBulletLine l)) ++
        sortLe nameLe (dedupByUrl ((h :: B).filter keepLine ++ recl)) ++ C) := by
  have hfs := findSection_split hdr A h B C hs
  have hslice : (((A ++ (h :: B) ++ C).drop A.length).take
      (A.length + 1 + B.length - A.length)) = h :: B := by
    have h1 : (A ++ (h :: B) ++ C).drop A.length = (h :: B) ++ C := by
      rw [List.append_assoc]
      exact List.drop_left A ((h :: B) ++ C)
    rw [h1]
    apply List.take_left'
    simp only [List.length_cons]
    omega
  have hex : existingServerLines (A ++ (h :: B) ++ C) hdr =
      (h :: B).filter keepLine := by
    unfold existingServerLines
    rw [hfs]
    show (((A ++ (h :: B) ++ C).drop A.length).take
      (A.length + 1 + B.length - A.length)).filter keepLine = _
    rw [hslice]
  have hmerged : mergedServerLines (A ++ (h :: B) ++ C) recl hdr =
      sortLe nameLe (dedupByUrl ((h :: B).filter keepLine ++ recl)) := by
    unfold mergedServerLines
    rw [hex]
  set P := B.takeWhile (fun l => !isBulletLine l) with hPdef
  set Q := B.dropWhile (fun l => !isBulletLine l) with hQdef
  have hBPQ : B = P ++ Q := (List.takeWhile_append_dropWhile _ _).symm
  have hPnb : ∀ l ∈ P, isBulletLine l = false := by
    intro l hl
    have := List.mem_takeWhile_imp hl
    simpa using this
  have hQh : Q = [] ∨ isBulletLine (Q.headD []) = true := by
    rcases dropWhile_head_bullet (fun l => !isBulletLine l) B with h1 | h1
    · exact Or.inl h1
    · right; simpa using h1
  have hlenB : B.length = P.length + Q.length := by
    have := congrArg List.length hBPQ
    simp only [List.length_append] at this
    omega
  have hdropA1 : (A ++ (h :: B) ++ C).drop (A.length + 1) = B ++ C := by
    have hsh : A ++ (h :: B) ++ C = (A ++ [h]) ++ (B ++ C) := by simp
    rw [hsh]
    apply List.drop_left'
    simp
  have hins : findInsertIdx (A ++ (h :: B) ++ C) (A.length + 1)
      (A.length + 1 + B.length) = A.length + 1 + P.length := by
    unfold findInsertIdx
    have hfuel : A.length + 1 + B.length - (A.length + 1) =
        P.length + Q.length := by omega
    rw [hfuel]
    have hdrop2 : (A ++ (h :: B) ++ C).drop (A.length + 1) = P ++ Q ++ C := by
      rw [hdropA1]
      rw [hBPQ, List.append_assoc]
    have hspec := findInsertLoop_split (A ++ (h :: B) ++ C) P (A.length + 1)
      Q C hdrop2 hPnb hQh
    have he : A.length + 1 + B.length = A.length + 1 + P.length + Q.length :=
      by omega
    rw [he]
    exact hspec
  have htake : (A ++ (h :: B) ++ C).take (A.length + 1 + P.length) =
      A ++ h :: P := by
    have hsh : A ++ (h :: B) ++ C = (A ++ h :: P) ++ (Q ++ C) := by
      rw [hBPQ]
      simp [List.append_assoc]
    rw [hsh]
    apply List.take_left'
    simp only [List.length_append, List.length_cons]
    omega
  have hdropE : (A ++ (h :: B) ++ C).drop (A.length + 1 + B.length) = C := by
    apply List.drop_left'
    simp only [List.length_append, List.length_cons]
    omega
  refine ⟨hex, hmerged, ?_⟩
  unfold mergeServers
  rw [hfs]
  show some ((A ++ (h :: B) ++ C).take
      (findInsertIdx (A ++ (h :: B) ++ C) (A.length + 1)
        (A.length + 1 + B.length)) ++
      mergedServerLines (A ++ (h :: B) ++ C) recl hdr ++
      (A ++ (h :: B) ++ C).drop (A.length + 1 + B.length)) = _
  rw [hins, htake, hmerged, hdropE]

theorem first_key_occurrence {k : List Char} :
    ∀ l : List (List Char), k ∈ l.map urlKey →
      ∃ l1 x l2, l = l1 ++ x :: l2 ∧ urlKey x = k ∧ k ∉ l1.map urlKey := by
  intro l
  induction l with
  | nil => intro hmem; simp at hmem
  | cons y ys ih =>
    intro hmem
    by_cases hy : urlKey y = k
    · exact ⟨[], y, ys, by simp, hy, by simp⟩
    · have hmem2 : k ∈ ys.map urlKey := by
        simp only [List.map_cons, List.mem_cons] at hmem
        rcases hmem with hmem | hmem
        · exact absurd hmem.symm hy
        · exact hmem
      obtain ⟨l1, x, l2, hsplit, hkx, hnk⟩ := ih hmem2
      refine ⟨y :: l1, x, l2, by simp [hsplit], hkx, ?_⟩
      simp only [List.map_cons, List.mem_cons, not_or]
      exact ⟨fun hk => hy hk.symm, hnk⟩

/-! ## Claim C10 -/

/-- C10: frame property of the merge.  On a well-formed document and bullet
record lines, the output is exactly: every line up to (and excluding) the
first bullet of the section, unchanged and in order; then the merged entry
block; then every line from the next equal-or-higher-rank header onward,
unchanged and in order.  Any line that is not a kept entry line (blank, quote
note, or not a bullet) never occurs in the merged block, so the non-entry
lines that sat between the first bullet and the section end are removed. -/
theorem claim_C10 (hdr : List Char) (A : List (List Char)) (h : List Char)
    (B C recl : List (List Char)) (hs : SectionSplit hdr A h B C)
    (hrec : ∀ r ∈ recl, isBulletLine r = true) :
    mergeServers (A ++ (h :: B) ++ C) recl hdr =
      some ((A ++ h :: (B.takeWhile fun l => !isBulletLine l)) ++
        mergedServerLines (A ++ (h :: B) ++ C) recl hdr ++ C) ∧
    (∀ l, keepLine l = false →
      l ∉ mergedServerLines (A ++ (h :: B) ++ C) recl hdr) := by
  obtain ⟨hex, hmerged, hmerge⟩ := merge_eq hdr A h B C recl hs
  constructor
  · rw [hmerge, hmerged]
  · intro l hl hmem
    rw [hmerged] at hmem
    have hmem2 : l ∈ dedupByUrl ((h :: B).filter keepLine ++ recl) :=
      (sortLe_perm nameLe _).mem_iff.mp hmem
    have hmem3 : l ∈ (h :: B).filter keepLine ++ recl :=
      dedupAux_subset _ _ hmem2
    rcases List.mem_append.mp hmem3 with h1 | h1
    · have hk := List.of_mem_filter h1
      rw [hl] at hk
      cases hk
    · have hb := hrec l h1
      rw [keepLine_eq, hb] at hl
      cases hl

/-- Witness for C10 at a concrete document and record set. -/
theorem claim_C10_witness :
    mergeServers (wDocA ++ (wDocH :: wDocB) ++ wDocC) wRecs communityHeader =
      some ((wDocA ++ wDocH ::
          (wDocB.takeWhile fun l => !isBulletLine l)) ++
        mergedServerLines (wDocA ++ (wDocH :: wDocB) ++ wDocC) wRecs
          communityHeader ++ wDocC) ∧
    (∀ l, keepLine l = false →
      l ∉ mergedServerLines (wDocA ++ (wDocH :: wDocB) ++ wDocC) wRecs
        communityHeader) :=
  claim_C10 communityHeader wDocA wDocH wDocB wDocC wRecs (by decide)
    (by decide)

/-! ## Claim C4 -/

/-- C4: during merge deduplication over the existing section entries followed
by the incoming record lines, an element survives exactly when it is the
first occurrence of its case-insensitively lowered URL; in particular a
record whose URL already occurs among the existing entries is dropped while
the first existing entry with that URL is retained verbatim in the merged
block. -/
theorem claim_C4 (doc : List (List Char)) (hdr : List Char)
    (recl : List (List Char)) (r : List Char) (_hr : r ∈ recl)
    (hkey : urlKey r ∈ (existingServerLines doc hdr).map urlKey)
    (hnot : r ∉ existingServerLines doc hdr) :
    (∀ x, x ∈ mergedServerLines doc recl hdr ↔
      ∃ l1 l2, existingServerLines doc hdr ++ recl = l1 ++ x :: l2 ∧
        urlKey x ∉ l1.map urlKey) ∧
    r ∉ mergedServerLines doc recl hdr ∧
    (∃ e ∈ existingServerLines doc hdr, urlKey e = urlKey r ∧
      e ∈ mergedServerLines doc recl hdr) := by
  have hchar : ∀ x, x ∈ mergedServerLines doc recl hdr ↔
      ∃ l1 l2, existingServerLines doc hdr ++ recl = l1 ++ x :: l2 ∧
        urlKey x ∉ l1.map urlKey := by
    intro x
    unfold mergedServerLines dedupByUrl
    rw [(sortLe_perm nameLe _).mem_iff, dedupAux_mem_iff]
    constructor
    · rintro ⟨l1, l2, hsplit, -, hl1⟩
      exact ⟨l1, l2, hsplit, hl1⟩
    · rintro ⟨l1, l2, hsplit, hl1⟩
      exact ⟨l1, l2, hsplit, by simp, hl1⟩
  refine ⟨hchar, ?_, ?_⟩
  · intro hmem
    obtain ⟨l1, l2, hsplit, hl1⟩ := (hchar r).mp hmem
    rcases List.append_eq_append_iff.mp hsplit with ⟨a2, hc, _⟩ | ⟨c2, ha, hd⟩
    · apply hl1
      rw [hc, List.map_append]
      exact List.mem_append_left _ hkey
    · cases c2 with
      | nil =>
        rw [List.append_nil] at ha
        rw [ha] at hkey
        exact hl1 hkey
      | cons z c3 =>
        simp only [List.cons_append, List.cons.injEq] at hd
        apply hnot
        rw [ha, hd.1]
        exact List.mem_append_right _ (List.mem_cons_self z c3)
  · obtain ⟨l1, e, l2, hsplit, hke, hnk⟩ :=
      first_key_occurrence (existingServerLines doc hdr) hkey
    have hemem : e ∈ existingServerLines doc hdr := by
      rw [hsplit]
      exact List.mem_append_right _ (List.mem_cons_self e l2)
    refine ⟨e, hemem, hke, ?_⟩
    rw [hchar e]
    refine ⟨l1, l2 ++ recl, ?_, by rw [hke]; exact hnk⟩
    rw [hsplit]
    simp

/-- Witness for C4: merging a record whose URL matches an existing entry
case-insensitively. -/
theorem claim_C4_witness :
    (∀ x, x ∈ mergedServerLines (wDocA ++ (wDocH :: wDocB) ++ wDocC)
        wRecsDup communityHeader ↔
      ∃ l1 l2, existingServerLines (wDocA ++ (wDocH :: wDocB) ++ wDocC)
          communityHeader ++ wRecsDup = l1 ++ x :: l2 ∧
        urlKey x ∉ l1.map urlKey) ∧
    wRecDup ∉ mergedServerLines (wDocA ++ (wDocH :: wDocB) ++ wDocC) wRecsDup
      communityHeader ∧
    (∃ e ∈ existingServerLines (wDocA ++ (wDocH :: wDocB) ++ wDocC)
        communityHeader, urlKey e = urlKey wRecDup ∧
      e ∈ mergedServerLines (wDocA ++ (wDocH :: wDocB) ++ wDocC) wRecsDup
        communityHeader) :=
  claim_C4 (wDocA ++ (wDocH :: wDocB) ++ wDocC) communityHeader wRecsDup
    wRecDup (by decide) (by decide) (by decide)

/-! ## Claim C2 -/

/-- C2: after a merge on a well-formed document (header text unique to the
header line, records not containing it), the entry lines within the located
target section of the output are non-decreasing under the case-insensitive
name comparison, and no two of them share a case-insensitively lowered URL. -/
theorem claim_C2 (hdr : List Char) (A : List (List Char)) (h : List Char)
    (B C recl out : List (List Char)) (hs : SectionSplit hdr A h B C)
    (hrec : ∀ r ∈ recl, containsSub hdr r = false)
    (hout : mergeServers (A ++ (h :: B) ++ C) recl hdr = some out) :
    (existingServerLines out hdr).Pairwise (fun a b => nameLe a b = true) ∧
    (existingServerLines out hdr).Pairwise
      (fun a b => urlKey a ≠ urlKey b) := by
  obtain ⟨hex, hmerged, hmerge⟩ := merge_eq hdr A h B C recl hs
  rw [hmerge] at hout
  injection hout with hout
  set P := B.takeWhile (fun l => !isBulletLine l) with hPdef
  set S := sortLe nameLe (dedupByUrl ((h :: B).filter keepLine ++ recl))
    with hSdef
  have hSsub : ∀ l ∈ S, l ∈ (h :: B).filter keepLine ++ recl := by
    intro l hl
    exact dedupAux_subset _ _ ((sortLe_perm nameLe _).mem_iff.mp hl)
  have hShdr : ∀ l ∈ S, containsSub hdr l = false := by
    intro l hl
    rcases List.mem_append.mp (hSsub l hl) with h1 | h1
    · obtain ⟨hmem, hkeep⟩ := List.mem_filter.mp h1
      rcases List.mem_cons.mp hmem with h2 | h2
      · rw [h2, keepLine_eq, hs.2.2.1] at hkeep
        cases hkeep
      · exact (hs.2.2.2.1 l h2).1
    · exact hrec l h1
  set S1 := S.takeWhile (fun l => !isBoundaryLine l) with hS1def
  set S2 := S.dropWhile (fun l => !isBoundaryLine l) with hS2def
  have hSsplit : S = S1 ++ S2 := (List.takeWhile_append_dropWhile _ _).symm
  have hsplit2 : SectionSplit hdr A h (P ++ S1) (S2 ++ C) := by
    refine ⟨hs.1, hs.2.1, hs.2.2.1, ?_, ?_⟩
    · intro l hl
      rcases List.mem_append.mp hl with h1 | h1
      · exact hs.2.2.2.1 l ((List.takeWhile_sublist _).subset h1)
      · have hlS : l ∈ S := (List.takeWhile_sublist _).subset h1
        refine ⟨hShdr l hlS, ?_⟩
        have := List.mem_takeWhile_imp h1
        simpa using this
    · cases hS2 : S2 with
      | nil =>
        simp only [List.nil_append]
        exact hs.2.2.2.2
      | cons c S3 =>
        right
        have hcS : c ∈ S := by
          rw [hSsplit, hS2]
          exact List.mem_append_right _ (List.mem_cons_self c S3)
        refine ⟨by simpa using hShdr c hcS, ?_⟩
        rcases dropWhile_head_bullet (fun l => !isBoundaryLine l) S with
          h1 | h1
        · rw [← hS2def] at h1
          rw [h1] at hS2
          cases hS2
        · rw [← hS2def, hS2] at h1
          simpa using h1
  have hform : out = A ++ (h :: (P ++ S1)) ++ (S2 ++ C) := by
    rw [← hout]
    conv_lhs => rw [hSsplit]
    simp [List.append_assoc]
  obtain ⟨hex2, -, -⟩ := merge_eq hdr A h (P ++ S1) (S2 ++ C) recl hsplit2
  rw [hform, hex2]
  have hfilter : (h :: (P ++ S1)).filter keepLine = S1.filter keepLine := by
    rw [List.filter_cons, if_neg (by rw [keepLine_eq, hs.2.2.1]; simp),
      List.filter_append]
    have hPnil : P.filter keepLine = [] := by
      rw [List.filter_eq_nil_iff]
      intro a ha
      have := List.mem_takeWhile_imp ha
      rw [keepLine_eq]
      simpa using this
    rw [hPnil, List.nil_append]
  rw [hfilter]
  have hsubl : (S1.filter keepLine).Sublist S := by
    refine List.Sublist.trans (List.filter_sublist S1) ?_
    rw [hSsplit]
    exact List.sublist_append_left S1 S2
  constructor
  · exact List.Pairwise.sublist hsubl
      (sortLe_pairwise nameLe_total nameLe_trans _)
  · refine List.Pairwise.sublist hsubl ?_
    have hperm := sortLe_perm nameLe
      (dedupByUrl ((h :: B).filter keepLine ++ recl))
    exact ((hperm.pairwise_iff (fun hxy => Ne.symm hxy)).mpr
      (dedupAux_pairwise _ _))

/-- Witness for C2 at a concrete merge. -/
theorem claim_C2_witness :
    (existingServerLines wMergeOut communityHeader).Pairwise
      (fun a b => nameLe a b = true) ∧
    (existingServerLines wMergeOut communityHeader).Pairwise
      (fun a b => urlKey a ≠ urlKey b) :=
  claim_C2 communityHeader wDocA wDocH wDocB wDocC wRecs wMergeOut (by decide)
    (by decide) (by decide)

/-! ## Claim C1 (amended) -/

/-- C1 (amended): the merge is idempotent on well-formed inputs — documents
with the section well-formed and validated record lines that are bullet entry
lines not containing the section header text.  Re-merging the unchanged
record set against the already-updated document reproduces it identically. -/
theorem claim_C1 (hdr : List Char) (A : List (List Char)) (h : List Char)
    (B C recl out : List (List Char)) (hs : SectionSplit hdr A h B C)
    (hrec : ∀ r ∈ recl, isBulletLine r = true ∧ containsSub hdr r = false)
    (hout : mergeServers (A ++ (h :: B) ++ C) recl hdr = some out) :
    mergeServers out recl hdr = some out := by
  obtain ⟨hex, hmerged, hmerge⟩ := merge_eq hdr A h B C recl hs
  rw [hmerge] at hout
  injection hout with hout
  set P := B.takeWhile (fun l => !isBulletLine l) with hPdef
  set S := sortLe nameLe (dedupByUrl ((h :: B).filter keepLine ++ recl))
    with hSdef
  have hSsub : ∀ l ∈ S, l ∈ (h :: B).filter keepLine ++ recl := by
    intro l hl
    exact dedupAux_subset _ _ ((sortLe_perm nameLe _).mem_iff.mp hl)
  have hSbul : ∀ l ∈ S, isBulletLine l = true := by
    intro l hl
    rcases List.mem_append.mp (hSsub l hl) with h1 | h1
    · have := List.of_mem_filter h1
      rwa [keepLine_eq] at this
    · exact (hrec l h1).1
  have hShdr : ∀ l ∈ S, containsSub hdr l = false := by
    intro l hl
    rcases List.mem_append.mp (hSsub l hl) with h1 | h1
    · obtain ⟨hmem, hkeep⟩ := List.mem_filter.mp h1
      rcases List.mem_cons.mp hmem with h2 | h2
      · rw [h2, keepLine_eq, hs.2.2.1] at hkeep
        cases hkeep
      · exact (hs.2.2.2.1 l h2).1
    · exact (hrec l h1).2
  have hPnb : ∀ l ∈ P, isBulletLine l = false := by
    intro l hl
    have := List.mem_takeWhile_imp hl
    simpa using this
  have hsplit2 : SectionSplit hdr A h (P ++ S) C := by
    refine ⟨hs.1, hs.2.1, hs.2.2.1, ?_, hs.2.2.2.2⟩
    intro l hl
    rcases List.mem_append.mp hl with h1 | h1
    · exact hs.2.2.2.1 l ((List.takeWhile_sublist _).subset h1)
    · exact ⟨hShdr l h1, bullet_not_boundary (hSbul l h1)⟩
  obtain ⟨-, -, hmerge2⟩ := merge_eq hdr A h (P ++ S) C recl hsplit2
  have hform : out = A ++ (h :: (P ++ S)) ++ C := by
    rw [← hout]
    simp [List.append_assoc]
  have htw : (P ++ S).takeWhile (fun l => !isBulletLine l) = P := by
    rw [takeWhile_append_of_all (fun l hl => by simpa using hPnb l hl)]
    cases hS : S with
    | nil => simp
    | cons s S3 =>
      have hsb : isBulletLine s = true := hSbul s (by rw [hS]; simp)
      simp [List.takeWhile_cons, hsb]
  have hfilter : (h :: (P ++ S)).filter keepLine = S := by
    rw [List.filter_cons, if_neg (by rw [keepLine_eq, hs.2.2.1]; simp),
      List.filter_append]
    have hPnil : P.filter keepLine = [] := by
      rw [List.filter_eq_nil_iff]
      intro a ha
      rw [keepLine_eq]
      simp [hPnb a ha]
    have hSself : S.filter keepLine = S := by
      rw [List.filter_eq_self]
      intro a ha
      rw [keepLine_eq]
      exact hSbul a ha
    rw [hPnil, hSself, List.nil_append]
  have hSpair : S.Pairwise (fun a b => urlKey a ≠ urlKey b) := by
    have hperm := sortLe_perm nameLe
      (dedupByUrl ((h :: B).filter keepLine ++ recl))
    exact ((hperm.pairwise_iff (fun hxy => Ne.symm hxy)).mpr
      (dedupAux_pairwise _ _))
  have hdedup : dedupByUrl (S ++ recl) = S := by
    unfold dedupByUrl
    apply dedupAux_keep_all S [] recl hSpair (by simp)
    intro y hy
    right
    have h1 : urlKey y ∈
        ((h :: B).filter keepLine ++ recl).map urlKey := by
      rw [List.map_append]
      exact List.mem_append_right _ (List.mem_map_of_mem urlKey hy)
    have h2 : urlKey y ∈
        (dedupByUrl ((h :: B).filter keepLine ++ recl)).map urlKey := by
      unfold dedupByUrl
      rw [dedupAux_keys]
      exact ⟨by simp, h1⟩
    have hperm := (sortLe_perm nameLe
      (dedupByUrl ((h :: B).filter keepLine ++ recl))).map urlKey
    exact hperm.mem_iff.mpr h2
  have hsort : sortLe nameLe S = S :=
    sortLe_of_sorted S (sortLe_pairwise nameLe_total nameLe_trans _)
  rw [hform, hmerge2, hfilter, hdedup, hsort, htw]
  simp [List.append_assoc]

/-- Witness for C1 at a concrete well-formed document and record set. -/
theorem claim_C1_witness :
    mergeServers wMergeOut wRecs communityHeader = some wMergeOut :=
  claim_C1 communityHeader wDocA wDocH wDocB wDocC wRecs wMergeOut (by decide)
    (by decide) (by decide)

/-! ## Claim C9 -/

/-- C9: when closing originals, a PR whose live status is already closed (or
merged) is reported as skipped — with reason "Already closed" in the closed
case — and no comment and no close request are issued. -/
theorem claim_C9 (n : Nat) (st : PrStatus) (commentOk closeOk dryRun : Bool)
    (h : st.state = ("closed".toList) ∨ st.merged = true) :
    (processPr n (some st) commentOk closeOk dryRun).2 = [] ∧
    (processPr n (some st) commentOk closeOk dryRun).1.skipped = true ∧
    (processPr n (some st) commentOk closeOk dryRun).1.success = true ∧
    (st.state = ("closed".toList) →
      (processPr n (some st) commentOk closeOk dryRun).1.reason =
        some ("Already closed".toList)) := by
  by_cases hc : st.state = ("closed".toList)
  · simp [processPr, hc]
  · rcases h with h | h
    · exact absurd h hc
    · have hc2 : ¬st.state = ['c', 'l', 'o', 's', 'e', 'd'] := by
        simpa using hc
      simp [processPr, hc2, h]

/-- Witness for C9 at a concrete closed PR. -/
theorem claim_C9_witness :
    (processPr 3 (some ⟨("closed".toList), false⟩) true true false).2 = [] ∧
    (processPr 3 (some ⟨("closed".toList), false⟩) true true false).1.skipped
      = true ∧
    (processPr 3 (some ⟨("closed".toList), false⟩) true true false).1.success
      = true ∧
    ((⟨("closed".toList), false⟩ : PrStatus).state = ("closed".toList) →
      (processPr 3 (some ⟨("closed".toList), false⟩) true true false).1.reason
        = some ("Already closed".toList)) :=
  claim_C9 3 ⟨("closed".toList), false⟩ true true false (Or.inl rfl)

/-! ## Claim C7 -/

/-- C7 counterexample: the page fetcher retries a rate-limited request more
than once (two consecutive rate limits are survived), and a non-rate-limit
transport failure aborts the whole run (`sys.exit(1)`), contradicting
"retries exactly once" and "does not abort the overall run". -/
theorem claim_C7_counterexample :
    fetchPrsPage [.rateLimited, .rateLimited, .ok []] = .got [] ∧
    fetchPrsPage [.err] = .aborted := ⟨rfl, rfl⟩

/-- C7 (amended): rate-limited page fetches are retried indefinitely, until
the oracle produces a non-rate-limit outcome; a non-rate-limit page-fetch
failure aborts the whole run; a missing diff is terminal for that single PR
(a structured rejection), not for the run. -/
theorem claim_C7 :
    (∀ (k : Nat) (prs : List PRMeta) (rest : List PageOutcome),
      fetchPrsPage (List.replicate k .rateLimited ++ .ok prs :: rest) =
        .got prs) ∧
    (∀ (k : Nat) (rest : List PageOutcome),
      fetchPrsPage (List.replicate k .rateLimited ++ .err :: rest) =
        .aborted) ∧
    (∀ (n : Nat) (t u : List Char) (split : Bool) (maxS : Nat)
      (ap : ApprovalInfo),
      analyzePR ⟨n, t, u, []⟩ none split maxS ap = .error .diffFetchFailed) := by
  refine ⟨?_, ?_, ?_⟩
  · intro k prs rest
    induction k with
    | zero => rfl
    | succ m ih => simpa [List.replicate_succ, fetchPrsPage] using ih
  · intro k rest
    induction k with
    | zero => rfl
    | succ m ih => simpa [List.replicate_succ, fetchPrsPage] using ih
  · intro n t u split maxS ap
    simp [analyzePR]

/-! ## Counterexamples for C1, C3, C8 -/

/-- C1 counterexample: merging a validated record whose description mentions
the section header text is not idempotent — the second merge mislocates the
section at the record's own line and duplicates it. -/
theorem claim_C1_counterexample :
    mergeServers
        [(String.toList "### S"), (String.toList "- **[A](https://a)** - x")]
        [(String.toList "- **[B](https://b)** - see ### S here")]
        (String.toList "### S") =
      some
        [(String.toList "### S"), (String.toList "- **[A](https://a)** - x"),
         (String.toList "- **[B](https://b)** - see ### S here")] ∧
    mergeServers
        [(String.toList "### S"), (String.toList "- **[A](https://a)** - x"),
         (String.toList "- **[B](https://b)** - see ### S here")]
        [(String.toList "- **[B](https://b)** - see ### S here")]
        (String.toList "### S") =
      some
        [(String.toList "### S"), (String.toList "- **[A](https://a)** - x"),
         (String.toList "- **[B](https://b)** - see ### S here"),
         (String.toList "- **[B](https://b)** - see ### S here")] ∧
    ¬([(String.toList "### S"), (String.toList "- **[A](https://a)** - x"),
       (String.toList "- **[B](https://b)** - see ### S here"),
       (String.toList "- **[B](https://b)** - see ### S here")] =
      [(String.toList "### S"), (String.toList "- **[A](https://a)** - x"),
       (String.toList "- **[B](https://b)** - see ### S here")]) := by
  refine ⟨by decide, by decide, by decide⟩

/-- C3 counterexample: alt-text repair is not idempotent.  A name containing
the tag terminator makes the repaired line unparseable (re-extraction fails),
and a name smuggling quote characters makes re-extraction succeed with
different bytes (a duplicated width attribute). -/
theorem claim_C3_counterexample :
    extractServerInfoFromLine
        (String.toList "- <img src=\"x\"> **[A>B](https://u)** - d") =
      some
        ⟨(String.toList "A>B"), (String.toList "https://u"),
         (String.toList "d"),
         (String.toList
           "- <img src=\"x\" alt=\"A>B\"> **[A>B](https://u)** - d")⟩ ∧
    extractServerInfoFromLine
        (String.toList
          "- <img src=\"x\" alt=\"A>B\"> **[A>B](https://u)** - d") = none ∧
    extractServerInfoFromLine
        (String.toList
          "- <img src=\"x\"> **[\" width=\"9](https://u)** - d") =
      some
        ⟨(String.toList "\" width=\"9"), (String.toList "https://u"),
         (String.toList "d"),
         (String.toList
           "- <img src=\"x\" alt=\"\" width=\"9\"> **[\" width=\"9](https://u)** - d")⟩ ∧
    extractServerInfoFromLine
        (String.toList
          "- <img src=\"x\" alt=\"\" width=\"9\"> **[\" width=\"9](https://u)** - d") =
      some
        ⟨(String.toList "\" width=\"9"), (String.toList "https://u"),
         (String.toList "d"),
         (String.toList
           "- <img src=\"x\" alt=\"\" width=\"9\" width=\"9\"> **[\" width=\"9](https://u)** - d")⟩ ∧
    ¬(String.toList
        "- <img src=\"x\" alt=\"\" width=\"9\" width=\"9\"> **[\" width=\"9](https://u)** - d" =
      String.toList
        "- <img src=\"x\" alt=\"\" width=\"9\"> **[\" width=\"9](https://u)** - d") := by
  refine ⟨by decide, by decide, by decide, by decide, by decide⟩

/-- C8 counterexample: a PR carrying the community category label is
categorized "community" even though its line contains an icon marker and a
category label is present, refuting "community only when no icon marker and
no category label are present". -/
theorem claim_C8_counterexample :
    (analyzePR ⟨9, [], [], [("add-community-server".toList)]⟩
        (some (String.toList
          "+++ b/README.md\n+- <img src=\"x\"> **[A](https://a)** - d"))
        true 10 ⟨false, 0, [], []⟩).map
      (fun es => es.map fun e =>
        (e.category, containsSub ("<img".toList) e.complete_line)) =
      .ok [(("community".toList), true)] := by decide

/-! ## Claims C5 and C6 -/

theorem buildServerEntries_map_pr_number (pr : PRMeta) (ap : ApprovalInfo)
    (total : Nat) :
    ∀ (added : List (List Char × ServerInfo)) (i : Nat),
      (buildServerEntries pr ap total i added).map (fun e => e.pr_number) =
        (List.range added.length).map (fun k =>
          natToDigits pr.number ++
            (if total > 1 then '-' :: natToDigits (i + k + 1) else [])) := by
  intro added
  induction added with
  | nil => intro i; rfl
  | cons hd tl ih =>
    intro i
    obtain ⟨_, info⟩ := hd
    unfold buildServerEntries
    rw [if_neg (by rw [display_not_blank]; simp)]
    simp only [List.map_cons, List.length_cons, List.range_succ_eq_map,
      List.map_map]
    refine List.cons_eq_cons.mpr ⟨by simp, ?_⟩
    · rw [ih (i + 1)]
      apply List.map_congr_left
      intro k _
      simp only [Function.comp_apply]
      have : i + 1 + k + 1 = i + (k + 1) + 1 := by omega
      rw [this]

theorem buildServerEntries_length (pr : PRMeta) (ap : ApprovalInfo)
    (total : Nat) :
    ∀ (added : List (List Char × ServerInfo)) (i : Nat),
      (buildServerEntries pr ap total i added).length = added.length := by
  intro added
  have h := buildServerEntries_map_pr_number pr ap total added
  intro i
  have := congrArg List.length (h i)
  simpa using this

/-- C6: for every accepted PR, the sequence of display identifiers of the
produced entries is exactly the PR's own decimal identifier when one entry was
extracted, and `{prId}-{i}` with 1-based index `i` otherwise; and splitting
each display identifier at the dash separator (as `get_original_pr_number`
does) recovers exactly the originating PR number. -/
theorem claim_C6 (pr : PRMeta) (diff : Option (List Char)) (split : Bool)
    (maxS : Nat) (ap : ApprovalInfo) (entries : List ServerEntry)
    (hok : analyzePR pr diff split maxS ap = .ok entries) :
    entries.map (fun e => e.pr_number) =
      (List.range entries.length).map (fun k =>
        if entries.length > 1 then
          natToDigits pr.number ++ '-' :: natToDigits (k + 1)
        else natToDigits pr.number) ∧
    entries.map (fun e => getOriginalPrNumber e.pr_number) =
      List.replicate entries.length (some pr.number) := by
  unfold analyzePR analyzePRBody at hok
  split at hok
  · cases hok
  · split at hok
    · cases hok
    · split at hok
      · cases hok
      · split at hok
        · cases hok
        · split at hok
          · cases hok
          · split at hok
            · cases hok
            · split at hok
              · cases hok
              · split at hok
                · cases hok
                · rename_i d hd1 hd2 hlen hmax hsplit hnoise
                  injection hok with hok
                  subst hok
                  set added := addedParsedLines (splitOnNl d) with hadded
                  have hlen2 := buildServerEntries_length pr ap added.length
                    added 0
                  have hmap := buildServerEntries_map_pr_number pr ap
                    added.length added 0
                  constructor
                  · rw [hmap, hlen2]
                    apply List.map_congr_left
                    intro k _
                    by_cases hgt : added.length > 1
                    · rw [if_pos hgt, if_pos hgt]
                      simp
                    · rw [if_neg hgt, if_neg hgt, List.append_nil]
                  · have hcomp :
                        (buildServerEntries pr ap added.length 0 added).map
                          (fun e => getOriginalPrNumber e.pr_number) =
                        ((buildServerEntries pr ap added.length 0 added).map
                          (fun e => e.pr_number)).map getOriginalPrNumber := by
                      rw [List.map_map]; rfl
                    rw [hcomp, hmap, List.map_map, hlen2, List.eq_replicate_iff]
                    refine ⟨by simp, ?_⟩
                    intro b hb
                    rw [List.mem_map] at hb
                    obtain ⟨k, _, hbk⟩ := hb
                    rw [← hbk]
                    simp only [Function.comp_apply]
                    by_cases hgt : added.length > 1
                    · rw [if_pos hgt, getOriginal_multi]
                    · rw [if_neg hgt, List.append_nil, getOriginal_single]

/-- Witness for C6: a concrete three-entry PR diff with splitting enabled. -/
theorem claim_C6_witness :
    (claim_C6_entries.map (fun e => e.pr_number) =
      (List.range claim_C6_entries.length).map (fun k =>
        if claim_C6_entries.length > 1 then
          natToDigits 44 ++ '-' :: natToDigits (k + 1)
        else natToDigits 44)) ∧
    claim_C6_entries.map (fun e => getOriginalPrNumber e.pr_number) =
      List.replicate claim_C6_entries.length (some 44) :=
  claim_C6 ⟨44, [], [], []⟩ (some claim_C6_diff) true 10 ⟨false, 0, [], []⟩
    claim_C6_entries (by decide)

/-- C5: for every PR diff that reaches the noise-tolerance check, the
classifier rejects the PR if and only if the number of added lines that are
non-blank and did not parse as an entry exceeds `2 + entryCount`; at or below
that threshold the PR is accepted (approval never rejects). -/
theorem claim_C5 (pr : PRMeta) (d : List Char) (split : Bool) (maxS : Nat)
    (ap : ApprovalInfo) (h : reachesToleranceCheck pr d split maxS) :
    (analyzePR pr (some d) split maxS ap = .error .tooManyChanges ↔
      2 + (addedParsedLines (splitOnNl d)).length < noiseCount (splitOnNl d)) ∧
    (noiseCount (splitOnNl d) ≤ 2 + (addedParsedLines (splitOnNl d)).length →
      analyzePR pr (some d) split maxS ap =
        .ok (buildServerEntries pr ap (addedParsedLines (splitOnNl d)).length 0
          (addedParsedLines (splitOnNl d)))) := by
  obtain ⟨h1, h2, h3, h4, h5, h6⟩ := h
  have hred : analyzePR pr (some d) split maxS ap =
      analyzePRBody pr d split maxS ap := by
    unfold analyzePR
    rw [if_neg h1]
  rw [hred]
  unfold analyzePRBody
  rw [if_neg (by rw [h2]; simp)]
  rw [if_neg (by rw [h3]; simp)]
  rw [if_neg h4]
  rw [if_neg (by omega)]
  rw [if_neg (by
    intro hcon
    rw [Bool.and_eq_true] at hcon
    obtain ⟨hg, hs⟩ := hcon
    rw [decide_eq_true_iff] at hg
    rw [h6 hg] at hs
    cases hs)]
  constructor
  · constructor
    · intro heq
      by_contra hle
      rw [if_neg (by omega)] at heq
      cases heq
    · intro hlt
      rw [if_pos (by omega)]
  · intro hle
    rw [if_neg (by omega)]

/-- Witness for C5: a concrete single-entry diff with exactly three noise
lines, sitting exactly at the `2 + 1` threshold, is accepted. -/
theorem claim_C5_witness :
    (analyzePR ⟨7, [], [], []⟩ (some claim_C5_diff) true 10 ⟨false, 0, [], []⟩
        = .error .tooManyChanges ↔
      2 + (addedParsedLines (splitOnNl claim_C5_diff)).length <
        noiseCount (splitOnNl claim_C5_diff)) ∧
    (noiseCount (splitOnNl claim_C5_diff) ≤
        2 + (addedParsedLines (splitOnNl claim_C5_diff)).length →
      analyzePR ⟨7, [], [], []⟩ (some claim_C5_diff) true 10 ⟨false, 0, [], []⟩
        = .ok (buildServerEntries ⟨7, [], [], []⟩ ⟨false, 0, [], []⟩
            (addedParsedLines (splitOnNl claim_C5_diff)).length 0
            (addedParsedLines (splitOnNl claim_C5_diff)))) :=
  claim_C5 ⟨7, [], [], []⟩ claim_C5_diff true 10 ⟨false, 0, [], []⟩ (by
    refine ⟨by decide, by decide, by decide, by decide, by decide, ?_⟩
    intro h
    rfl)

/-! ## Parser-combinator lemmas for the entry extractor -/

theorem drop_length_takeWhile {α : Type} (p : α → Bool) (l : List α) :
    l.drop (l.takeWhile p).length = l.dropWhile p := by
  induction l with
  | nil => rfl
  | cons c cs ih =>
    by_cases hp : p c
    · simp [List.takeWhile_cons, List.dropWhile_cons, hp, ih]
    · simp [List.takeWhile_cons, List.dropWhile_cons, hp]

theorem dropWhile_cons_prop {α : Type} {p : α → Bool} {l : List α} {x : α}
    {xs : List α} (h : l.dropWhile p = x :: xs) : p x = false := by
  induction l with
  | nil => cases h
  | cons c cs ih =>
    rw [List.dropWhile_cons] at h
    by_cases hp : p c
    · rw [if_pos hp] at h
      exact ih h
    · rw [if_neg hp] at h
      injection h with h1 _
      subst h1
      simpa using hp

theorem takeWhile_dropWhile_eq {α : Type} {p : α → Bool} {l : List α} {x : α}
    {xs : List α} (h : l.dropWhile p = x :: xs) :
    l = l.takeWhile p ++ x :: xs := by
  conv_lhs => rw [← List.takeWhile_append_dropWhile p l]
  rw [h]

theorem takeUntil1_inv {stop : Char} {l pre rest : List Char}
    (h : takeUntil1 stop l = some (pre, rest)) :
    pre ≠ [] ∧ (∀ c ∈ pre, c ≠ stop) ∧ l = pre ++ stop :: rest := by
  simp only [takeUntil1, drop_length_takeWhile] at h
  split at h
  · cases h
  · rename_i d rest0 hdw
    split at h
    · cases h
    · rename_i hpre
      simp only [Option.some.injEq, Prod.mk.injEq] at h
      obtain ⟨h3, h4⟩ := h
      subst h4
      have hd : d = stop := by
        have := dropWhile_cons_prop hdw
        simpa using this
      have hl := takeWhile_dropWhile_eq hdw
      refine ⟨h3 ▸ hpre, ?_, ?_⟩
      · intro c hc
        rw [← h3] at hc
        have := List.mem_takeWhile_imp hc
        simpa using this
      · rw [hl, h3, hd]

theorem takeUntil0_inv {stop : Char} {l pre rest : List Char}
    (h : takeUntil0 stop l = some (pre, rest)) :
    (∀ c ∈ pre, c ≠ stop) ∧ l = pre ++ stop :: rest := by
  simp only [takeUntil0, drop_length_takeWhile] at h
  split at h
  · cases h
  · rename_i d rest0 hdw
    simp only [Option.some.injEq, Prod.mk.injEq] at h
    obtain ⟨h3, h4⟩ := h
    subst h4
    have hd : d = stop := by
      have := dropWhile_cons_prop hdw
      simpa using this
    have hl := takeWhile_dropWhile_eq hdw
    refine ⟨?_, ?_⟩
    · intro c hc
      rw [← h3] at hc
      have := List.mem_takeWhile_imp hc
      simpa using this
    · rw [hl, h3, hd]

theorem takeWhile_stop_comp {p : Char → Bool} {xs rest : List Char}
    {stop : Char} (hall : ∀ c ∈ xs, p c = true) (hstop : p stop = false) :
    (xs ++ stop :: rest).takeWhile p = xs := by
  rw [takeWhile_append_of_all hall]
  simp [List.takeWhile_cons, hstop]

theorem dropWhile_stop_comp {p : Char → Bool} {xs rest : List Char}
    {stop : Char} (hall : ∀ c ∈ xs, p c = true) (hstop : p stop = false) :
    (xs ++ stop :: rest).dropWhile p = stop :: rest := by
  rw [List.dropWhile_append, if_pos]
  · rw [List.dropWhile_cons, if_neg (by simp [hstop])]
  · rw [List.isEmpty_iff, List.dropWhile_eq_nil_iff]
    exact hall

theorem takeUntil1_comp {stop : Char} {xs : List Char} (hne : xs ≠ [])
    (hall : ∀ c ∈ xs, c ≠ stop) (rest : List Char) :
    takeUntil1 stop (xs ++ stop :: rest) = some (xs, rest) := by
  have htw : (xs ++ stop :: rest).takeWhile (fun c => decide (c ≠ stop)) = xs :=
    takeWhile_stop_comp (fun c hc => by simpa using hall c hc) (by simp)
  have hdw : (xs ++ stop :: rest).dropWhile (fun c => decide (c ≠ stop)) =
      stop :: rest :=
    dropWhile_stop_comp (fun c hc => by simpa using hall c hc) (by simp)
  simp only [takeUntil1, htw, List.drop_left]
  rw [if_neg hne]

theorem takeUntil0_comp {stop : Char} {xs : List Char}
    (hall : ∀ c ∈ xs, c ≠ stop) (rest : List Char) :
    takeUntil0 stop (xs ++ stop :: rest) = some (xs, rest) := by
  have htw : (xs ++ stop :: rest).takeWhile (fun c => decide (c ≠ stop)) = xs :=
    takeWhile_stop_comp (fun c hc => by simpa using hall c hc) (by simp)
  have hdw : (xs ++ stop :: rest).dropWhile (fun c => decide (c ≠ stop)) =
      stop :: rest :=
    dropWhile_stop_comp (fun c hc => by simpa using hall c hc) (by simp)
  simp only [takeUntil0, htw, List.drop_left]

theorem parseLit_comp : ∀ (lit r : List Char), parseLit lit (lit ++ r) = some r
  | [], _ => rfl
  | c :: cs, r => by
    simp only [List.cons_append, parseLit, if_pos rfl]
    exact parseLit_comp cs r

theorem parseLit_inv : ∀ {lit l r : List Char},
    parseLit lit l = some r → l = lit ++ r
  | [], l, r, h => by simpa [parseLit] using h
  | _ :: _, [], _, h => by cases h
  | c :: cs, x :: xs, r, h => by
    by_cases hx : x = c
    · subst hx
      simp only [parseLit, if_pos rfl] at h
      have := parseLit_inv h
      simp [this]
    · simp only [parseLit, if_neg hx] at h
      cases h

theorem lstrip_cons_of_ws {c : Char} (l : List Char) (hc : pyWs c = true) :
    lstrip (c :: l) = lstrip l := by
  simp [lstrip, List.dropWhile_cons, hc]

theorem lstrip_cons_of_not_ws {c : Char} (l : List Char) (hc : pyWs c = false) :
    lstrip (c :: l) = c :: l := by
  simp [lstrip, List.dropWhile_cons, hc]

theorem rstrip_eq_self {l : List Char} {x : Char} (h : l.getLast? = some x)
    (hx : pyWs x = false) : rstrip l = l := by
  unfold rstrip
  cases hr : l.reverse with
  | nil =>
    rw [List.reverse_eq_nil_iff] at hr
    subst hr; rfl
  | cons y ys =>
    have hy : y = x := by
      have h1 : l.reverse.head? = some x := by
        rw [List.head?_reverse]; exact h
      rw [hr] at h1
      simpa using h1
    subst hy
    rw [List.dropWhile_cons, if_neg (by simp [hx]), ← hr,
      List.reverse_reverse]

theorem lstrip_eq_self {l : List Char} {x : Char} (h : l.head? = some x)
    (hx : pyWs x = false) : lstrip l = l := by
  cases l with
  | nil => cases h
  | cons c cs =>
    have hc : c = x := by simpa using h
    subst hc
    exact lstrip_cons_of_not_ws cs hx

theorem pyStrip_eq_self {l : List Char} {x y : Char} (hh : l.head? = some x)
    (hx : pyWs x = false) (hl : l.getLast? = some y) (hy : pyWs y = false) :
    pyStrip l = l := by
  unfold pyStrip
  rw [lstrip_eq_self hh hx]
  exact rstrip_eq_self hl hy

theorem rstrip_leading (l : List Char) : rstrip l <+: l := by
  have h1 := List.dropWhile_suffix (l := l.reverse) pyWs
  have h2 := List.reverse_prefix.mpr h1
  simpa [rstrip] using h2

theorem pyStrip_head_not_ws {l : List Char} {x : Char}
    (h : (pyStrip l).head? = some x) : pyWs x = false := by
  unfold pyStrip at h
  obtain ⟨t, ht⟩ := rstrip_leading (lstrip l)
  have hh : (lstrip l).head? = some x := by
    rw [← ht, List.head?_append, h]
    rfl
  cases hdw : lstrip l with
  | nil => rw [hdw] at hh; cases hh
  | cons c cs =>
    rw [hdw] at hh
    have hx : c = x := by simpa using hh
    subst hx
    exact dropWhile_cons_prop hdw

theorem pyStrip_getLast_not_ws {l : List Char} {x : Char}
    (h : (pyStrip l).getLast? = some x) : pyWs x = false := by
  unfold pyStrip rstrip at h
  rw [List.getLast?_reverse] at h
  cases hdw : (lstrip l).reverse.dropWhile pyWs with
  | nil => rw [hdw] at h; cases h
  | cons c cs =>
    rw [hdw] at h
    have hx : c = x := by simpa using h
    subst hx
    exact dropWhile_cons_prop hdw

theorem mem_pyStrip {c : Char} {l : List Char} (h : c ∈ pyStrip l) : c ∈ l := by
  unfold pyStrip at h
  have h1 : c ∈ lstrip l := (rstrip_leading (lstrip l)).sublist.subset h
  exact ((List.dropWhile_suffix pyWs).sublist.subset) h1

theorem pyStrip_idem (l : List Char) : pyStrip (pyStrip l) = pyStrip l := by
  cases hl : pyStrip l with
  | nil => rfl
  | cons a rest =>
    obtain ⟨y, hy⟩ : ∃ y, (a :: rest).getLast? = some y := by
      cases hgl : (a :: rest).getLast? with
      | none => rw [List.getLast?_eq_none_iff] at hgl; cases hgl
      | some y => exact ⟨y, rfl⟩
    exact pyStrip_eq_self rfl (pyStrip_head_not_ws (by rw [hl]; rfl)) hy
      (pyStrip_getLast_not_ws (by rw [hl]; exact hy))

theorem strip_fix_parts {l : List Char} (h : pyStrip l = l) (hne : l ≠ []) :
    lstrip l = l ∧ rstrip l = l := by
  cases l with
  | nil => cases hne rfl
  | cons a rest =>
    have hh : pyWs a = false := pyStrip_head_not_ws (by rw [h]; rfl)
    have hl : lstrip (a :: rest) = a :: rest := lstrip_cons_of_not_ws rest hh
    refine ⟨hl, ?_⟩
    have h2 := h
    unfold pyStrip at h2
    rw [hl] at h2
    exact h2

theorem suffix_getLast? {s t : List Char} (h : s <:+ t) (hne : s ≠ []) :
    t.getLast? = s.getLast? := by
  obtain ⟨u, hu⟩ := h
  rw [← hu, List.getLast?_append]
  cases hs : s.getLast? with
  | none => rw [List.getLast?_eq_none_iff] at hs; cases hne hs
  | some x => rfl

theorem headD_shape {l : List Char} (h : l ≠ []) :
    l = l.headD ' ' :: l.tail := by
  cases l with
  | nil => cases h rfl
  | cons c cs => rfl

/-! ## Literal reductions and single-character strip facts -/

theorem lit_ds : ("- ".toList) = ['-', ' '] := rfl

theorem lit_img : ("<img".toList) = ['<', 'i', 'm', 'g'] := rfl

theorem lit_sbb : (" **[".toList) = [' ', '*', '*', '['] := rfl

theorem lit_bp : ("](".toList) = [']', '('] := rfl

theorem lit_pbs : (")** ".toList) = [')', '*', '*', ' '] := rfl

theorem lit_pbd : (")** - ".toList) = [')', '*', '*', ' ', '-', ' '] := rfl

theorem lit_dbb : ("- **[".toList) = ['-', ' ', '*', '*', '['] := rfl

theorem lit_sds : (" - ".toList) = [' ', '-', ' '] := rfl

theorem pyWs_sp : pyWs ' ' = true := rfl

theorem lstrip_dash (l : List Char) : lstrip ('-' :: l) = '-' :: l :=
  lstrip_cons_of_not_ws l (by decide)

theorem lstrip_sp (l : List Char) : lstrip (' ' :: l) = lstrip l :=
  lstrip_cons_of_ws l (by decide)

theorem lstrip_lt (l : List Char) : lstrip ('<' :: l) = '<' :: l :=
  lstrip_cons_of_not_ws l (by decide)

theorem lstrip_star (l : List Char) : lstrip ('*' :: l) = '*' :: l :=
  lstrip_cons_of_not_ws l (by decide)

theorem parseLit_img (l : List Char) :
    parseLit ("<img".toList) ('<' :: 'i' :: 'm' :: 'g' :: l) = some l :=
  parseLit_comp _ l

theorem parseLit_bb_open (l : List Char) :
    parseLit ("**[".toList) ('*' :: '*' :: '[' :: l) = some l :=
  parseLit_comp _ l

theorem parseLit_bb (l : List Char) :
    parseLit ("**".toList) ('*' :: '*' :: l) = some l :=
  parseLit_comp _ l

/-! ## The attribution/description split -/

theorem splitDash_comp {xs desc : List Char} (hxs : ∀ c ∈ xs, c ≠ '-')
    (hd1 : desc ≠ []) (hd2 : pyWs (desc.headD ' ') = false) :
    splitDashParts (xs ++ '-' :: (' ' :: desc)) = some (pyStrip xs, desc) := by
  have htw : (xs ++ '-' :: (' ' :: desc)).takeWhile
      (fun c => decide (c ≠ '-')) = xs :=
    takeWhile_stop_comp (fun c hc => by simpa using hxs c hc) (by simp)
  have hdw : (' ' :: desc).dropWhile pyWs = desc := by
    rw [List.dropWhile_cons, if_pos (by decide)]
    cases desc with
    | nil => cases hd1 rfl
    | cons dc dtl =>
      have hdc : pyWs dc = false := by simpa using hd2
      rw [List.dropWhile_cons, if_neg (by simp [hdc])]
  simp only [splitDashParts, htw, List.drop_left, hdw]
  rw [if_neg (by simp [hd1])]

theorem splitDash_inv {r attr desc : List Char}
    (h : splitDashParts r = some (attr, desc)) :
    pyStrip attr = attr ∧ (∀ c ∈ attr, c ≠ '-') ∧ desc ≠ [] ∧ desc <:+ r ∧
    (pyWs (desc.headD ' ') = false ∨
      desc.getLast? = some (desc.headD ' ')) := by
  simp only [splitDashParts, drop_length_takeWhile] at h
  split at h
  · cases h
  · rename_i d0 post hdw
    split at h
    · cases h
    · rename_i p ps
      simp only [Option.some.injEq, Prod.mk.injEq] at h
      obtain ⟨hattr, hdesc⟩ := h
      have hr := takeWhile_dropWhile_eq hdw
      have hsub : (p :: ps) <:+ r := by
        conv_rhs => rw [hr]
        exact (List.suffix_cons d0 (p :: ps)).trans (List.suffix_append _ _)
      refine ⟨?_, ?_, ?_, ?_, ?_⟩
      · rw [← hattr, pyStrip_idem]
      · intro c hc
        rw [← hattr] at hc
        have h1 := mem_pyStrip hc
        have := List.mem_takeWhile_imp h1
        simpa using this
      · rw [← hdesc]
        split
        · exact List.cons_ne_nil _ _
        · rename_i hemp
          intro hnil
          rw [hnil] at hemp
          exact hemp rfl
      · rw [← hdesc]
        split
        · refine List.IsSuffix.trans ?_ hsub
          exact ⟨(p :: ps).dropLast, List.dropLast_append_getLast _⟩
        · exact List.IsSuffix.trans (List.dropWhile_suffix pyWs) hsub
      · rw [← hdesc]
        split
        · right; rfl
        · rename_i hemp
          left
          cases hd2 : (p :: ps).dropWhile pyWs with
          | nil => rw [hd2] at hemp; exact absurd rfl hemp
          | cons dc dtl =>
            simpa using dropWhile_cons_prop hd2

/-! ## The shared link tail of the two entry patterns -/

theorem parseLinkTail_build {nm url r7 attr desc : List Char}
    (hnm1 : nm ≠ []) (hnm2 : ∀ c ∈ nm, c ≠ ']')
    (hurl1 : url ≠ []) (hurl2 : ∀ c ∈ url, c ≠ ')')
    (hsd : splitDashParts r7 = some (attr, desc)) :
    parseLinkTail (nm ++ ']' :: ('(' :: (url ++ ')' :: ('*' :: '*' :: r7)))) =
      some (nm, url, attr, desc) := by
  have hpl : parseLit ("**".toList) ('*' :: '*' :: r7) = some r7 :=
    parseLit_comp _ r7
  simp only [parseLinkTail, takeUntil1_comp hnm1 hnm2,
    takeUntil1_comp hurl1 hurl2, hpl, hsd]

theorem parseLinkTail_inv {r3 nm url attr desc : List Char}
    (h : parseLinkTail r3 = some (nm, url, attr, desc)) :
    nm ≠ [] ∧ (∀ c ∈ nm, c ≠ ']') ∧ url ≠ [] ∧ (∀ c ∈ url, c ≠ ')') ∧
    pyStrip attr = attr ∧ (∀ c ∈ attr, c ≠ '-') ∧ desc ≠ [] ∧ desc <:+ r3 ∧
    (pyWs (desc.headD ' ') = false ∨
      desc.getLast? = some (desc.headD ' ')) := by
  unfold parseLinkTail at h
  split at h
  · rename_i nm0 r4 ht1
    split at h
    · rename_i r5
      split at h
      · rename_i url0 r6 ht2
        split at h
        · rename_i r7 hpl
          split at h
          · rename_i attr0 desc0 hsd
            simp only [Option.some.injEq, Prod.mk.injEq] at h
            obtain ⟨h1, h2, h3, h4⟩ := h
            subst h1; subst h2; subst h3; subst h4
            obtain ⟨hn1, hn2, he3⟩ := takeUntil1_inv ht1
            obtain ⟨hu1, hu2, he5⟩ := takeUntil1_inv ht2
            have he6 := parseLit_inv hpl
            obtain ⟨hs1, hs2, hs3, hs4, hs5⟩ := splitDash_inv hsd
            have s1 : r7 <:+ r6 := ⟨("**".toList), he6.symm⟩
            have s2 : r6 <:+ r5 := by
              rw [he5]; exact ⟨url0 ++ [')'], by simp⟩
            have s3 : r5 <:+ r3 := by
              rw [he3]; exact ⟨nm0 ++ [']', '('], by simp⟩
            have hsf : desc0 <:+ r3 := hs4.trans (s1.trans (s2.trans s3))
            exact ⟨hn1, hn2, hu1, hu2, hs1, hs2, hs3, hsf, hs5⟩
          · cases h
        · cases h
      · cases h
    · cases h
  · cases h

theorem desc_conds {t desc : List Char}
    (hlast : ∀ x, t.getLast? = some x → pyWs x = false)
    (hsf : desc <:+ t) (hne : desc ≠ [])
    (hh : pyWs (desc.headD ' ') = false ∨
      desc.getLast? = some (desc.headD ' ')) :
    pyWs (desc.headD ' ') = false ∧
    (∀ x, desc.getLast? = some x → pyWs x = false) := by
  have hgl := suffix_getLast? hsf hne
  constructor
  · rcases hh with hh | hh
    · exact hh
    · exact hlast _ (by rw [hgl]; exact hh)
  · intro x hx
    exact hlast x (by rw [hgl]; exact hx)

/-! ## Entry pattern computation and inversion -/

theorem parseIconEntry_front {inner nm url r7 attr desc : List Char}
    (hinner : ∀ c ∈ inner, c ≠ '>')
    (hnm1 : nm ≠ []) (hnm2 : ∀ c ∈ nm, c ≠ ']')
    (hurl1 : url ≠ []) (hurl2 : ∀ c ∈ url, c ≠ ')')
    (hsd : splitDashParts r7 = some (attr, desc)) :
    parseIconEntry ('-' :: ' ' :: '<' :: 'i' :: 'm' :: 'g' ::
        (inner ++ '>' :: (' ' :: '*' :: '*' :: '[' ::
          (nm ++ ']' :: ('(' :: (url ++ ')' :: ('*' :: '*' :: r7))))))) =
      some (("<img".toList) ++ inner ++ ['>'], nm, url, attr, desc) := by
  simp only [parseIconEntry, lstrip_dash, lstrip_sp, lstrip_lt, lstrip_star,
    pyWs_sp, parseLit_img, parseLit_bb_open, takeUntil0_comp hinner,
    parseLinkTail_build hnm1 hnm2 hurl1 hurl2 hsd, Option.map_some']
  simp [List.append_assoc]

theorem parseNoIconEntry_front {nm url r7 attr desc : List Char}
    (hnm1 : nm ≠ []) (hnm2 : ∀ c ∈ nm, c ≠ ']')
    (hurl1 : url ≠ []) (hurl2 : ∀ c ∈ url, c ≠ ')')
    (hsd : splitDashParts r7 = some (attr, desc)) :
    parseNoIconEntry ('-' :: ' ' :: '*' :: '*' :: '[' ::
        (nm ++ ']' :: ('(' :: (url ++ ')' :: ('*' :: '*' :: r7))))) =
      some (nm, url, attr, desc) := by
  simp only [parseNoIconEntry, lstrip_dash, lstrip_sp, lstrip_star, pyWs_sp,
    parseLit_bb_open, parseLinkTail_build hnm1 hnm2 hurl1 hurl2 hsd, if_true]

theorem parseIconEntry_star (l : List Char) :
    parseIconEntry ('-' :: ' ' :: '*' :: l) = none := by
  simp [parseIconEntry, lstrip_dash, lstrip_sp, lstrip_star, pyWs_sp, parseLit]

theorem parseIconEntry_inv {t img nm url attr desc : List Char}
    (h : parseIconEntry t = some (img, nm, url, attr, desc))
    (hlast : ∀ x, t.getLast? = some x → pyWs x = false) :
    (∃ inner, img = ("<img".toList) ++ inner ++ ['>'] ∧
      ∀ c ∈ inner, c ≠ '>') ∧
    nm ≠ [] ∧ (∀ c ∈ nm, c ≠ ']') ∧ url ≠ [] ∧ (∀ c ∈ url, c ≠ ')') ∧
    pyStrip attr = attr ∧ (∀ c ∈ attr, c ≠ '-') ∧ desc ≠ [] ∧
    pyWs (desc.headD ' ') = false ∧
    (∀ x, desc.getLast? = some x → pyWs x = false) := by
  unfold parseIconEntry at h
  split at h
  · rename_i t2 heq1
    split at h
    · rename_i c t2tl
      split at h
      · rename_i hc
        split at h
        · rename_i r heq2
          split at h
          · rename_i inner r2 heq3
            split at h
            · rename_i c2 r2tl
              split at h
              · rename_i hc2
                split at h
                · rename_i r3 heq4
                  cases hpl : parseLinkTail r3 with
                  | none => rw [hpl] at h; cases h
                  | some q =>
                    rw [hpl] at h
                    obtain ⟨qn, qu, qa, qd⟩ := q
                    simp only [Option.map_some', Option.some.injEq,
                      Prod.mk.injEq] at h
                    obtain ⟨h0, h1, h2, h3, h4⟩ := h
                    subst h1; subst h2; subst h3; subst h4
                    obtain ⟨hi1, hi2⟩ := takeUntil0_inv heq3
                    obtain ⟨hn1, hn2, hu1, hu2, ha1, ha2, hd1, hdsf, hdh⟩ :=
                      parseLinkTail_inv hpl
                    have s1 : r3 <:+ lstrip (c2 :: r2tl) :=
                      ⟨("**[".toList), (parseLit_inv heq4).symm⟩
                    have s2 : lstrip (c2 :: r2tl) <:+ (c2 :: r2tl) :=
                      List.dropWhile_suffix pyWs
                    have s3 : (c2 :: r2tl) <:+ r := by
                      rw [hi2]
                      exact ⟨inner ++ ['>'], by simp⟩
                    have s4 : r <:+ lstrip (c :: t2tl) :=
                      ⟨("<img".toList), (parseLit_inv heq2).symm⟩
                    have s5 : lstrip (c :: t2tl) <:+ (c :: t2tl) :=
                      List.dropWhile_suffix pyWs
                    have s6 : (c :: t2tl) <:+ t := by
                      have h1 : (c :: t2tl) <:+ lstrip t := by
                        rw [heq1]
                        exact List.suffix_cons '-' _
                      exact h1.trans (List.dropWhile_suffix pyWs)
                    have hsf : qd <:+ t :=
                      hdsf.trans (s1.trans (s2.trans (s3.trans
                        (s4.trans (s5.trans s6)))))
                    obtain ⟨hdh2, hdl2⟩ := desc_conds hlast hsf hd1 hdh
                    exact ⟨⟨inner, h0.symm, hi1⟩, hn1, hn2, hu1, hu2, ha1,
                      ha2, hd1, hdh2, hdl2⟩
                · cases h
              · cases h
            · cases h
          · cases h
        · cases h
      · cases h
    · cases h
  · cases h

theorem parseNoIconEntry_inv {t nm url attr desc : List Char}
    (h : parseNoIconEntry t = some (nm, url, attr, desc))
    (hlast : ∀ x, t.getLast? = some x → pyWs x = false) :
    nm ≠ [] ∧ (∀ c ∈ nm, c ≠ ']') ∧ url ≠ [] ∧ (∀ c ∈ url, c ≠ ')') ∧
    pyStrip attr = attr ∧ (∀ c ∈ attr, c ≠ '-') ∧ desc ≠ [] ∧
    pyWs (desc.headD ' ') = false ∧
    (∀ x, desc.getLast? = some x → pyWs x = false) := by
  unfold parseNoIconEntry at h
  split at h
  · rename_i t2 heq1
    split at h
    · rename_i c t2tl
      split at h
      · rename_i hc
        split at h
        · rename_i r3 heq4
          obtain ⟨hn1, hn2, hu1, hu2, ha1, ha2, hd1, hdsf, hdh⟩ :=
            parseLinkTail_inv h
          have s1 : r3 <:+ lstrip (c :: t2tl) :=
            ⟨("**[".toList), (parseLit_inv heq4).symm⟩
          have s2 : lstrip (c :: t2tl) <:+ (c :: t2tl) :=
            List.dropWhile_suffix pyWs
          have s3 : (c :: t2tl) <:+ t := by
            have h1 : (c :: t2tl) <:+ lstrip t := by
              rw [heq1]
              exact List.suffix_cons '-' _
            exact h1.trans (List.dropWhile_suffix pyWs)
          have hsf : desc <:+ t := hdsf.trans (s1.trans (s2.trans s3))
          obtain ⟨hdh2, hdl2⟩ := desc_conds hlast hsf hd1 hdh
          exact ⟨hn1, hn2, hu1, hu2, ha1, ha2, hd1, hdh2, hdl2⟩
        · cases h
      · cases h
    · cases h
  · cases h

/-! ## Character classes and lowercasing -/

theorem pyLowerChar_idem (c : Char) :
    pyLowerChar (pyLowerChar c) = pyLowerChar c := by
  conv in pyLowerChar c => rw [pyLowerChar.eq_def]
  split <;> rfl

theorem isWordChar_pyLowerChar {c : Char} (h : isWordChar c = true) :
    isWordChar (pyLowerChar c) = true := by
  rw [pyLowerChar.eq_def]
  split <;> first | decide | exact h

theorem pyLower_idem (l : List Char) : pyLower (pyLower l) = pyLower l := by
  unfold pyLower
  rw [List.map_map]
  apply List.map_congr_left
  intro x _
  exact pyLowerChar_idem x

theorem goodKey_pyLower {w : List Char} (h1 : w ≠ [])
    (h2 : ∀ c ∈ w, isWordChar c = true) : goodKey (pyLower w) := by
  refine ⟨by simp [pyLower, h1], ?_, pyLower_idem w⟩
  intro c hc
  rw [pyLower, List.mem_map] at hc
  obtain ⟨c0, hc0, hce⟩ := hc
  rw [← hce]
  exact isWordChar_pyLowerChar (h2 c0 hc0)

theorem wordChar_not_quote {c : Char} (h : isWordChar c = true) :
    isQuoteChar c = false := by
  cases hq : isQuoteChar c
  · rfl
  · exfalso
    have h2 : c = '"' ∨ c = squoteChar := by simpa [isQuoteChar] using hq
    rcases h2 with h2 | h2 <;> subst h2 <;> exact absurd h (by decide)

theorem wordChar_ne_gt {c : Char} (h : isWordChar c = true) : c ≠ '>' := by
  intro he
  subst he
  exact absurd h (by decide)

theorem wordChar_ne_sp {c : Char} (h : isWordChar c = true) : c ≠ ' ' := by
  intro he
  subst he
  exact absurd h (by decide)

/-! ## Association-list (Python dict) lemmas -/

theorem dictInsert_mem {d : List (List Char × List Char)} {k v : List Char}
    {x : List Char × List Char} (h : x ∈ dictInsert k v d) :
    x ∈ d ∨ x = (k, v) := by
  induction d with
  | nil => simpa [dictInsert] using h
  | cons kv0 rest ih =>
    obtain ⟨k0, v0⟩ := kv0
    rw [dictInsert] at h
    by_cases hk : k0 = k
    · rw [if_pos hk] at h
      rcases List.mem_cons.mp h with h | h
      · right; rw [h, hk]
      · left; exact List.mem_cons_of_mem _ h
    · rw [if_neg hk] at h
      rcases List.mem_cons.mp h with h | h
      · left; rw [h]; exact List.mem_cons_self _ _
      · rcases ih h with h | h
        · left; exact List.mem_cons_of_mem _ h
        · right; exact h

theorem dictInsert_keys_of_mem {d : List (List Char × List Char)}
    {k : List Char} (v : List Char) (h : k ∈ d.map Prod.fst) :
    (dictInsert k v d).map Prod.fst = d.map Prod.fst := by
  induction d with
  | nil => cases h
  | cons kv0 rest ih =>
    obtain ⟨k0, v0⟩ := kv0
    rw [dictInsert]
    by_cases hk : k0 = k
    · rw [if_pos hk]; simp
    · rw [if_neg hk]
      simp only [List.map_cons]
      have hmem : k ∈ rest.map Prod.fst := by
        rw [List.map_cons] at h
        rcases List.mem_cons.mp h with h1 | h1
        · exact absurd h1.symm hk
        · exact h1
      rw [ih hmem]

theorem dictInsert_of_not_mem {d : List (List Char × List Char)}
    {k : List Char} (v : List Char) (h : k ∉ d.map Prod.fst) :
    dictInsert k v d = d ++ [(k, v)] := by
  induction d with
  | nil => rfl
  | cons kv0 rest ih =>
    obtain ⟨k0, v0⟩ := kv0
    rw [dictInsert]
    have hk : ¬(k0 = k) := by
      intro he
      exact h (by simp [← he])
    rw [if_neg hk, ih (fun hm => h (by simp [hm]))]
    simp

theorem lookupA_dictInsert_self (k v : List Char)
    (d : List (List Char × List Char)) :
    lookupA k (dictInsert k v d) = some v := by
  induction d with
  | nil => simp [dictInsert, lookupA]
  | cons kv0 rest ih =>
    obtain ⟨k0, v0⟩ := kv0
    rw [dictInsert]
    by_cases hk : k0 = k
    · rw [if_pos hk, lookupA, if_pos hk]
    · rw [if_neg hk, lookupA, if_neg hk]
      exact ih

theorem lookupA_mem {k v : List Char} {d : List (List Char × List Char)}
    (h : lookupA k d = some v) : (k, v) ∈ d := by
  induction d with
  | nil => cases h
  | cons kv0 rest ih =>
    obtain ⟨k0, v0⟩ := kv0
    rw [lookupA] at h
    by_cases hk : k0 = k
    · rw [if_pos hk] at h
      injection h with h
      rw [← hk, ← h]
      exact List.mem_cons_self _ _
    · rw [if_neg hk] at h
      exact List.mem_cons_of_mem _ (ih h)

theorem lookupA_none_iff {k : List Char} {d : List (List Char × List Char)} :
    lookupA k d = none ↔ k ∉ d.map Prod.fst := by
  induction d with
  | nil => simp [lookupA]
  | cons kv0 rest ih =>
    obtain ⟨k0, v0⟩ := kv0
    rw [lookupA]
    by_cases hk : k0 = k
    · rw [if_pos hk]
      simp only [List.map_cons, List.mem_cons]
      constructor
      · intro h; cases h
      · intro h
        exact absurd (Or.inl hk.symm) h
    · rw [if_neg hk]
      rw [ih]
      simp only [List.map_cons, List.mem_cons]
      constructor
      · intro h1 h2
        rcases h2 with h2 | h2
        · exact hk h2.symm
        · exact h1 h2
      · intro h1 h2
        exact h1 (Or.inr h2)

theorem dictInsert_good {d : List (List Char × List Char)} {k v : List Char}
    (hd : GoodDict d) (hk : goodKey k) (hv : goodVal v) :
    GoodDict (dictInsert k v d) := by
  constructor
  · by_cases hmem : k ∈ d.map Prod.fst
    · rw [dictInsert_keys_of_mem v hmem]
      exact hd.1
    · rw [dictInsert_of_not_mem v hmem]
      rw [List.map_append]
      refine List.Nodup.append hd.1 (by simp) ?_
      intro a ha hb
      simp only [List.map_cons, List.map_nil, List.mem_singleton] at hb
      rw [hb] at ha
      exact hmem ha
  · intro kv hkv
    rcases dictInsert_mem hkv with h | h
    · exact hd.2 kv h
    · rw [h]
      exact ⟨hk, hv⟩

theorem foldl_dict_good_go :
    ∀ (ps acc : List (List Char × List Char)),
      (∀ kv ∈ ps, kv.1 ≠ [] ∧ (∀ c ∈ kv.1, isWordChar c = true) ∧
        goodVal kv.2) →
      GoodDict acc →
      GoodDict (ps.foldl (fun d kv => dictInsert (pyLower kv.1) kv.2 d) acc)
  | [], _, _, hacc => hacc
  | kv :: rest, acc, hp, hacc => by
    simp only [List.foldl_cons]
    have hh := hp kv (List.mem_cons_self _ _)
    exact foldl_dict_good_go rest _
      (fun x hx => hp x (List.mem_cons_of_mem _ hx))
      (dictInsert_good hacc (goodKey_pyLower hh.1 hh.2.1) hh.2.2)

theorem foldl_dict_good {ps : List (List Char × List Char)}
    (hp : ∀ kv ∈ ps, kv.1 ≠ [] ∧ (∀ c ∈ kv.1, isWordChar c = true) ∧
      goodVal kv.2) :
    GoodDict (ps.foldl (fun d kv => dictInsert (pyLower kv.1) kv.2 d) []) :=
  foldl_dict_good_go ps [] hp ⟨by simp, by simp⟩

theorem foldl_dictInsert_go :
    ∀ (ps acc : List (List Char × List Char)),
      (ps.map Prod.fst).Nodup → (∀ kv ∈ ps, pyLower kv.1 = kv.1) →
      (∀ kv ∈ ps, kv.1 ∉ acc.map Prod.fst) →
      ps.foldl (fun d kv => dictInsert (pyLower kv.1) kv.2 d) acc = acc ++ ps
  | [], acc, _, _, _ => by simp
  | kv :: rest, acc, hnd, hlow, hdisj => by
    simp only [List.foldl_cons]
    rw [hlow kv (List.mem_cons_self _ _),
      dictInsert_of_not_mem kv.2 (hdisj kv (List.mem_cons_self _ _))]
    rw [List.map_cons] at hnd
    have hnd2 : (rest.map Prod.fst).Nodup := (List.nodup_cons.mp hnd).2
    have hhd : kv.1 ∉ rest.map Prod.fst := (List.nodup_cons.mp hnd).1
    rw [foldl_dictInsert_go rest (acc ++ [(kv.1, kv.2)]) hnd2
      (fun x hx => hlow x (List.mem_cons_of_mem _ hx)) ?_]
    · simp
    · intro x hx
      rw [List.map_append]
      intro hmem
      rcases List.mem_append.mp hmem with h | h
      · exact hdisj x (List.mem_cons_of_mem _ hx) h
      · simp only [List.map_cons, List.map_nil, List.mem_singleton] at h
        apply hhd
        rw [← h]
        exact List.mem_map_of_mem Prod.fst hx

/-! ## Attribute scanning: `tryAttrAt` and `findAttrs` -/

theorem tryAttrAt_inv {l w v rest2 : List Char}
    (h : tryAttrAt l = some ((w, v), rest2)) :
    w ≠ [] ∧ (∀ c ∈ w, isWordChar c = true) ∧
    (∀ c ∈ v, isQuoteChar c = false) ∧ (∀ c ∈ v, c ∈ l) ∧
    rest2.length < l.length ∧ (∀ c ∈ rest2, c ∈ l) := by
  simp only [tryAttrAt, drop_length_takeWhile] at h
  split at h
  · cases h
  · rename_i hw
    split at h
    · rename_i q rest heqd
      split at h
      · rename_i hq
        split at h
        · rename_i q2 rest2a heqd2
          split at h
          · rename_i hq2
            simp only [Option.some.injEq, Prod.mk.injEq] at h
            obtain ⟨⟨hw2, hv2⟩, hr2⟩ := h
            subst hr2
            have hl1 := takeWhile_dropWhile_eq heqd
            have hl2 := takeWhile_dropWhile_eq heqd2
            refine ⟨by rw [← hw2]; exact hw, ?_, ?_, ?_, ?_, ?_⟩
            · intro c hc
              rw [← hw2] at hc
              exact List.mem_takeWhile_imp hc
            · intro c hc
              rw [← hv2] at hc
              have := List.mem_takeWhile_imp hc
              simpa using this
            · intro c hc
              rw [← hv2] at hc
              have hcr : c ∈ rest := (List.takeWhile_sublist _).subset hc
              rw [hl1]
              simp [hcr]
            · rw [hl1, hl2]
              simp only [List.length_append, List.length_cons]
              omega
            · intro c hc
              rw [hl1, hl2]
              simp [hc]
          · cases h
        · cases h
      · cases h
    · cases h

theorem findAttrsF_irrel :
    ∀ (n m : Nat) (l : List Char), l.length ≤ n → l.length ≤ m →
      findAttrsF n l = findAttrsF m l
  | 0, m, l, hn, _ => by
    have : l = [] := by
      cases l with
      | nil => rfl
      | cons c cs => simp at hn
    subst this
    cases m <;> rfl
  | n + 1, m, l, hn, hm => by
    cases l with
    | nil => cases m <;> rfl
    | cons c rest =>
      cases m with
      | zero => simp at hm
      | succ m2 =>
        simp only [findAttrsF]
        cases htry : tryAttrAt (c :: rest) with
        | none =>
          have hlen : rest.length ≤ n := by
            simp only [List.length_cons] at hn; omega
          have hlen2 : rest.length ≤ m2 := by
            simp only [List.length_cons] at hm; omega
          exact findAttrsF_irrel n m2 rest hlen hlen2
        | some p =>
          obtain ⟨⟨w, v⟩, rest2⟩ := p
          have hlt := (tryAttrAt_inv htry).2.2.2.2.1
          simp only [List.length_cons] at hn hm hlt
          show (w, v) :: findAttrsF n rest2 = (w, v) :: findAttrsF m2 rest2
          rw [findAttrsF_irrel n m2 rest2 (by omega) (by omega)]

theorem findAttrs_skip {c : Char} {rest : List Char}
    (h : tryAttrAt (c :: rest) = none) :
    findAttrs (c :: rest) = findAttrs rest := by
  unfold findAttrs
  rw [List.length_cons]
  simp only [findAttrsF, h]

theorem findAttrs_cons {l : List Char} {kv : List Char × List Char}
    {rest2 : List Char} (h : tryAttrAt l = some (kv, rest2)) :
    findAttrs l = kv :: findAttrs rest2 := by
  unfold findAttrs
  cases l with
  | nil =>
    exact absurd h (by simp [tryAttrAt])
  | cons c rest =>
    rw [List.length_cons]
    simp only [findAttrsF, h]
    have hlt := (tryAttrAt_inv h).2.2.2.2.1
    simp only [List.length_cons] at hlt
    rw [findAttrsF_irrel rest.length rest2.length rest2 (by omega)
      (le_refl _)]

theorem findAttrsF_props :
    ∀ (n : Nat) (l : List Char), ∀ kv ∈ findAttrsF n l,
      kv.1 ≠ [] ∧ (∀ c ∈ kv.1, isWordChar c = true) ∧
      (∀ c ∈ kv.2, isQuoteChar c = false ∧ c ∈ l)
  | 0, _, _, hkv => by cases hkv
  | n + 1, [], _, hkv => by cases hkv
  | n + 1, c :: rest, kv, hkv => by
    simp only [findAttrsF] at hkv
    cases htry : tryAttrAt (c :: rest) with
    | none =>
      rw [htry] at hkv
      have h := findAttrsF_props n rest kv hkv
      exact ⟨h.1, h.2.1, fun x hx =>
        ⟨(h.2.2 x hx).1, List.mem_cons_of_mem _ (h.2.2 x hx).2⟩⟩
    | some p =>
      rw [htry] at hkv
      obtain ⟨⟨w, v⟩, rest2⟩ := p
      rcases List.mem_cons.mp hkv with hkv | hkv
      · subst hkv
        have hi := tryAttrAt_inv htry
        exact ⟨hi.1, hi.2.1, fun x hx =>
          ⟨hi.2.2.1 x hx, hi.2.2.2.1 x hx⟩⟩
      · have h := findAttrsF_props n rest2 kv hkv
        have hsub := (tryAttrAt_inv htry).2.2.2.2.2
        exact ⟨h.1, h.2.1, fun x hx =>
          ⟨(h.2.2 x hx).1, hsub x (h.2.2 x hx).2⟩⟩

/-! ## Joining and substring helpers -/

theorem intercalate_eq_joinSpace :
    ∀ xs : List (List Char), List.intercalate [' '] xs = joinSpace xs
  | [] => by simp [List.intercalate, joinSpace]
  | [x] => by simp [List.intercalate, joinSpace]
  | x :: y :: rest => by
    have ih := intercalate_eq_joinSpace (y :: rest)
    simp only [List.intercalate] at ih ⊢
    rw [List.intersperse_cons_cons]
    simp [List.flatten_cons, ih, joinSpace]

theorem mem_joinSpace :
    ∀ {c : Char} {parts : List (List Char)}, c ∈ joinSpace parts →
      c = ' ' ∨ ∃ p ∈ parts, c ∈ p
  | _, [], h => by cases h
  | _, [x], h => Or.inr ⟨x, by simp, by simpa [joinSpace] using h⟩
  | c, x :: y :: rest, h => by
    simp only [joinSpace] at h
    rcases List.mem_append.mp h with h | h
    · exact Or.inr ⟨x, List.mem_cons_self _ _, h⟩
    · rcases List.mem_cons.mp h with h | h
      · exact Or.inl h
      · rcases mem_joinSpace h with h | ⟨p, hp, hcp⟩
        · exact Or.inl h
        · exact Or.inr ⟨p, List.mem_cons_of_mem _ hp, hcp⟩

theorem joinSpace_decomp :
    ∀ {p : List Char} {parts : List (List Char)}, p ∈ parts →
      ∃ u v, joinSpace parts = u ++ p ++ v
  | _, [], h => by cases h
  | p, [x], h => by
    have hx : p = x := by simpa using h
    exact ⟨[], [], by simp [joinSpace, hx]⟩
  | p, x :: y :: rest, h => by
    rcases List.mem_cons.mp h with h | h
    · exact ⟨[], ' ' :: joinSpace (y :: rest), by simp [joinSpace, h]⟩
    · obtain ⟨u, v, huv⟩ := joinSpace_decomp h
      exact ⟨x ++ ' ' :: u, v,
        by simp [joinSpace, huv, List.append_assoc]⟩

theorem startsWithL_self_append :
    ∀ (xs v : List Char), startsWithL (xs ++ v) xs = true
  | [], v => by cases v <;> rfl
  | c :: cs, v => by simp [startsWithL, startsWithL_self_append cs v]

theorem containsSub_nil_pat : ∀ l : List Char, containsSub [] l = true
  | [] => rfl
  | c :: r => by simp [containsSub, startsWithL]

theorem containsSub_mid :
    ∀ (pat u v : List Char), containsSub pat (u ++ (pat ++ v)) = true
  | pat, [], v => by
    cases pat with
    | nil => simpa using containsSub_nil_pat v
    | cons p ps =>
      have h1 : startsWithL (p :: (ps ++ v)) (p :: ps) = true :=
        startsWithL_self_append (p :: ps) v
      simp [containsSub, h1]
  | pat, c :: u, v => by
    have hrec := containsSub_mid pat u v
    simp [containsSub, hrec]

/-! ## The img tag: parse, reconstruct, locate, repair -/

theorem tag_shape (inner : List Char) :
    ("<img".toList) ++ inner ++ ['>'] =
      '<' :: 'i' :: 'm' :: 'g' :: (inner ++ ['>']) := by
  simp [lit_img, List.append_assoc]

theorem parseImgTag_shape (inner : List Char) :
    parseImgTag (("<img".toList) ++ inner ++ ['>']) =
      (findAttrs inner).foldl
        (fun d kv => dictInsert (pyLower kv.1) kv.2 d) [] := by
  have hps : pyStrip (("<img".toList) ++ inner ++ ['>']) =
      ("<img".toList) ++ inner ++ ['>'] :=
    pyStrip_eq_self (x := '<') (y := '>') (by rw [tag_shape]; rfl) (by decide)
      (List.getLast?_concat _) (by decide)
  have hsw : startsWithL (("<img".toList) ++ inner ++ ['>'])
      ("<img".toList) = true := by
    rw [tag_shape]
    simp [startsWithL, lit_img]
  have hdrop : (("<img".toList) ++ inner ++ ['>']).drop 4 = inner ++ ['>'] := by
    rw [tag_shape]
    rfl
  simp only [parseImgTag, hps, hdrop]
  rw [if_pos hsw, if_pos (List.getLast?_concat _), List.dropLast_concat]

theorem parseImgTag_good {inner : List Char} (hinner : ∀ c ∈ inner, c ≠ '>') :
    GoodDict (parseImgTag (("<img".toList) ++ inner ++ ['>'])) := by
  rw [parseImgTag_shape]
  apply foldl_dict_good
  intro kv hkv
  have h := findAttrsF_props inner.length inner kv hkv
  exact ⟨h.1, h.2.1, fun c hc =>
    ⟨(h.2.2 c hc).1, hinner c (h.2.2 c hc).2⟩⟩

theorem renderAttr_append (k v rest : List Char) :
    renderAttr (k, v) ++ rest = k ++ '=' :: '"' :: (v ++ '"' :: rest) := by
  simp [renderAttr, List.append_assoc, show ("=".toList) = ['='] from rfl]

theorem tryAttrAt_render {k v : List Char} (rest : List Char) (hk1 : k ≠ [])
    (hk2 : ∀ c ∈ k, isWordChar c = true)
    (hv : ∀ c ∈ v, isQuoteChar c = false) :
    tryAttrAt (k ++ '=' :: '"' :: (v ++ '"' :: rest)) = some ((k, v), rest) := by
  have hweq : isWordChar '=' = false := by decide
  have htw : (k ++ '=' :: '"' :: (v ++ '"' :: rest)).takeWhile isWordChar
      = k := by
    rw [takeWhile_append_of_all hk2]
    simp [List.takeWhile_cons, hweq]
  have hdw : (k ++ '=' :: '"' :: (v ++ '"' :: rest)).dropWhile isWordChar
      = '=' :: '"' :: (v ++ '"' :: rest) := dropWhile_stop_comp hk2 hweq
  have htw2 : (v ++ '"' :: rest).takeWhile (fun c => !isQuoteChar c) = v :=
    takeWhile_stop_comp (fun c hc => by simp [hv c hc]) (by decide)
  have hdw2 : (v ++ '"' :: rest).dropWhile (fun c => !isQuoteChar c) =
      '"' :: rest :=
    dropWhile_stop_comp (fun c hc => by simp [hv c hc]) (by decide)
  simp only [tryAttrAt, drop_length_takeWhile, htw, htw2, List.drop_left]
  rw [if_neg hk1, if_pos (by decide : isQuoteChar '"' = true)]
  simp

theorem findAttrs_render :
    ∀ ps : List (List Char × List Char),
      (∀ kv ∈ ps, kv.1 ≠ [] ∧ (∀ c ∈ kv.1, isWordChar c = true) ∧
        (∀ c ∈ kv.2, isQuoteChar c = false)) →
      findAttrs (joinSpace (ps.map renderAttr)) = ps
  | [], _ => rfl
  | [kv], hp => by
    obtain ⟨k, v⟩ := kv
    have hh := hp (k, v) (List.mem_cons_self _ _)
    have ht : tryAttrAt (renderAttr (k, v)) = some ((k, v), []) := by
      have := tryAttrAt_render [] hh.1 hh.2.1 hh.2.2
      rw [← renderAttr_append] at this
      simpa using this
    simp only [List.map_cons, List.map_nil, joinSpace]
    rw [findAttrs_cons ht]
    rfl
  | kv :: kv2 :: rest, hp => by
    obtain ⟨k, v⟩ := kv
    have hh := hp (k, v) (List.mem_cons_self _ _)
    have ih := findAttrs_render (kv2 :: rest)
      (fun x hx => hp x (List.mem_cons_of_mem _ hx))
    have ht : tryAttrAt (renderAttr (k, v) ++
        ' ' :: joinSpace ((kv2 :: rest).map renderAttr)) =
        some ((k, v), ' ' :: joinSpace ((kv2 :: rest).map renderAttr)) := by
      rw [renderAttr_append]
      exact tryAttrAt_render _ hh.1 hh.2.1 hh.2.2
    have hskip : tryAttrAt (' ' :: joinSpace ((kv2 :: rest).map renderAttr)) =
        none := by
      simp [tryAttrAt, List.takeWhile_cons,
        show isWordChar ' ' = false from by decide]
    calc findAttrs (joinSpace (((k, v) :: kv2 :: rest).map renderAttr))
        = findAttrs (renderAttr (k, v) ++
            ' ' :: joinSpace ((kv2 :: rest).map renderAttr)) := rfl
      _ = (k, v) :: findAttrs
            (' ' :: joinSpace ((kv2 :: rest).map renderAttr)) :=
          findAttrs_cons ht
      _ = (k, v) :: findAttrs (joinSpace ((kv2 :: rest).map renderAttr)) := by
          rw [findAttrs_skip hskip]
      _ = (k, v) :: (kv2 :: rest) := by rw [ih]

/-! ## The preferred attribute order -/

theorem map_fst_filterMap_lookup (d : List (List Char × List Char)) :
    ∀ ns : List (List Char),
      ((ns.filterMap fun a => (lookupA a d).map fun v => (a, v)).map
        Prod.fst) = ns.filter fun a => (lookupA a d).isSome := by
  intro ns
  induction ns with
  | nil => rfl
  | cons a ns ih =>
    rw [List.filterMap_cons, List.filter_cons]
    cases hla : lookupA a d with
    | none => simp [hla, ih]
    | some v => simp [hla, ih]

theorem orderAttrs_mem {d : List (List Char × List Char)}
    {x : List Char × List Char} (h : x ∈ orderAttrs d) : x ∈ d := by
  unfold orderAttrs at h
  rcases List.mem_append.mp h with h | h
  · obtain ⟨a, ha, hx⟩ := List.mem_filterMap.mp h
    cases hla : lookupA a d with
    | none => rw [hla] at hx; cases hx
    | some v =>
      rw [hla] at hx
      simp only [Option.map_some', Option.some.injEq] at hx
      rw [← hx]
      exact lookupA_mem hla
  · exact (List.mem_filter.mp h).1

theorem orderAttrs_keys_nodup {d : List (List Char × List Char)}
    (hd : (d.map Prod.fst).Nodup) :
    ((orderAttrs d).map Prod.fst).Nodup := by
  unfold orderAttrs
  rw [List.map_append, map_fst_filterMap_lookup]
  refine List.Nodup.append (List.Nodup.filter _ (by decide))
    (((List.filter_sublist d).map Prod.fst).nodup hd) ?_
  intro a ha hb
  have ha2 : a ∈ orderedAttrNames := (List.mem_filter.mp ha).1
  obtain ⟨kv, hkv, hfst⟩ := List.mem_map.mp hb
  have hnot := (List.mem_filter.mp hkv).2
  rw [hfst] at hnot
  simp at hnot
  exact hnot ha2

theorem orderAttrs_good {d : List (List Char × List Char)}
    (hd : GoodDict d) : GoodDict (orderAttrs d) :=
  ⟨orderAttrs_keys_nodup hd.1, fun kv hkv => hd.2 kv (orderAttrs_mem hkv)⟩

theorem lookupA_orderAttrs_alt {d : List (List Char × List Char)}
    {v : List Char} (hv : lookupA ("alt".toList) d = some v) :
    lookupA ("alt".toList) (orderAttrs d) = some v := by
  unfold orderAttrs orderedAttrNames
  rw [List.filterMap_cons, List.filterMap_cons]
  cases hsrc : lookupA ("src".toList) d with
  | none =>
    simp only [hsrc, Option.map_none', hv, Option.map_some']
    rw [List.cons_append, lookupA, if_pos rfl]
  | some vs =>
    simp only [hsrc, Option.map_some', hv]
    rw [List.cons_append, List.cons_append, lookupA,
      if_neg (by decide), lookupA, if_pos rfl]

theorem orderAttrs_preferred (d : List (List Char × List Char)) :
    PreferredOrder ((orderAttrs d).map Prod.fst) := by
  unfold PreferredOrder
  set ks := (orderAttrs d).map Prod.fst with hks
  have hsplit : ks =
      (orderedAttrNames.filter fun a => (lookupA a d).isSome) ++
      ((d.filter fun kv =>
        !(decide (kv.1 ∈ orderedAttrNames))).map Prod.fst) := by
    rw [hks]
    unfold orderAttrs
    rw [List.map_append, map_fst_filterMap_lookup]
  have hp1 : (orderedAttrNames.filter fun a => decide (a ∈ ks)) =
      (orderedAttrNames.filter fun a => (lookupA a d).isSome) := by
    apply List.filter_congr
    intro a ha
    have hiff : a ∈ ks ↔ (lookupA a d).isSome = true := by
      rw [hsplit]
      constructor
      · intro hm
        rcases List.mem_append.mp hm with hm | hm
        · exact (List.mem_filter.mp hm).2
        · exfalso
          obtain ⟨kv, hkv, hfst⟩ := List.mem_map.mp hm
          have hnot := (List.mem_filter.mp hkv).2
          rw [hfst] at hnot
          simp at hnot
          exact hnot ha
      · intro hs
        exact List.mem_append_left _ (List.mem_filter.mpr ⟨ha, hs⟩)
    cases hcase : (lookupA a d).isSome
    · simp [hiff, hcase]
    · simp [hiff, hcase]
  have hp2 : (ks.filter fun a => !decide (a ∈ orderedAttrNames)) =
      ((d.filter fun kv =>
        !(decide (kv.1 ∈ orderedAttrNames))).map Prod.fst) := by
    rw [hsplit, List.filter_append]
    have hx : ((orderedAttrNames.filter fun a =>
        (lookupA a d).isSome).filter fun a =>
          !decide (a ∈ orderedAttrNames)) = [] := by
      rw [List.filter_eq_nil_iff]
      intro a ha
      have h1 : a ∈ orderedAttrNames := (List.mem_filter.mp ha).1
      simp [h1]
    have hy : (((d.filter fun kv =>
        !(decide (kv.1 ∈ orderedAttrNames))).map Prod.fst).filter fun a =>
          !decide (a ∈ orderedAttrNames)) =
        ((d.filter fun kv =>
          !(decide (kv.1 ∈ orderedAttrNames))).map Prod.fst) := by
      rw [List.filter_eq_self]
      intro a ha
      obtain ⟨kv, hkv, hfst⟩ := List.mem_map.mp ha
      have hnot := (List.mem_filter.mp hkv).2
      rw [hfst] at hnot
      exact hnot
    rw [hx, hy, List.nil_append]
  rw [hp1, hp2, ← hsplit]

/-! ## Reconstruction and its round trip -/

theorem reconstructImgTag_shape (d : List (List Char × List Char)) :
    reconstructImgTag d = ("<img".toList) ++
      (' ' :: joinSpace ((orderAttrs d).map renderAttr)) ++ ['>'] := by
  unfold reconstructImgTag
  rw [intercalate_eq_joinSpace]
  simp [List.append_assoc, show ("<img ".toList) = ['<','i','m','g',' ']
    from rfl, lit_img]

theorem reconstruct_inner_clean {d : List (List Char × List Char)}
    (hd : GoodDict d) :
    ∀ c ∈ (' ' :: joinSpace ((orderAttrs d).map renderAttr)), c ≠ '>' := by
  intro c hc
  rcases List.mem_cons.mp hc with hc | hc
  · subst hc; decide
  · rcases mem_joinSpace hc with hc | ⟨p, hp, hcp⟩
    · subst hc; decide
    · obtain ⟨kv, hkv, hren⟩ := List.mem_map.mp hp
      obtain ⟨hgk, hgv⟩ := (orderAttrs_good hd).2 kv hkv
      rw [← hren] at hcp
      obtain ⟨k, v⟩ := kv
      rw [show renderAttr (k, v) = renderAttr (k, v) ++ [] from by simp,
        renderAttr_append] at hcp
      rcases List.mem_append.mp hcp with hcp | hcp
      · exact wordChar_ne_gt (hgk.2.1 c hcp)
      · rcases List.mem_cons.mp hcp with hcp | hcp
        · subst hcp; decide
        · rcases List.mem_cons.mp hcp with hcp | hcp
          · subst hcp; decide
          · rcases List.mem_append.mp hcp with hcp | hcp
            · exact (hgv c hcp).2
            · rcases List.mem_cons.mp hcp with hcp | hcp
              · subst hcp; decide
              · cases hcp

theorem parseImgTag_reconstruct {d : List (List Char × List Char)}
    (hd : GoodDict d) :
    parseImgTag (reconstructImgTag d) = orderAttrs d := by
  rw [reconstructImgTag_shape, parseImgTag_shape]
  have hgood := orderAttrs_good hd
  have hskip : tryAttrAt
      (' ' :: joinSpace ((orderAttrs d).map renderAttr)) = none := by
    simp [tryAttrAt, List.takeWhile_cons,
      show isWordChar ' ' = false from by decide]
  rw [findAttrs_skip hskip, findAttrs_render (orderAttrs d)
    (fun kv hkv => ⟨(hgood.2 kv hkv).1.1, (hgood.2 kv hkv).1.2.1,
      fun c hc => ((hgood.2 kv hkv).2 c hc).1⟩)]
  exact foldl_dictInsert_go (orderAttrs d) [] hgood.1
    (fun kv hkv => (hgood.2 kv hkv).1.2.2) (fun kv _ => by simp)

/-! ## Locating and repairing the tag -/

theorem findImgTag_build {inner : List Char} (hinner : ∀ c ∈ inner, c ≠ '>') :
    findImgTag (("<img".toList) ++ inner ++ ['>']) =
      some ([], ("<img".toList) ++ inner ++ ['>'], []) := by
  have htw : (inner ++ ['>']).takeWhile (fun x => decide (x ≠ '>')) = inner :=
    takeWhile_stop_comp (fun c hc => by simpa using hinner c hc) (by simp)
  have hsw : startsWithL ('<' :: 'i' :: 'm' :: 'g' :: (inner ++ ['>']))
      ("<img".toList) = true := by
    simp [startsWithL, lit_img]
  rw [tag_shape]
  simp only [findImgTag, hsw, if_true, List.drop_succ_cons, List.drop_zero,
    htw, List.drop_left]
  rw [tag_shape]

theorem fixAux_nil (nm : List Char) : ∀ n, fixImgAuxF nm n [] = []
  | 0 => rfl
  | n + 1 => by simp [fixImgAuxF, findImgTag]

theorem fixImgAltText_single {tag : List Char} (nm : List Char)
    (hfind : findImgTag tag = some ([], tag, [])) (hne : tag ≠ []) :
    fixImgAltText tag nm = fixOneImg tag nm := by
  unfold fixImgAltText
  cases tag with
  | nil => cases hne rfl
  | cons c rest =>
    rw [List.length_cons]
    simp only [fixImgAuxF, hfind, fixAux_nil]
    simp

theorem fixOneImg_blank {tag : List Char} (nm : List Char)
    (h : pyStrip ((lookupA ("alt".toList) (parseImgTag tag)).getD []) = []) :
    fixOneImg tag nm =
      reconstructImgTag (dictInsert ("alt".toList) nm (parseImgTag tag)) := by
  simp only [fixOneImg]
  rw [if_pos h]

theorem fixOneImg_keep {tag : List Char} (nm : List Char)
    (h : ¬(pyStrip ((lookupA ("alt".toList) (parseImgTag tag)).getD [])
      = [])) :
    fixOneImg tag nm = tag := by
  simp only [fixOneImg]
  rw [if_neg h]

theorem icon_fix_idem {inner nm : List Char} (hinner : ∀ c ∈ inner, c ≠ '>')
    (hg : '>' ∉ nm) (hq : '"' ∉ nm) (hs : squoteChar ∉ nm)
    (hnb : pyStrip nm ≠ []) :
    ∃ inner1,
      fixImgAltText (("<img".toList) ++ inner ++ ['>']) nm =
        ("<img".toList) ++ inner1 ++ ['>'] ∧
      (∀ c ∈ inner1, c ≠ '>') ∧
      fixImgAltText (("<img".toList) ++ inner1 ++ ['>']) nm =
        ("<img".toList) ++ inner1 ++ ['>'] := by
  have htagne : ("<img".toList) ++ inner ++ ['>'] ≠ [] := by simp
  rw [fixImgAltText_single nm (findImgTag_build hinner) htagne]
  by_cases hblank : pyStrip ((lookupA ("alt".toList)
      (parseImgTag (("<img".toList) ++ inner ++ ['>']))).getD []) = []
  · rw [fixOneImg_blank nm hblank]
    have hgood0 : GoodDict (parseImgTag (("<img".toList) ++ inner ++ ['>'])) :=
      parseImgTag_good hinner
    have hnmval : goodVal nm := by
      intro c hc
      constructor
      · cases hqc : isQuoteChar c
        · rfl
        · exfalso
          have h2 : c = '"' ∨ c = squoteChar := by
            simpa [isQuoteChar] using hqc
          rcases h2 with h2 | h2 <;> subst h2
          · exact hq hc
          · exact hs hc
      · intro he
        subst he
        exact hg hc
    have hgoodd : GoodDict (dictInsert ("alt".toList) nm
        (parseImgTag (("<img".toList) ++ inner ++ ['>']))) :=
      dictInsert_good hgood0 ⟨by decide, by decide, by decide⟩ hnmval
    refine ⟨' ' :: joinSpace ((orderAttrs (dictInsert ("alt".toList) nm
      (parseImgTag (("<img".toList) ++ inner ++ ['>'])))).map renderAttr),
      reconstructImgTag_shape _, reconstruct_inner_clean hgoodd, ?_⟩
    have hclean := reconstruct_inner_clean hgoodd
    rw [fixImgAltText_single nm (findImgTag_build hclean) (by simp),
      ← reconstructImgTag_shape]
    have hpr := parseImgTag_reconstruct hgoodd
    have halt : lookupA ("alt".toList) (orderAttrs (dictInsert ("alt".toList)
        nm (parseImgTag (("<img".toList) ++ inner ++ ['>'])))) = some nm :=
      lookupA_orderAttrs_alt (lookupA_dictInsert_self _ _ _)
    apply fixOneImg_keep
    rw [hpr, halt]
    simpa using hnb
  · rw [fixOneImg_keep nm hblank]
    refine ⟨inner, rfl, hinner, ?_⟩
    rw [fixImgAltText_single nm (findImgTag_build hinner) htagne]
    exact fixOneImg_keep nm hblank

/-! ## Line builders: normal forms and strip stability -/

theorem rstrip_concat_ws {l : List Char} {c : Char} (hc : pyWs c = true) :
    rstrip (l ++ [c]) = rstrip l := by
  unfold rstrip
  rw [List.reverse_append, show ([c].reverse) = [c] from by simp,
    List.singleton_append, List.dropWhile_cons, if_pos hc]

theorem pyStrip_pad {attr : List Char} (h1 : pyStrip attr = attr)
    (hne : attr ≠ []) : pyStrip (' ' :: (attr ++ [' '])) = attr := by
  obtain ⟨hl, hr⟩ := strip_fix_parts h1 hne
  cases attr with
  | nil => cases hne rfl
  | cons a rest =>
    have hh : pyWs a = false := pyStrip_head_not_ws (by rw [h1]; rfl)
    unfold pyStrip
    rw [lstrip_sp]
    have hl2 : lstrip ((a :: rest) ++ [' ']) = (a :: rest) ++ [' '] := by
      rw [List.cons_append]
      exact lstrip_cons_of_not_ws _ hh
    rw [hl2, rstrip_concat_ws (by decide), hr]

theorem splitDash_tail {attr desc : List Char} (ha1 : pyStrip attr = attr)
    (ha2 : ∀ c ∈ attr, c ≠ '-') (hd1 : desc ≠ [])
    (hdh : pyWs (desc.headD ' ') = false) :
    splitDashParts
      (if attr ≠ [] then ' ' :: (attr ++ ' ' :: '-' :: ' ' :: desc)
       else ' ' :: '-' :: ' ' :: desc) = some (attr, desc) := by
  by_cases ha : attr = []
  · subst ha
    rw [if_neg (by simp)]
    have h := @splitDash_comp [' '] desc (by decide) hd1 hdh
    simpa using h
  · rw [if_pos ha]
    have hxs : ∀ c ∈ (' ' :: (attr ++ [' '])), c ≠ '-' := by
      intro c hc
      rcases List.mem_cons.mp hc with hc | hc
      · subst hc; decide
      · rcases List.mem_append.mp hc with hc | hc
        · exact ha2 c hc
        · simp at hc; subst hc; decide
    have h1 := splitDash_comp hxs hd1 hdh
    rw [pyStrip_pad ha1 ha] at h1
    rw [show ((' ' :: (attr ++ [' '])) ++ '-' :: (' ' :: desc)) =
      ' ' :: (attr ++ ' ' :: '-' :: ' ' :: desc) from by
        simp [List.append_assoc]] at h1
    exact h1

theorem buildIconLine_normal (inner1 nm url attr desc : List Char) :
    buildIconLine (("<img".toList) ++ inner1 ++ ['>']) nm url attr desc =
      '-' :: ' ' :: '<' :: 'i' :: 'm' :: 'g' ::
        (inner1 ++ '>' :: (' ' :: '*' :: '*' :: '[' ::
          (nm ++ ']' :: ('(' :: (url ++ ')' :: ('*' :: '*' ::
            (if attr ≠ [] then ' ' :: (attr ++ ' ' :: '-' :: ' ' :: desc)
             else ' ' :: '-' :: ' ' :: desc))))))) := by
  unfold buildIconLine
  by_cases ha : attr = []
  · subst ha
    simp [lit_ds, lit_img, lit_sbb, lit_bp, lit_pbd, List.append_assoc]
  · simp [ha, lit_ds, lit_img, lit_sbb, lit_bp, lit_pbs, lit_sds,
      List.append_assoc]

theorem buildNoIconLine_normal (nm url attr desc : List Char) :
    buildNoIconLine nm url attr desc =
      '-' :: ' ' :: '*' :: '*' :: '[' ::
        (nm ++ ']' :: ('(' :: (url ++ ')' :: ('*' :: '*' ::
          (if attr ≠ [] then ' ' :: (attr ++ ' ' :: '-' :: ' ' :: desc)
           else ' ' :: '-' :: ' ' :: desc))))) := by
  unfold buildNoIconLine
  by_cases ha : attr = []
  · subst ha
    simp [lit_dbb, lit_bp, lit_pbd, List.append_assoc]
  · simp [ha, lit_dbb, lit_bp, lit_pbs, lit_sds, List.append_assoc]

theorem buildIconLine_head (img nm url attr desc : List Char) :
    (buildIconLine img nm url attr desc).head? = some '-' := by
  unfold buildIconLine
  split <;> rfl

theorem buildNoIconLine_head (nm url attr desc : List Char) :
    (buildNoIconLine nm url attr desc).head? = some '-' := by
  unfold buildNoIconLine
  split <;> rfl

theorem getLast?_some_of_ne_nil {l : List Char} (h : l ≠ []) :
    ∃ y, l.getLast? = some y := by
  cases hl : l.getLast? with
  | none => rw [List.getLast?_eq_none_iff] at hl; exact absurd hl h
  | some y => exact ⟨y, rfl⟩

theorem buildIconLine_getLast (img nm url attr desc : List Char)
    (hd : desc ≠ []) :
    (buildIconLine img nm url attr desc).getLast? = desc.getLast? := by
  unfold buildIconLine
  split
  all_goals
    rw [List.getLast?_append]
    cases hds : desc.getLast? with
    | none => rw [List.getLast?_eq_none_iff] at hds; exact absurd hds hd
    | some y => rfl

theorem buildNoIconLine_getLast (nm url attr desc : List Char)
    (hd : desc ≠ []) :
    (buildNoIconLine nm url attr desc).getLast? = desc.getLast? := by
  unfold buildNoIconLine
  split
  all_goals
    rw [List.getLast?_append]
    cases hds : desc.getLast? with
    | none => rw [List.getLast?_eq_none_iff] at hds; exact absurd hds hd
    | some y => rfl

/-- C3 (amended): extraction is idempotent for every line that extracts
successfully and whose extracted server name contains no `>`, no double
quote, no single quote, and is not entirely whitespace: re-extracting the
repaired complete line succeeds and returns the identical record. -/
theorem claim_C3 (line : List Char) (info : ServerInfo)
    (hx : extractServerInfoFromLine line = some info)
    (hg : '>' ∉ info.server_name) (hq : '"' ∉ info.server_name)
    (hs : squoteChar ∉ info.server_name)
    (hnb : pyStrip info.server_name ≠ []) :
    extractServerInfoFromLine info.complete_line = some info := by
  have hlast : ∀ x, (pyStrip line).getLast? = some x → pyWs x = false :=
    fun x hx2 => pyStrip_getLast_not_ws hx2
  simp only [extractServerInfoFromLine] at hx
  cases hicon : parseIconEntry (pyStrip line) with
  | some r =>
    rw [hicon] at hx
    obtain ⟨img, nm, url, attr, desc⟩ := r
    simp only [Option.some.injEq] at hx
    subst hx
    obtain ⟨⟨inner, himg, hinner⟩, hn1, hn2, hu1, hu2, ha1, ha2, hd1, hdh,
      hdl⟩ := parseIconEntry_inv hicon hlast
    subst himg
    dsimp only at hg hq hs hnb
    obtain ⟨inner1, hfix, hinner1, hidem⟩ := icon_fix_idem hinner hg hq hs hnb
    have hsd := splitDash_tail ha1 ha2 hd1 hdh
    have hparse : parseIconEntry (buildIconLine
        (("<img".toList) ++ inner1 ++ ['>']) nm url attr desc) =
        some (("<img".toList) ++ inner1 ++ ['>'], nm, url, attr, desc) := by
      rw [buildIconLine_normal]
      exact parseIconEntry_front hinner1 hn1 hn2 hu1 hu2 hsd
    obtain ⟨y, hy⟩ := getLast?_some_of_ne_nil hd1
    have hps_cl : pyStrip (buildIconLine
        (("<img".toList) ++ inner1 ++ ['>']) nm url attr desc) =
        buildIconLine (("<img".toList) ++ inner1 ++ ['>']) nm url attr desc :=
      pyStrip_eq_self (buildIconLine_head _ _ _ _ _) (by decide)
        (by rw [buildIconLine_getLast _ _ _ _ _ hd1]; exact hy) (hdl y hy)
    show extractServerInfoFromLine
        (buildIconLine (fixImgAltText (("<img".toList) ++ inner ++ ['>']) nm)
          nm url attr desc) = _
    rw [hfix]
    simp only [extractServerInfoFromLine]
    rw [hps_cl, hparse]
    show some (⟨nm, url, desc, buildIconLine
      (fixImgAltText (("<img".toList) ++ inner1 ++ ['>']) nm)
      nm url attr desc⟩ : ServerInfo) = _
    rw [hidem]
  | none =>
    rw [hicon] at hx
    cases hno : parseNoIconEntry (pyStrip line) with
    | none => rw [hno] at hx; cases hx
    | some r =>
      rw [hno] at hx
      obtain ⟨nm, url, attr, desc⟩ := r
      simp only [Option.some.injEq] at hx
      subst hx
      obtain ⟨hn1, hn2, hu1, hu2, ha1, ha2, hd1, hdh, hdl⟩ :=
        parseNoIconEntry_inv hno hlast
      have hsd := splitDash_tail ha1 ha2 hd1 hdh
      have hparse : parseNoIconEntry (buildNoIconLine nm url attr desc) =
          some (nm, url, attr, desc) := by
        rw [buildNoIconLine_normal]
        exact parseNoIconEntry_front hn1 hn2 hu1 hu2 hsd
      have hparse0 : parseIconEntry (buildNoIconLine nm url attr desc) =
          none := by
        rw [buildNoIconLine_normal]
        exact parseIconEntry_star _
      obtain ⟨y, hy⟩ := getLast?_some_of_ne_nil hd1
      have hps_cl : pyStrip (buildNoIconLine nm url attr desc) =
          buildNoIconLine nm url attr desc :=
        pyStrip_eq_self (buildNoIconLine_head _ _ _ _) (by decide)
          (by rw [buildNoIconLine_getLast _ _ _ _ hd1]; exact hy) (hdl y hy)
      show extractServerInfoFromLine (buildNoIconLine nm url attr desc) = _
      simp only [extractServerInfoFromLine]
      rw [hps_cl, hparse0, hparse]

/-- Witness for C3: a concrete line whose icon has no alt text extracts, and
re-extracting its repaired output is the identity. -/
theorem claim_C3_witness :
    extractServerInfoFromLine wC3Line = some wC3Info ∧
    extractServerInfoFromLine wC3Info.complete_line = some wC3Info :=
  ⟨by decide, claim_C3 wC3Line wC3Info (by decide) (by decide) (by decide)
    (by decide) (by decide)⟩

/-! ## Diff-level computation lemmas for the classifier -/

theorem splitOnNl_no_nl {l : List Char} (h : '\n' ∉ l) : splitOnNl l = [l] := by
  induction l with
  | nil => rfl
  | cons c rest ih =>
    have hc : ¬(c = '\n') := fun he => h (he ▸ List.mem_cons_self _ _)
    simp only [splitOnNl, if_neg hc,
      ih (fun hm => h (List.mem_cons_of_mem _ hm))]

theorem splitOnNl_append {xs : List Char} (ys : List Char) (h : '\n' ∉ xs) :
    splitOnNl (xs ++ '\n' :: ys) = xs :: splitOnNl ys := by
  induction xs with
  | nil => simp [splitOnNl]
  | cons c rest ih =>
    have hc : ¬(c = '\n') := fun he => h (he ▸ List.mem_cons_self _ _)
    rw [List.cons_append]
    simp only [splitOnNl, if_neg hc,
      ih (fun hm => h (List.mem_cons_of_mem _ hm))]

theorem addedParsed_nil : addedParsedLines [] = [] := rfl

theorem addedParsed_cons_skip {L : List Char}
    (h : (startsWithL L ("+".toList) &&
      !startsWithL L ("+++".toList)) = false) (rest : List (List Char)) :
    addedParsedLines (L :: rest) = addedParsedLines rest := by
  unfold addedParsedLines
  simp only [List.filterMap_cons]
  rw [h]
  simp

theorem addedParsed_cons_entry {L : List Char} {info : ServerInfo}
    (h1 : (startsWithL L ("+".toList) &&
      !startsWithL L ("+++".toList)) = true)
    (h2 : extractServerInfoFromLine (L.drop 1) = some info)
    (rest : List (List Char)) :
    addedParsedLines (L :: rest) =
      (L.drop 1, info) :: addedParsedLines rest := by
  unfold addedParsedLines
  simp only [List.filterMap_cons]
  rw [h1, h2]
  simp

theorem noise_nil : noiseCount [] = 0 := rfl

theorem noise_cons_skip {L : List Char}
    (h : (startsWithL L ("+".toList) && !startsWithL L ("+++".toList) &&
      !(pyStrip (L.drop 1)).isEmpty &&
      (extractServerInfoFromLine (L.drop 1)).isNone) = false)
    (rest : List (List Char)) :
    noiseCount (L :: rest) = noiseCount rest := by
  unfold noiseCount
  rw [List.filter_cons, h]
  simp

/-- C8 (amended): a diff adding exactly one well-formed icon entry line whose
img tag has a blank or missing alt attribute, on a PR without the resource
label and within the server limit, yields exactly one Entry; the Entry's
rendered line is rebuilt around the repaired tag, which writes the extracted
name as its alt attribute (`alt="name"` occurs verbatim in the line and the
rewritten dict binds "alt" to the name) with the written attribute keys in
the preferred order src, alt, width, height, class, style, then the
remainder.  Separately, the fallback categorization is "community" whenever
no category label, no icon marker, and no case-insensitive occurrence of
"official" is present (the converse direction of the original claim is
refuted by the counterexample). -/
theorem claim_C8 (pr : PRMeta) (ap : ApprovalInfo) (split : Bool) (maxS : Nat)
    (inner nm url desc : List Char)
    (hlab : ("add-community-resource".toList) ∉ pr.labels)
    (hmax : 1 ≤ maxS)
    (hinner : ∀ c ∈ inner, c ≠ '>' ∧ c ≠ '\n')
    (hnm1 : nm ≠ []) (hnm2 : ∀ c ∈ nm, c ≠ ']' ∧ c ≠ '\n')
    (hurl1 : url ≠ []) (hurl2 : ∀ c ∈ url, c ≠ ')' ∧ c ≠ '\n')
    (hd1 : desc ≠ []) (hd2 : pyWs (desc.headD ' ') = false)
    (hd3 : pyWs (desc.getLastD ' ') = false)
    (hdn : '\n' ∉ desc)
    (hblank : pyStrip ((lookupA ("alt".toList)
      (parseImgTag (("<img".toList) ++ inner ++ ['>']))).getD []) = []) :
    (∃ e : ServerEntry,
      analyzePR pr (some (("+++ b/README.md".toList) ++ '\n' :: '+' ::
          buildIconLine (("<img".toList) ++ inner ++ ['>']) nm url [] desc))
        split maxS ap = .ok [e] ∧
      e.server_name = nm ∧
      e.complete_line = buildIconLine
        (reconstructImgTag (dictInsert ("alt".toList) nm
          (parseImgTag (("<img".toList) ++ inner ++ ['>'])))) nm url [] desc ∧
      containsSub (renderAttr (("alt".toList), nm)) e.complete_line = true ∧
      lookupA ("alt".toList) (orderAttrs (dictInsert ("alt".toList) nm
        (parseImgTag (("<img".toList) ++ inner ++ ['>'])))) = some nm ∧
      PreferredOrder ((orderAttrs (dictInsert ("alt".toList) nm
        (parseImgTag (("<img".toList) ++ inner ++ ['>'])))).map Prod.fst)) ∧
    (∀ (labels : List (List Char)) (cl : List Char),
      ("add-official-server".toList) ∉ labels →
      ("add-community-server".toList) ∉ labels →
      containsSub ("<img".toList) cl = false →
      containsSub ("official".toList) (pyLower cl) = false →
      categorizeServerByLabels labels cl = ("community".toList)) := by
  have hinner1 : ∀ c ∈ inner, c ≠ '>' := fun c hc => (hinner c hc).1
  have hnm2a : ∀ c ∈ nm, c ≠ ']' := fun c hc => (hnm2 c hc).1
  have hurl2a : ∀ c ∈ url, c ≠ ')' := fun c hc => (hurl2 c hc).1
  have hd3a : ∀ x, desc.getLast? = some x → pyWs x = false := by
    intro x hx
    have hgd : desc.getLastD ' ' = x := by
      rw [List.getLastD_eq_getLast?, hx]
      rfl
    rwa [hgd] at hd3
  constructor
  · -- the scenario
    have hsd : splitDashParts (' ' :: '-' :: ' ' :: desc) = some ([], desc) := by
      have h := @splitDash_comp [' '] desc (by decide) hd1 hd2
      simpa using h
    have hshape : buildIconLine (("<img".toList) ++ inner ++ ['>'])
        nm url [] desc =
        '-' :: ' ' :: '<' :: 'i' :: 'm' :: 'g' ::
          (inner ++ '>' :: (' ' :: '*' :: '*' :: '[' ::
            (nm ++ ']' :: ('(' :: (url ++ ')' :: ('*' :: '*' ::
              (' ' :: '-' :: ' ' :: desc))))))) := by
      rw [buildIconLine_normal, if_neg (by simp)]
    have hparse : parseIconEntry (buildIconLine
        (("<img".toList) ++ inner ++ ['>']) nm url [] desc) =
        some (("<img".toList) ++ inner ++ ['>'], nm, url, [], desc) := by
      rw [hshape]
      exact parseIconEntry_front hinner1 hnm1 hnm2a hurl1 hurl2a hsd
    obtain ⟨y, hy⟩ := getLast?_some_of_ne_nil hd1
    have hps_cl : pyStrip (buildIconLine (("<img".toList) ++ inner ++ ['>'])
        nm url [] desc) =
        buildIconLine (("<img".toList) ++ inner ++ ['>']) nm url [] desc :=
      pyStrip_eq_self (buildIconLine_head _ _ _ _ _) (by decide)
        (by rw [buildIconLine_getLast _ _ _ _ _ hd1]; exact hy) (hd3a y hy)
    have hfixline : fixImgAltText (("<img".toList) ++ inner ++ ['>']) nm =
        reconstructImgTag (dictInsert ("alt".toList) nm
          (parseImgTag (("<img".toList) ++ inner ++ ['>']))) := by
      rw [fixImgAltText_single nm (findImgTag_build hinner1) (by simp)]
      exact fixOneImg_blank nm hblank
    have hx : extractServerInfoFromLine (buildIconLine
        (("<img".toList) ++ inner ++ ['>']) nm url [] desc) =
        some ⟨nm, url, desc, buildIconLine
          (reconstructImgTag (dictInsert ("alt".toList) nm
            (parseImgTag (("<img".toList) ++ inner ++ ['>']))))
          nm url [] desc⟩ := by
      simp only [extractServerInfoFromLine]
      rw [hps_cl, hparse]
      show some (⟨nm, url, desc, buildIconLine
        (fixImgAltText (("<img".toList) ++ inner ++ ['>']) nm)
        nm url [] desc⟩ : ServerInfo) = _
      rw [hfixline]
    have hnl_line : '\n' ∉ buildIconLine (("<img".toList) ++ inner ++ ['>'])
        nm url [] desc := by
      rw [hshape]
      intro hm
      simp +decide only [List.mem_cons, List.mem_append, false_or,
        or_false] at hm
      rcases hm with hm | hm | hm | hm
      · exact (hinner _ hm).2 rfl
      · exact (hnm2 _ hm).2 rfl
      · exact (hurl2 _ hm).2 rfl
      · exact hdn hm
    have hnl2 : '\n' ∉ '+' :: buildIconLine
        (("<img".toList) ++ inner ++ ['>']) nm url [] desc := by
      intro hm
      rcases List.mem_cons.mp hm with hm | hm
      · cases hm
      · exact hnl_line hm
    have hdiffsplit : splitOnNl (("+++ b/README.md".toList) ++ '\n' :: '+' ::
        buildIconLine (("<img".toList) ++ inner ++ ['>']) nm url [] desc) =
        [("+++ b/README.md".toList), '+' :: buildIconLine
          (("<img".toList) ++ inner ++ ['>']) nm url [] desc] := by
      rw [splitOnNl_append _ (by decide), splitOnNl_no_nl hnl2]
    have hc1 : (startsWithL ("+++ b/README.md".toList) ("+".toList) &&
        !startsWithL ("+++ b/README.md".toList) ("+++".toList)) = false := by
      decide
    have hc2 : (startsWithL ('+' :: buildIconLine
        (("<img".toList) ++ inner ++ ['>']) nm url [] desc) ("+".toList) &&
        !startsWithL ('+' :: buildIconLine
          (("<img".toList) ++ inner ++ ['>']) nm url [] desc)
          ("+++".toList)) = true := by
      rw [hshape]
      simp [startsWithL, show ("+".toList) = ['+'] from rfl,
        show ("+++".toList) = ['+', '+', '+'] from rfl]
    have hadd : addedParsedLines [("+++ b/README.md".toList),
        '+' :: buildIconLine (("<img".toList) ++ inner ++ ['>'])
          nm url [] desc] =
        [(buildIconLine (("<img".toList) ++ inner ++ ['>']) nm url [] desc,
          ⟨nm, url, desc, buildIconLine
            (reconstructImgTag (dictInsert ("alt".toList) nm
              (parseImgTag (("<img".toList) ++ inner ++ ['>']))))
            nm url [] desc⟩)] := by
      rw [addedParsed_cons_skip hc1, addedParsed_cons_entry hc2 hx []]
      rfl
    have hnoise2 : (startsWithL ('+' :: buildIconLine
        (("<img".toList) ++ inner ++ ['>']) nm url [] desc) ("+".toList) &&
        !startsWithL ('+' :: buildIconLine
          (("<img".toList) ++ inner ++ ['>']) nm url [] desc)
          ("+++".toList) &&
        !(pyStrip (('+' :: buildIconLine
          (("<img".toList) ++ inner ++ ['>']) nm url [] desc).drop
            1)).isEmpty &&
        (extractServerInfoFromLine (('+' :: buildIconLine
          (("<img".toList) ++ inner ++ ['>']) nm url [] desc).drop
            1)).isNone) = false := by
      have hdrop : (('+' :: buildIconLine
          (("<img".toList) ++ inner ++ ['>']) nm url [] desc).drop 1) =
          buildIconLine (("<img".toList) ++ inner ++ ['>']) nm url [] desc :=
        rfl
      rw [hdrop, hx]
      simp
    have hnoise : noiseCount [("+++ b/README.md".toList),
        '+' :: buildIconLine (("<img".toList) ++ inner ++ ['>'])
          nm url [] desc] = 0 := by
      rw [noise_cons_skip (by decide), noise_cons_skip hnoise2, noise_nil]
    have hcont : containsSub ("README.md".toList)
        (("+++ b/README.md".toList) ++ '\n' :: '+' ::
          buildIconLine (("<img".toList) ++ inner ++ ['>'])
            nm url [] desc) = true := by
      rw [show ("+++ b/README.md".toList) =
        ("+++ b/".toList) ++ ("README.md".toList) from rfl, List.append_assoc]
      exact containsSub_mid _ _ _
    have hbody : analyzePR pr (some (("+++ b/README.md".toList) ++ '\n' ::
        '+' :: buildIconLine (("<img".toList) ++ inner ++ ['>'])
          nm url [] desc)) split maxS ap =
        .ok (buildServerEntries pr ap 1 0
          [(buildIconLine (("<img".toList) ++ inner ++ ['>']) nm url [] desc,
            ⟨nm, url, desc, buildIconLine
              (reconstructImgTag (dictInsert ("alt".toList) nm
                (parseImgTag (("<img".toList) ++ inner ++ ['>']))))
              nm url [] desc⟩)]) := by
      unfold analyzePR
      rw [if_neg hlab]
      show analyzePRBody pr (("+++ b/README.md".toList) ++ '\n' :: '+' ::
        buildIconLine (("<img".toList) ++ inner ++ ['>']) nm url [] desc)
        split maxS ap = _
      unfold analyzePRBody
      rw [hdiffsplit, hadd, hnoise]
      rw [if_neg (by simp)]
      rw [hcont]
      rw [if_neg (by decide : ¬((!true) = true))]
      rw [if_neg (by simp)]
      rw [if_neg (by simp only [List.length_singleton]; omega)]
      rw [if_neg (by simp)]
      rw [if_neg (by simp)]
      rw [List.length_singleton]
    have hbuild : ∃ e, buildServerEntries pr ap 1 0
        [(buildIconLine (("<img".toList) ++ inner ++ ['>']) nm url [] desc,
          ⟨nm, url, desc, buildIconLine
            (reconstructImgTag (dictInsert ("alt".toList) nm
              (parseImgTag (("<img".toList) ++ inner ++ ['>']))))
            nm url [] desc⟩)] = [e] ∧
        e.server_name = nm ∧
        e.complete_line = buildIconLine
          (reconstructImgTag (dictInsert ("alt".toList) nm
            (parseImgTag (("<img".toList) ++ inner ++ ['>']))))
          nm url [] desc := by
      unfold buildServerEntries
      rw [if_neg (by rw [display_not_blank]; simp)]
      exact ⟨_, rfl, rfl, rfl⟩
    obtain ⟨e0, he1, he2, he3⟩ := hbuild
    have halt_lookup : lookupA ("alt".toList) (orderAttrs
        (dictInsert ("alt".toList) nm
          (parseImgTag (("<img".toList) ++ inner ++ ['>'])))) = some nm :=
      lookupA_orderAttrs_alt (lookupA_dictInsert_self _ _ _)
    have halt_in : containsSub (renderAttr (("alt".toList), nm))
        (buildIconLine (reconstructImgTag (dictInsert ("alt".toList) nm
          (parseImgTag (("<img".toList) ++ inner ++ ['>']))))
          nm url [] desc) = true := by
      have hmem : (("alt".toList), nm) ∈ orderAttrs
          (dictInsert ("alt".toList) nm
            (parseImgTag (("<img".toList) ++ inner ++ ['>']))) :=
        lookupA_mem halt_lookup
      have hmem2 : renderAttr (("alt".toList), nm) ∈
          (orderAttrs (dictInsert ("alt".toList) nm
            (parseImgTag (("<img".toList) ++ inner ++ ['>'])))).map
            renderAttr := List.mem_map_of_mem _ hmem
      obtain ⟨u, v, huv⟩ := joinSpace_decomp hmem2
      rw [reconstructImgTag_shape, buildIconLine_normal,
        if_neg (by simp), huv]
      rw [show ('-' :: ' ' :: '<' :: 'i' :: 'm' :: 'g' ::
          ((' ' :: (u ++ renderAttr (("alt".toList), nm) ++ v)) ++ '>' ::
            (' ' :: '*' :: '*' :: '[' ::
              (nm ++ ']' :: ('(' :: (url ++ ')' :: ('*' :: '*' ::
                (' ' :: '-' :: ' ' :: desc)))))))) =
        ('-' :: ' ' :: '<' :: 'i' :: 'm' :: 'g' :: ' ' :: u) ++
          (renderAttr (("alt".toList), nm) ++ (v ++ '>' ::
            (' ' :: '*' :: '*' :: '[' ::
              (nm ++ ']' :: ('(' :: (url ++ ')' :: ('*' :: '*' ::
                (' ' :: '-' :: ' ' :: desc)))))))) from by
          simp [List.append_assoc]]
      exact containsSub_mid _ _ _
    refine ⟨e0, ?_, he2, he3, ?_, halt_lookup, orderAttrs_preferred _⟩
    · rw [hbody, he1]
    · rw [he3]
      exact halt_in
  · -- the categorization direction
    intro labels cl h1 h2 h3 h4
    unfold categorizeServerByLabels categorizeServer
    rw [if_neg h1, if_neg h2, h3, h4]
    rw [if_neg (by decide : ¬((false || false) = true))]

/-- Witness for C8: a concrete PR with a one-line diff whose icon lacks alt
text, at the limit boundary `maxS = 1`. -/
theorem claim_C8_witness :
    (∃ e : ServerEntry,
      analyzePR wC8PR (some (("+++ b/README.md".toList) ++ '\n' :: '+' ::
          buildIconLine (("<img".toList) ++ wC8Inner ++ ['>'])
            ("Acme".toList) ("https://acme".toList) []
            ("does things".toList)))
        true 1 wC8Ap = .ok [e] ∧
      e.server_name = ("Acme".toList) ∧
      e.complete_line = buildIconLine
        (reconstructImgTag (dictInsert ("alt".toList) ("Acme".toList)
          (parseImgTag (("<img".toList) ++ wC8Inner ++ ['>']))))
        ("Acme".toList) ("https://acme".toList) [] ("does things".toList) ∧
      containsSub (renderAttr (("alt".toList), ("Acme".toList)))
        e.complete_line = true ∧
      lookupA ("alt".toList) (orderAttrs (dictInsert ("alt".toList)
        ("Acme".toList)
        (parseImgTag (("<img".toList) ++ wC8Inner ++ ['>'])))) =
        some ("Acme".toList) ∧
      PreferredOrder ((orderAttrs (dictInsert ("alt".toList) ("Acme".toList)
        (parseImgTag (("<img".toList) ++ wC8Inner ++ ['>'])))).map
        Prod.fst)) ∧
    (∀ (labels : List (List Char)) (cl : List Char),
      ("add-official-server".toList) ∉ labels →
      ("add-community-server".toList) ∉ labels →
      containsSub ("<img".toList) cl = false →
      containsSub ("official".toList) (pyLower cl) = false →
      categorizeServerByLabels labels cl = ("community".toList)) :=
  claim_C8 wC8PR wC8Ap true 1 wC8Inner ("Acme".toList)
    ("https://acme".toList) ("does things".toList)
    (by decide) (by decide) (by decide) (by decide) (by decide) (by decide)
    (by decide) (by decide) (by decide) (by decide) (by decide) (by decide)

end McpMisc
